import Mathlib

/-!
Tilck (exOS) kernel core: page allocation, ramfs inode lifetime, path resolution.

A shallow embedding of `kernel/mm/pg_alloc.c`, `kernel/fs/ramfs/ramfs.c` and
`kernel/fs/vfs/vfs_resolve.c.h`, with the properties of the specification
stated and proved over it.

Conventions.
* `uptr` is the 32-bit unsigned word of the i386 target: additions on virtual
  addresses are taken modulo `2 ^ 32`.
* `int page_count` is modelled by a natural number (the properties only
  concern `page_count >= 0`; no `int` operation of the code can overflow
  there, because every intermediate value is bounded by `page_count`).
* A failing `ASSERT` / `VERIFY` or the dereference of a dangling pointer is
  modelled by the result `none`.
-/

set_option autoImplicit false

namespace Tilck

/-! ## Part 1. Page frames and page mappings -/

/-- Size of a page in bytes on x86 (from the absent `exos/paging.h`). -/
def PAGE_SIZE : Nat := 4096

/-- One more than the largest `uptr` on i386. -/
def UPTR_MOD : Nat := 2 ^ 32

/-- Modelled from the spec: the state of the pageframe allocator (absent
`pageframe_allocator.c`), which "tracks free physical page frames" with a
bitmap abstraction: `nframes` frames, frame `i` being reserved iff `used i`. -/
structure pfa_state where
  nframes : Nat
  used : Nat → Bool

/-- A present page-table entry: physical address and the two flags given to
`map_pages` (`us` = user accessible, `rw` = writable). -/
structure pte where
  paddr : Nat
  us : Bool
  rw : Bool
deriving DecidableEq, Repr

/-- The calls made to the pageframe allocator and to the page mapper, in the
order in which they happen (recorded for the properties that speak about the
calls themselves; no operation ever reads it). -/
inductive pf_call where
  | alloc_32 (r : Option Nat)
  | alloc_8 (r : Option Nat)
  | alloc_1 (r : Option Nat)
  | free_8 (paddr : Nat)
  | free_1 (paddr : Nat)
  | map (vaddr paddr count : Nat)
  | unmap (vaddr count : Nat)
deriving DecidableEq, Repr

/-- The part of the kernel state that `pg_alloc.c` works on: the pageframe
allocator, the kernel page directory (virtual page address to entry) and the
record of the calls made so far. -/
structure kstate where
  pfa : pfa_state
  pdir : Nat → Option pte
  calls : List pf_call

/-- Modelled from the spec: `get_free_pg_count()`, the number of free frames. -/
def get_free_pg_count (s : kstate) : Nat :=
  (List.range s.pfa.nframes).countP (fun i => !s.pfa.used i)

/-- All `k` frames starting at frame `fb` are free. -/
def group_free (a : pfa_state) (fb k : Nat) : Bool :=
  (List.range k).all (fun i => !a.used (fb + i))

/-- Reserve the `k` frames starting at frame `fb`. -/
def mark_used (a : pfa_state) (fb k : Nat) : pfa_state :=
  { a with used := fun i => if fb ≤ i ∧ i < fb + k then true else a.used i }

/-- Release the `k` frames starting at frame `fb`. -/
def mark_free (a : pfa_state) (fb k : Nat) : pfa_state :=
  { a with used := fun i => if fb ≤ i ∧ i < fb + k then false else a.used i }

/-- Modelled from the spec: the allocation primitive behind `alloc_pageframe`,
`alloc_8_pageframes` and `alloc_32_pageframes` (absent
`pageframe_allocator.c`): it reserves `k` contiguous, `k`-aligned frames that
are all free (the first such group) and returns the physical address of the
first one, or fails ("Invalid") when there is no such group. A batch is
indivisible: either all its frames are reserved or nothing changes. -/
def alloc_block (k : Nat) (a : pfa_state) : Option (Nat × pfa_state) :=
  match (List.range (a.nframes / k)).find? (fun g => group_free a (g * k) k) with
  | none => none
  | some g => some (g * k * PAGE_SIZE, mark_used a (g * k) k)

/-- Modelled from the spec: `alloc_32_pageframes()`. -/
def alloc_32_pageframes (s : kstate) : Option Nat × kstate :=
  match alloc_block 32 s.pfa with
  | none => (none, { s with calls := s.calls ++ [pf_call.alloc_32 none] })
  | some (p, a) => (some p, { s with pfa := a, calls := s.calls ++ [pf_call.alloc_32 (some p)] })

/-- Modelled from the spec: `alloc_8_pageframes()`. -/
def alloc_8_pageframes (s : kstate) : Option Nat × kstate :=
  match alloc_block 8 s.pfa with
  | none => (none, { s with calls := s.calls ++ [pf_call.alloc_8 none] })
  | some (p, a) => (some p, { s with pfa := a, calls := s.calls ++ [pf_call.alloc_8 (some p)] })

/-- Modelled from the spec: `alloc_pageframe()`. -/
def alloc_pageframe (s : kstate) : Option Nat × kstate :=
  match alloc_block 1 s.pfa with
  | none => (none, { s with calls := s.calls ++ [pf_call.alloc_1 none] })
  | some (p, a) => (some p, { s with pfa := a, calls := s.calls ++ [pf_call.alloc_1 (some p)] })

/-- Modelled from the spec: `free_8_pageframes(paddr)` releases the 8 frames
starting at the frame of `paddr`. -/
def free_8_pageframes (s : kstate) (paddr : Nat) : kstate :=
  { s with pfa := mark_free s.pfa (paddr / PAGE_SIZE) 8,
           calls := s.calls ++ [pf_call.free_8 paddr] }

/-- Modelled from the spec: `free_pageframe(paddr)` releases the frame of
`paddr`. -/
def free_pageframe (s : kstate) (paddr : Nat) : kstate :=
  { s with pfa := mark_free s.pfa (paddr / PAGE_SIZE) 1,
           calls := s.calls ++ [pf_call.free_1 paddr] }

/-- The address of the `j`-th page after `v`, in `uptr` arithmetic. -/
def vpage (v j : Nat) : Nat := (v + j * PAGE_SIZE) % UPTR_MOD

/-- Page directory after mapping `count` consecutive pages from `vaddr` to the
consecutive frames from `paddr`. -/
def map_range (pd : Nat → Option pte) (vaddr paddr : Nat) (us rw : Bool) :
    Nat → Nat → Option pte
  | 0 => pd
  | k + 1 => fun x =>
      if x = vpage vaddr k then some ⟨paddr + k * PAGE_SIZE, us, rw⟩
      else map_range pd vaddr paddr us rw k x

/-- Page directory after unmapping `count` consecutive pages from `vaddr`. -/
def unmap_range (pd : Nat → Option pte) (vaddr : Nat) : Nat → Nat → Option pte
  | 0 => pd
  | k + 1 => fun x => if x = vpage vaddr k then none else unmap_range pd vaddr k x

/-- Modelled from the spec: `map_pages(pdir, vaddr, paddr, count, us, rw)` of
the page mapper (absent `paging.c`). -/
def map_pages (s : kstate) (vaddr paddr count : Nat) (us rw : Bool) : kstate :=
  { s with pdir := map_range s.pdir vaddr paddr us rw count,
           calls := s.calls ++ [pf_call.map vaddr paddr count] }

/-- Modelled from the spec: `unmap_pages(pdir, vaddr, count)`. -/
def unmap_pages (s : kstate) (vaddr count : Nat) : kstate :=
  { s with pdir := unmap_range s.pdir vaddr count,
           calls := s.calls ++ [pf_call.unmap vaddr count] }

/-- Modelled from the spec: `get_mapping(pdir, vaddr)`, the physical address
the page at `vaddr` is mapped to; asking for a page that is not mapped is a
failure. -/
def get_mapping (s : kstate) (vaddr : Nat) : Option Nat :=
  (s.pdir vaddr).map pte.paddr

/-- First loop of `pg_free_and_unmap` (lines 24-27), with `k` iterations left. -/
def free_8_loop : Nat → kstate → Nat → Option (kstate × Nat)
  | 0, s, curr_vaddr => some (s, curr_vaddr)
  | k + 1, s, curr_vaddr =>
    match get_mapping s curr_vaddr with
    | none => none
    | some paddr =>
      free_8_loop k (free_8_pageframes s paddr) ((curr_vaddr + 8 * PAGE_SIZE) % UPTR_MOD)

/-- Second loop of `pg_free_and_unmap` (lines 31-34), with `k` iterations left. -/
def free_1_loop : Nat → kstate → Nat → Option (kstate × Nat)
  | 0, s, curr_vaddr => some (s, curr_vaddr)
  | k + 1, s, curr_vaddr =>
    match get_mapping s curr_vaddr with
    | none => none
    | some paddr =>
      free_1_loop k (free_pageframe s paddr) ((curr_vaddr + PAGE_SIZE) % UPTR_MOD)

/-- The function `pg_free_and_unmap(vaddr, page_count)` of `pg_alloc.c`. -/
def pg_free_and_unmap (s : kstate) (vaddr page_count : Nat) : Option kstate :=
  if vaddr &&& (PAGE_SIZE - 1) ≠ 0 then none
  else
    let page_count_div_8 := page_count >>> 3
    match free_8_loop page_count_div_8 s vaddr with
    | none => none
    | some (s1, curr_vaddr) =>
      let rem := page_count - (page_count_div_8 <<< 3)
      match free_1_loop rem s1 curr_vaddr with
      | none => none
      | some (s2, _) => some (unmap_pages s2 vaddr page_count)

/-- First loop of `pg_alloc_and_map` (lines 53-64), with `k` iterations left;
it returns the state, `curr_vaddr` and `allocated`. -/
def alloc_32_loop : Nat → kstate → Nat → Nat → kstate × Nat × Nat
  | 0, s, curr_vaddr, allocated => (s, curr_vaddr, allocated)
  | k + 1, s, curr_vaddr, allocated =>
    match alloc_32_pageframes s with
    | (none, s1) => (s1, curr_vaddr, allocated)
    | (some paddr, s1) =>
      alloc_32_loop k (map_pages s1 curr_vaddr paddr 32 false true)
        ((curr_vaddr + 32 * PAGE_SIZE) % UPTR_MOD) (allocated + 32)

/-- Second loop of `pg_alloc_and_map` (lines 68-84), with `k` iterations left.
The flag is `false` when the loop left the function through `return false`. -/
def alloc_8_loop (vaddr : Nat) : Nat → kstate → Nat → Nat → Option (Bool × kstate × Nat × Nat)
  | 0, s, curr_vaddr, allocated => some (true, s, curr_vaddr, allocated)
  | k + 1, s, curr_vaddr, allocated =>
    match alloc_8_pageframes s with
    | (none, s1) =>
      match pg_free_and_unmap s1 vaddr allocated with
      | none => none
      | some s2 => some (false, s2, curr_vaddr, allocated)
    | (some paddr, s1) =>
      alloc_8_loop vaddr k (map_pages s1 curr_vaddr paddr 8 false true)
        ((curr_vaddr + 8 * PAGE_SIZE) % UPTR_MOD) (allocated + 8)

/-- Third loop of `pg_alloc_and_map` (lines 88-99), with `k` iterations left. -/
def alloc_1_loop : Nat → kstate → Nat → Nat → Option (kstate × Nat × Nat)
  | 0, s, curr_vaddr, allocated => some (s, curr_vaddr, allocated)
  | k + 1, s, curr_vaddr, allocated =>
    match alloc_pageframe s with
    | (none, _) => none
    | (some paddr, s1) =>
      alloc_1_loop k (map_pages s1 curr_vaddr paddr 1 false true)
        ((curr_vaddr + PAGE_SIZE) % UPTR_MOD) (allocated + 1)

/-- The function `pg_alloc_and_map(vaddr, page_count)` of `pg_alloc.c`. -/
def pg_alloc_and_map (s : kstate) (vaddr page_count : Nat) : Option (Bool × kstate) :=
  if vaddr &&& (PAGE_SIZE - 1) ≠ 0 then none
  else if get_free_pg_count s < page_count then some (false, s)
  else
    let page_count_div_32 := page_count >>> 5
    match alloc_32_loop page_count_div_32 s vaddr 0 with
    | (s1, curr_vaddr1, allocated1) =>
      let rem_div_8 := (page_count - allocated1) >>> 3
      match alloc_8_loop vaddr rem_div_8 s1 curr_vaddr1 allocated1 with
      | none => none
      | some (false, s2, _, _) => some (false, s2)
      | some (true, s2, curr_vaddr2, allocated2) =>
        let rem := page_count - allocated2
        match alloc_1_loop rem s2 curr_vaddr2 allocated2 with
        | none => none
        | some (s3, _, allocated3) =>
          if allocated3 = page_count then some (true, s3) else none

/-- The allocator manages at most `2 ^ 20` frames, so that every physical
address fits in a `uptr`. -/
def pfa_wf (s : kstate) : Prop := s.pfa.nframes * PAGE_SIZE ≤ UPTR_MOD

instance (s : kstate) : Decidable (pfa_wf s) :=
  inferInstanceAs (Decidable (s.pfa.nframes * PAGE_SIZE ≤ UPTR_MOD))

/-- A small machine for experiments: 48 frames of which frames 8 and 40 are
reserved, nothing mapped. -/
def demo_state : kstate :=
  { pfa := { nframes := 48, used := fun i => decide (i = 8 ∨ i = 40) },
    pdir := fun _ => none,
    calls := [] }

/-! ### Invariants of the allocation loops -/

/-- Relation between the state `s0` at the entry of `pg_alloc_and_map` and a
later state `s` in which the first `al` pages after `v` have been allocated,
page `j` being backed by frame `fr j`. -/
structure alloc_inv (s0 s : kstate) (v al : Nat) (fr : Nat → Nat) : Prop where
  nfr : s.pfa.nframes = s0.pfa.nframes
  inj : ∀ i j, i < al → j < al → fr i = fr j → i = j
  was_free : ∀ j, j < al → fr j < s0.pfa.nframes ∧ s0.pfa.used (fr j) = false
  used : ∀ f, s.pfa.used f = true ↔ (s0.pfa.used f = true ∨ ∃ j, j < al ∧ fr j = f)
  mapped : ∀ j, j < al → s.pdir (vpage v j) = some ⟨fr j * PAGE_SIZE, false, true⟩
  frame : ∀ x, (∀ j, j < al → x ≠ vpage v j) → s.pdir x = s0.pdir x
  count : get_free_pg_count s + al = get_free_pg_count s0

/-- Grouping and provenance of the frames behind the first `al` pages: the
first `m` pages are backed by 8-frame groups obtained in batches, the others
by single frames; `T` is the list of calls made since `s0`. -/
structure group_inv (s0 s : kstate) (al m : Nat) (fr : Nat → Nat) (T : List pf_call) : Prop where
  calls : s.calls = s0.calls ++ T
  m_le : m ≤ al
  m_dvd : 8 ∣ m
  grouped : ∀ g k, 8 * g + 8 ≤ m → k < 8 → fr (8 * g + k) = fr (8 * g) + k
  from_batch : ∀ g, 8 * g + 8 ≤ m →
    pf_call.alloc_8 (some (fr (8 * g) * PAGE_SIZE)) ∈ T ∨
    ∃ q k, pf_call.alloc_32 (some q) ∈ T ∧ k < 4 ∧
      fr (8 * g) * PAGE_SIZE = q + 8 * k * PAGE_SIZE
  from_single : ∀ j, m ≤ j → j < al → pf_call.alloc_1 (some (fr j * PAGE_SIZE)) ∈ T
  only_alloc : ∀ c, c ∈ T → (∀ p, c ≠ pf_call.free_8 p) ∧ (∀ p, c ≠ pf_call.free_1 p)
    ∧ (∀ a b, c ≠ pf_call.unmap a b)

/-- The calls made by `pg_free_and_unmap (v, al)` when pages `j < al` are
backed by the frames `fr j`. -/
def free_calls (v al : Nat) (fr : Nat → Nat) : List pf_call :=
  (List.range (al / 8)).map (fun g => pf_call.free_8 (fr (8 * g) * PAGE_SIZE)) ++
  (List.range (al % 8)).map (fun i => pf_call.free_1 (fr (8 * (al / 8) + i) * PAGE_SIZE)) ++
  [pf_call.unmap v al]

/-- The physical addresses of the frames that a call handed out. -/
def call_frames : pf_call → List Nat
  | pf_call.alloc_32 (some p) => (List.range 32).map (fun i => p + i * PAGE_SIZE)
  | pf_call.alloc_8 (some p) => (List.range 8).map (fun i => p + i * PAGE_SIZE)
  | pf_call.alloc_1 (some p) => [p]
  | _ => []

/-- The call is a `free_8_pageframes`. -/
def is_free_8 : pf_call → Bool
  | pf_call.free_8 _ => true
  | _ => false

/-- The call is a `free_pageframe`. -/
def is_free_1 : pf_call → Bool
  | pf_call.free_1 _ => true
  | _ => false

/-- A second machine: 80 frames of which frames 40 and 70 are reserved,
nothing mapped. -/
def demo_state_80 : kstate :=
  { pfa := { nframes := 80, used := fun i => decide (i = 40 ∨ i = 70) },
    pdir := fun _ => none,
    calls := [] }

/-- A third machine: `demo_state_80` in which the page at 4096 is already
mapped, to the reserved frame 40. -/
def demo_state_premapped : kstate :=
  { pfa := demo_state_80.pfa,
    pdir := fun x => if x = 4096 then some ⟨40 * PAGE_SIZE, false, true⟩ else none,
    calls := [] }

/-- The calls of a run of successful batch allocations: each allocation of
`cnt` frames (at the physical addresses `ps`, in order) is followed by the
mapping of the `cnt` pages that come next in the range at `v`, `al` pages of
which are already allocated. -/
def batch_calls (mk : Option Nat → pf_call) (cnt v : Nat) : Nat → List Nat → List pf_call
  | _, [] => []
  | al, p :: ps =>
    mk (some p) :: pf_call.map (vpage v al) p cnt :: batch_calls mk cnt v (al + cnt) ps

/-! ## Part 2. The ram filesystem (kernel/fs/ramfs/ramfs.c) -/

/-- The kind of a filesystem entity (`VFS_NONE` is the zero value). -/
inductive vfs_entry_type where
  | VFS_NONE
  | VFS_FILE
  | VFS_DIR
deriving DecidableEq, Repr

open vfs_entry_type

/-- Error numbers (from the absent `errno.h`), returned negated. -/
def ENOENT : Int := 2

def ENOMEM : Int := 12

def EACCES : Int := 13

def EEXIST : Int := 17

def ENOTDIR : Int := 20

def EISDIR : Int := 21

/-- A ramfs directory entry: a name and a non-owning pointer to the target
inode (pointers to inodes are modelled by natural numbers, the keys of the
inode store). -/
structure ramfs_entry where
  name : List Char
  inode : Nat
deriving DecidableEq, Repr

/-- A ramfs inode: type, permission bits, link count, open-handle reference
count, and payload (byte content of a file, entries of a directory). -/
structure ramfs_inode where
  type : vfs_entry_type
  mode : Nat
  nlink : Nat
  ref_count : Nat
  content : List Nat
  entries : List ramfs_entry
deriving DecidableEq, Repr

/-- The device data of a ramfs instance: the root pointer, the next inode
number, the store of live inodes, and the record of the calls of
`ramfs_destroy_inode` (pointer and state of the inode at the call), in order;
no operation ever reads this record. -/
structure ramfs_data where
  root : Option Nat
  next_inode_num : Nat
  inodes : Nat → Option ramfs_inode
  destroyed : List (Nat × ramfs_inode)

/-- The descriptor of a filesystem entity that `get_entry` fills in. -/
structure fs_path_struct where
  inode : Option Nat
  dir_inode : Option Nat
  dir_entry : Option ramfs_entry
  type : vfs_entry_type
deriving DecidableEq, Repr

/-- The result of a path resolution: the filesystem, the descriptor of the
final entity, and the position in the path text where the last component
starts. -/
structure vfs_path where
  fs : Option Nat
  fs_path : fs_path_struct
  last_comp : Option Nat
deriving DecidableEq, Repr

/-- An open handle of ramfs: it points to its inode. -/
structure ramfs_handle where
  inode : Nat
deriving DecidableEq, Repr

/-- Store `ino` at the address `p`. -/
def set_inode (d : ramfs_data) (p : Nat) (ino : ramfs_inode) : ramfs_data :=
  { d with inodes := fun q => if q = p then some ino else d.inodes q }

/-- Modelled from the spec: `ramfs_create_inode_dir` / `ramfs_create_inode_file`
(absent `inodes.c.h`): "allocate inode, zero-initialize payload, set mode and
type, nlink = 0, ref_count = 0". The new inode lives at the address given by
its inode number. -/
def ramfs_create_inode (d : ramfs_data) (type : vfs_entry_type) (mode : Nat) :
    Option (Nat × ramfs_data) :=
  some (d.next_inode_num,
    { set_inode d d.next_inode_num
        { type := type, mode := mode, nlink := 0, ref_count := 0, content := [], entries := [] }
      with next_inode_num := d.next_inode_num + 1 })

/-- Modelled from the spec: `ramfs_create_inode_dir(d, mode, parent)`. -/
def ramfs_create_inode_dir (d : ramfs_data) (mode : Nat) (_parent : Option Nat) :
    Option (Nat × ramfs_data) :=
  ramfs_create_inode d VFS_DIR mode

/-- Modelled from the spec: `ramfs_create_inode_file(d, mode, parent)`. -/
def ramfs_create_inode_file (d : ramfs_data) (mode : Nat) (_parent : Option Nat) :
    Option (Nat × ramfs_data) :=
  ramfs_create_inode d VFS_FILE mode

/-- Modelled from the spec: `ramfs_dir_get_entry_by_name(idir, name, len)`
(absent `dir_entries.c.h`), the lookup of an entry by its name. -/
def ramfs_dir_get_entry_by_name (idir : ramfs_inode) (name : List Char) : Option ramfs_entry :=
  idir.entries.find? (fun e => decide (e.name = name))

/-- Modelled from the spec: `ramfs_dir_add_entry(idir, name, inode)`: "fails if
an entry with that name already exists; on success increments target inode's
nlink and inserts the named entry". -/
def ramfs_dir_add_entry (d : ramfs_data) (idir : Nat) (name : List Char) (i : Nat) :
    Option (Int × ramfs_data) :=
  match d.inodes idir with
  | none => none
  | some dino =>
    if (ramfs_dir_get_entry_by_name dino name).isSome then some (-EEXIST, d)
    else
      match d.inodes i with
      | none => none
      | some ino =>
        let d1 := set_inode d i { ino with nlink := ino.nlink + 1 }
        match d1.inodes idir with
        | none => none
        | some dino1 =>
          some (0, set_inode d1 idir { dino1 with entries := dino1.entries ++ [⟨name, i⟩] })

/-- Modelled from the spec: `ramfs_dir_remove_entry(idir, e)`: "removal
decrements nlink and does not itself free the inode". The entry has to be one
of `idir`, and `nlink` counts the entries that point to the inode, so that it
is positive. -/
def ramfs_dir_remove_entry (d : ramfs_data) (idir : Nat) (e : ramfs_entry) : Option ramfs_data :=
  match d.inodes idir with
  | none => none
  | some dino =>
    if e ∉ dino.entries then none
    else
      let d1 := set_inode d idir { dino with entries := dino.entries.erase e }
      match d1.inodes e.inode with
      | none => none
      | some ino =>
        if ino.nlink = 0 then none
        else some (set_inode d1 e.inode { ino with nlink := ino.nlink - 1 })

/-- Modelled from the spec: `retain_obj(inode)` increments the reference count. -/
def retain_obj (d : ramfs_data) (i : Nat) : Option ramfs_data :=
  match d.inodes i with
  | none => none
  | some ino => some (set_inode d i { ino with ref_count := ino.ref_count + 1 })

/-- Modelled from the spec: `release_obj(inode)` decrements the reference count,
which has to be positive (a handle is being closed). -/
def release_obj (d : ramfs_data) (i : Nat) : Option ramfs_data :=
  match d.inodes i with
  | none => none
  | some ino =>
    if ino.ref_count = 0 then none
    else some (set_inode d i { ino with ref_count := ino.ref_count - 1 })

/-- Modelled from the spec: `ramfs_inode_truncate(i, len)` cuts the content down
to `len` bytes. -/
def ramfs_inode_truncate (d : ramfs_data) (i : Nat) (len : Nat) : Option ramfs_data :=
  match d.inodes i with
  | none => none
  | some ino => some (set_inode d i { ino with content := ino.content.take len })

/-- Modelled from the spec: `ramfs_destroy_inode(d, i)` frees the inode; the
call is recorded with the state the inode had. -/
def ramfs_destroy_inode (d : ramfs_data) (i : Nat) : Option ramfs_data :=
  match d.inodes i with
  | none => none
  | some ino =>
    some { d with inodes := fun q => if q = i then none else d.inodes q,
                  destroyed := d.destroyed ++ [(i, ino)] }

/-- The function `ramfs_unlink(p)` of `ramfs.c`, on the device data `d` of
`p->fs` and the descriptor `p->fs_path`. (The assertion that the caller holds
the exclusive lock, and the inode lock around the truncation, concern
concurrency and are left out.) -/
def ramfs_unlink (d : ramfs_data) (rp : fs_path_struct) : Option (Int × ramfs_data) :=
  match rp.inode.bind d.inodes with
  | none => none
  | some i =>
    if i.type = VFS_DIR then some (-EISDIR, d)
    else
      match rp.dir_inode.bind d.inodes with
      | none => none
      | some idir =>
        if idir.mode &&& 0o200 = 0 then some (-EACCES, d)
        else
          match rp.inode, rp.dir_inode, rp.dir_entry with
          | some ip, some idirp, some e =>
            match ramfs_dir_remove_entry d idirp e with
            | none => none
            | some d1 =>
              match d1.inodes ip with
              | none => none
              | some i1 =>
                if i1.nlink = 0 ∧ i1.ref_count = 0 then
                  match ramfs_inode_truncate d1 ip 0 with
                  | none => none
                  | some d2 =>
                    match ramfs_destroy_inode d2 ip with
                    | none => none
                    | some d3 => some (0, d3)
                else some (0, d1)
          | _, _, _ => none

/-- Modelled from the spec: `ramfs_open` (absent `open.c.h`): "open resolves a
handle and increments the inode's open-ref-count". -/
def ramfs_open (d : ramfs_data) (i : Nat) : Option (ramfs_handle × ramfs_data) :=
  match retain_obj d i with
  | none => none
  | some d1 => some (⟨i⟩, d1)

/-- The function `ramfs_dup(h, dup_h)` of `ramfs.c`; `mem_ok` tells whether
`kmalloc` succeeds. -/
def ramfs_dup (d : ramfs_data) (h : ramfs_handle) (mem_ok : Bool) :
    Option (Int × Option ramfs_handle × ramfs_data) :=
  if !mem_ok then some (-ENOMEM, none, d)
  else
    match retain_obj d h.inode with
    | none => none
    | some d1 => some (0, some ⟨h.inode⟩, d1)

/-- The function `ramfs_close(h)` of `ramfs.c`. -/
def ramfs_close (d : ramfs_data) (h : ramfs_handle) : Option ramfs_data :=
  match release_obj d h.inode with
  | none => none
  | some d1 =>
    match d1.inodes h.inode with
    | none => none
    | some i =>
      if i.ref_count = 0 ∧ i.nlink = 0 then
        match ramfs_inode_truncate d1 h.inode 0 with
        | none => none
        | some d2 => ramfs_destroy_inode d2 h.inode
      else some d1

/-- The function `ramfs_get_entry(fs, dir_inode, name, name_len, fs_path)` of
`ramfs.c`, on the device data `d` of `fs`; `name` is the text of `name_len`
characters at the pointer `name`. -/
def ramfs_get_entry (d : ramfs_data) (dir_inode : Option Nat) (name : List Char) :
    Option fs_path_struct :=
  match dir_inode with
  | none =>
    some { inode := d.root, dir_inode := d.root, dir_entry := none, type := VFS_DIR }
  | some idirp =>
    match d.inodes idirp with
    | none => none
    | some idir =>
      match ramfs_dir_get_entry_by_name idir name with
      | none =>
        some { inode := none, dir_inode := some idirp, dir_entry := none, type := VFS_NONE }
      | some re =>
        match d.inodes re.inode with
        | none => none
        | some ino =>
          some { inode := some re.inode, dir_inode := some idirp, dir_entry := some re,
                 type := ino.type }

/-- The result of `VERIFY(ramfs_dir_add_entry(...) == 0)`. -/
def verify_add_entry (r : Option (Int × ramfs_data)) : Option ramfs_data :=
  match r with
  | some (rc, d) => if rc = 0 then some d else none
  | none => none

/-- The device data as `ramfs_create` has it before it creates the root: zeroed
by `kzmalloc`, with `next_inode_num = 1`. -/
def ramfs_data_zero : ramfs_data :=
  { root := none, next_inode_num := 1, inodes := fun _ => none, destroyed := [] }

/-- The function `ramfs_create()` of `ramfs.c`, as far as the device data goes:
the root directory and the five entities of the temporary tree. Memory
allocation is taken to succeed. -/
def ramfs_create : Option ramfs_data :=
  match ramfs_create_inode_dir ramfs_data_zero 0o777 none with
  | none => none
  | some (root, d) =>
    let d : ramfs_data := { d with root := some root }
    match ramfs_create_inode_dir d 0o755 d.root with
    | none => none
    | some (i1, d) =>
    match verify_add_entry (ramfs_dir_add_entry d root "e1".toList i1) with
    | none => none
    | some d =>
    match ramfs_create_inode_file d 0o644 d.root with
    | none => none
    | some (i2, d) =>
    match verify_add_entry (ramfs_dir_add_entry d root "e2".toList i2) with
    | none => none
    | some d =>
    match ramfs_create_inode_dir d 0o777 (some i1) with
    | none => none
    | some (i11, d) =>
    match verify_add_entry (ramfs_dir_add_entry d i1 "e11".toList i11) with
    | none => none
    | some d =>
    match ramfs_create_inode_dir d 0o777 (some i1) with
    | none => none
    | some (i12, d) =>
    match verify_add_entry (ramfs_dir_add_entry d i1 "e12".toList i12) with
    | none => none
    | some d =>
    match ramfs_create_inode_file d 0o644 (some i11) with
    | none => none
    | some (i111, d) =>
    verify_add_entry (ramfs_dir_add_entry d i11 "e111".toList i111)

/-! ### Sequences of operations on one inode -/

/-- The operations on the inode at `i` that change its link count or its
reference count: `open`, `dup` (`mem_ok`: whether `kmalloc` succeeds), `close`,
`dir_add_entry` of a name for it in the directory `idir`, and `unlink` of the
path that resolves to its entry `name` in `idir`. -/
inductive inode_op where
  | open
  | dup (mem_ok : Bool)
  | close
  | dir_add_entry (idir : Nat) (name : List Char)
  | unlink (idir : Nat) (name : List Char)
deriving DecidableEq, Repr

/-- One operation applied to the inode at `i`. -/
def apply_inode_op (i : Nat) (d : ramfs_data) : inode_op → Option ramfs_data
  | inode_op.open => (ramfs_open d i).map Prod.snd
  | inode_op.dup mem_ok => (ramfs_dup d ⟨i⟩ mem_ok).map (fun r => r.2.2)
  | inode_op.close => ramfs_close d ⟨i⟩
  | inode_op.dir_add_entry idir name => (ramfs_dir_add_entry d idir name i).map Prod.snd
  | inode_op.unlink idir name =>
    match d.inodes i with
    | none => none
    | some ino =>
      (ramfs_unlink d { inode := some i, dir_inode := some idir, dir_entry := some ⟨name, i⟩,
                        type := ino.type }).map Prod.snd

/-- A sequence of operations applied to the inode at `i`, one after the other. -/
def run_inode_ops (i : Nat) : ramfs_data → List inode_op → Option ramfs_data
  | d, [] => some d
  | d, op :: ops =>
    match apply_inode_op i d op with
    | none => none
    | some d1 => run_inode_ops i d1 ops

/-- The calls of `ramfs_destroy_inode` on the inode at `i` made between the
states `d` and `d1`: the states the inode had at those calls. -/
def destroy_calls (d d1 : ramfs_data) (i : Nat) : List ramfs_inode :=
  ((d1.destroyed.drop d.destroyed.length).filter (fun r => decide (r.1 = i))).map Prod.snd

/-- The link count and the reference count of the inode at `i` as they are at
the end: those of the live inode, or else those it had when it was destroyed. -/
def last_counts (d d1 : ramfs_data) (i : Nat) : Option (Nat × Nat) :=
  match d1.inodes i with
  | some ino => some (ino.nlink, ino.ref_count)
  | none => (destroy_calls d d1 i).getLast?.map (fun ino => (ino.nlink, ino.ref_count))

/-- The function `ramfs_close` on a handle of the inode at `i`, `k` times in a row. -/
def close_times (i : Nat) : Nat → ramfs_data → Option ramfs_data
  | 0, d => some d
  | k + 1, d =>
    match ramfs_close d ⟨i⟩ with
    | none => none
    | some d1 => close_times i k d1

/-- A store with a root directory that is not writable (mode 0555), holding
the directory `sub` and the file `f` (5 bytes, opened twice). -/
def demo_ro_fs : ramfs_data :=
  { root := some 1,
    next_inode_num := 4,
    inodes := fun q =>
      if q = 1 then
        some { type := VFS_DIR, mode := 0o555, nlink := 0, ref_count := 0, content := [],
               entries := [⟨"sub".toList, 2⟩, ⟨"f".toList, 3⟩] }
      else if q = 2 then
        some { type := VFS_DIR, mode := 0o755, nlink := 1, ref_count := 0, content := [],
               entries := [⟨"g".toList, 3⟩] }
      else if q = 3 then
        some { type := VFS_FILE, mode := 0o644, nlink := 2, ref_count := 2,
               content := [104, 101, 108, 108, 111], entries := [] }
      else none,
    destroyed := [] }

/-- What a run of operations can do to an inode that is live in `d`: leave it
alive, with a nonzero count or unchanged, or destroy it, once, with both counts
at zero. -/
def step_ok (d d1 : ramfs_data) (i : Nat) : Prop :=
  (∃ ino1, d1.inodes i = some ino1 ∧ d1.destroyed = d.destroyed ∧
      ((ino1.nlink ≠ 0 ∨ ino1.ref_count ≠ 0) ∨ d1.inodes i = d.inodes i)) ∨
  (d1.inodes i = none ∧ ∃ st, d1.destroyed = d.destroyed ++ [(i, st)] ∧
      st.nlink = 0 ∧ st.ref_count = 0)

/-- The device data of the filesystem that `ramfs_create` returns: root
directory 1 with `e1` (directory 2) and `e2` (file 3); `e1` holds `e11`
(directory 4) and `e12` (directory 5); `e11` holds `e111` (file 6). -/
def ramfs_tree : ramfs_data := ramfs_create.getD ramfs_data_zero

/-- The store after `mkdir /a`, `mkdir /a/b` and the creation of the file
`/a/b/c` on an empty ramfs (each step: a new inode and its directory entry):
root 1, `a` = 2, `b` = 3, `c` = 4. -/
def demo_abc_fs : ramfs_data :=
  let r : Option ramfs_data :=
    match ramfs_create_inode_dir ramfs_data_zero 0o777 none with
    | none => none
    | some (root, d) =>
      let d : ramfs_data := { d with root := some root }
      match ramfs_create_inode_dir d 0o755 (some root) with
      | none => none
      | some (a, d) =>
      match verify_add_entry (ramfs_dir_add_entry d root "a".toList a) with
      | none => none
      | some d =>
      match ramfs_create_inode_dir d 0o755 (some a) with
      | none => none
      | some (b, d) =>
      match verify_add_entry (ramfs_dir_add_entry d a "b".toList b) with
      | none => none
      | some d =>
      match ramfs_create_inode_file d 0o644 (some b) with
      | none => none
      | some (c, d) => verify_add_entry (ramfs_dir_add_entry d b "c".toList c)
  r.getD ramfs_data_zero

/-! ## Part 3. Path resolution (kernel/fs/vfs/vfs_resolve.c.h) -/

/-- The character at the pointer that has `rest` in front of it (a C string
ends with NUL). -/
def cur_char (rest : List Char) : Char := rest.headD (Char.ofNat 0)

/-- The `len` characters of `p` from position `pc` on. -/
def comp_text (p : List Char) (pc len : Nat) : List Char := (p.drop pc).take len

/-- How the `while` loop of `vfs_resolve` ends: by a `return` of an error code,
or by leaving the loop with the values of `path`, `pc` and `idir`. -/
inductive walk_result where
  | ret (rc : Int)
  | done (path pc : Nat) (idir : Option Nat)
deriving DecidableEq, Repr

/-- The `while (*path)` loop of `vfs_resolve` (lines 62-103). `p` is the whole
path text, `rest` the text at the pointer `path`, and `path`, `pc` are
positions in `p`. -/
def vfs_resolve_loop (get_entry : Option Nat → List Char → Option fs_path_struct)
    (p : List Char) : List Char → Nat → Nat → Option Nat → Option walk_result
  | [], path, pc, idir => some (walk_result.done path pc idir)
  | c :: rest, path, pc, idir =>
    if c = Char.ofNat 0 then some (walk_result.done path pc idir)
    else if c ≠ '/' then vfs_resolve_loop get_entry p rest (path + 1) pc idir
    else if cur_char rest = '/' then none
    else
      match get_entry idir (comp_text p pc (path - pc)) with
      | none => none
      | some e =>
        if e.inode = none then
          if cur_char rest ≠ Char.ofNat 0 then some (walk_result.ret (-ENOENT))
          else some (walk_result.done path pc idir)
        else if cur_char rest = Char.ofNat 0 then
          if e.type ≠ VFS_DIR then some (walk_result.ret (-ENOTDIR))
          else some (walk_result.done path pc idir)
        else vfs_resolve_loop get_entry p rest (path + 1) (path + 1) e.inode

/-- The zeroed `vfs_path` (after `bzero`). -/
def vfs_path_zero : vfs_path :=
  { fs := none,
    fs_path := { inode := none, dir_inode := none, dir_entry := none, type := VFS_NONE },
    last_comp := none }

/-- The function `vfs_resolve(fs, path, rp, res_last_sl)` of
`vfs_resolve.c.h`: `get_entry` is `fs->fsops->get_entry` applied to `fs`, and
the result is the returned code together with the final `*rp`. -/
def vfs_resolve (get_entry : Option Nat → List Char → Option fs_path_struct) (fs : Nat)
    (path : List Char) (_res_last_sl : Bool) : Option (Int × vfs_path) :=
  match get_entry none [] with
  | none => none
  | some e =>
    let idir := e.inode
    let rp := vfs_path_zero
    if cur_char path ≠ '/' then none
    else
      let rp := { rp with fs := some fs }
      if cur_char (path.drop 1) = Char.ofNat 0 then
        some (0, { rp with fs_path := e, last_comp := some 1 })
      else
        match vfs_resolve_loop get_entry path (path.drop 1) 1 1 idir with
        | none => none
        | some (walk_result.ret rc) => some (rc, rp)
        | some (walk_result.done path1 pc idir1) =>
          if ¬ (path1 - pc > 0) then none
          else
            match get_entry idir1 (comp_text path pc (path1 - pc)) with
            | none => none
            | some e1 => some (0, { rp with fs_path := e1, last_comp := some pc })

/-! ### Paths made of components -/

/-- A path component as normalized paths have them: not empty, without a slash
and without a NUL character. -/
def good_comp (c : List Char) : Prop := c ≠ [] ∧ '/' ∉ c ∧ Char.ofNat 0 ∉ c

instance (c : List Char) : Decidable (good_comp c) :=
  inferInstanceAs (Decidable (c ≠ [] ∧ '/' ∉ c ∧ Char.ofNat 0 ∉ c))

/-- The text `/c1/c2/.../cn` of the path with the components `c1 .. cn`. -/
def path_of : List (List Char) → List Char
  | [] => []
  | c :: cs => '/' :: c ++ path_of cs

/-- The text `c1/c2/.../cn/` of leading components, each followed by a slash. -/
def dirs_text : List (List Char) → List Char
  | [] => []
  | c :: cs => c ++ '/' :: dirs_text cs

/-- The entry called `name` in the directory at `dir`, if there is one. -/
def dir_lookup (d : ramfs_data) (dir : Nat) (name : List Char) : Option ramfs_entry :=
  (d.inodes dir).bind (fun idir => ramfs_dir_get_entry_by_name idir name)

/-- The directory reached from the directory at `dir` by the components `cs`
when each of them names an entry of the directory reached so far whose inode
is a directory. -/
def walk_dirs (d : ramfs_data) : Nat → List (List Char) → Option Nat
  | dir, [] => some dir
  | dir, c :: cs =>
    match dir_lookup d dir c with
    | none => none
    | some e =>
      match d.inodes e.inode with
      | none => none
      | some ino => if ino.type = VFS_DIR then walk_dirs d e.inode cs else none

/-! ### The lookups that a resolution issues -/

/-- The `while` loop of `vfs_resolve` once more, the same code as
`vfs_resolve_loop`, returning in addition the arguments (directory inode and
component name) of the calls of `get_entry` that it makes, in order. -/
def vfs_resolve_loop_tr (get_entry : Option Nat → List Char → Option fs_path_struct)
    (p : List Char) :
    List Char → Nat → Nat → Option Nat → Option walk_result × List (Option Nat × List Char)
  | [], path, pc, idir => (some (walk_result.done path pc idir), [])
  | c :: rest, path, pc, idir =>
    if c = Char.ofNat 0 then (some (walk_result.done path pc idir), [])
    else if c ≠ '/' then vfs_resolve_loop_tr get_entry p rest (path + 1) pc idir
    else if cur_char rest = '/' then (none, [])
    else
      match get_entry idir (comp_text p pc (path - pc)) with
      | none => (none, [(idir, comp_text p pc (path - pc))])
      | some e =>
        if e.inode = none then
          if cur_char rest ≠ Char.ofNat 0 then
            (some (walk_result.ret (-ENOENT)), [(idir, comp_text p pc (path - pc))])
          else (some (walk_result.done path pc idir), [(idir, comp_text p pc (path - pc))])
        else if cur_char rest = Char.ofNat 0 then
          if e.type ≠ VFS_DIR then
            (some (walk_result.ret (-ENOTDIR)), [(idir, comp_text p pc (path - pc))])
          else (some (walk_result.done path pc idir), [(idir, comp_text p pc (path - pc))])
        else
          ((vfs_resolve_loop_tr get_entry p rest (path + 1) (path + 1) e.inode).1,
           (idir, comp_text p pc (path - pc)) ::
             (vfs_resolve_loop_tr get_entry p rest (path + 1) (path + 1) e.inode).2)

/-- The function `vfs_resolve` once more, the same code as `vfs_resolve`,
returning in addition the arguments of its component lookups (the calls of
`get_entry` after the first one, which asks for the root), in order. -/
def vfs_resolve_tr (get_entry : Option Nat → List Char → Option fs_path_struct) (fs : Nat)
    (path : List Char) (_res_last_sl : Bool) :
    Option (Int × vfs_path) × List (Option Nat × List Char) :=
  match get_entry none [] with
  | none => (none, [])
  | some e =>
    let idir := e.inode
    let rp := vfs_path_zero
    if cur_char path ≠ '/' then (none, [])
    else
      let rp := { rp with fs := some fs }
      if cur_char (path.drop 1) = Char.ofNat 0 then
        (some (0, { rp with fs_path := e, last_comp := some 1 }), [])
      else
        match vfs_resolve_loop_tr get_entry path (path.drop 1) 1 1 idir with
        | (none, calls) => (none, calls)
        | (some (walk_result.ret rc), calls) => (some (rc, rp), calls)
        | (some (walk_result.done path1 pc idir1), calls) =>
          if ¬ (path1 - pc > 0) then (none, calls)
          else
            match get_entry idir1 (comp_text path pc (path1 - pc)) with
            | none => (none, calls ++ [(idir1, comp_text path pc (path1 - pc))])
            | some e1 =>
              (some (0, { rp with fs_path := e1, last_comp := some pc }),
               calls ++ [(idir1, comp_text path pc (path1 - pc))])

/-- No two consecutive slashes in the text. -/
def no_double_slash : List Char → Bool
  | a :: b :: t => !(a = '/' && b = '/') && no_double_slash (b :: t)
  | _ => true

/-- A name that a resolution may pass to `get_entry`: not empty, no slash. -/
def good_name (n : List Char) : Prop := n ≠ [] ∧ '/' ∉ n

/-! ## Part 4. Mountpoints (kernel/fs/vfs/vfs_resolve.c.h, `get_retained_fs_at`) -/

/-- A mountpoint: the mount path with its length, and the mounted filesystem
(a pointer, modelled by a natural number). -/
structure mountpoint where
  path : List Char
  path_len : Nat
  fs : Nat
deriving DecidableEq, Repr

/-- The state that `get_retained_fs_at` works on: the mountpoint table, in the
order in which `mountpoint_get_next` enumerates it, and the reference count of
every filesystem. -/
structure mount_state where
  mps : List mountpoint
  fs_ref_count : Nat → Nat

/-- The length of a C string: the number of characters before the first NUL. -/
def strlen (s : List Char) : Nat := (s.takeWhile (fun c => c ≠ Char.ofNat 0)).length

/-- Modelled from the spec: `mp_check_match(mp, lm, path, lp)` (absent
mountpoint code), "the length of the longest prefix match between the mount
path and the input path": the length of the mount path when the mount path is
a prefix of the input path, and 0 when it does not match. -/
def mp_check_match (mp : List Char) (lm : Nat) (path : List Char) (_lp : Nat) : Nat :=
  if (mp.take lm).isPrefixOf path then lm else 0

/-- Modelled from the spec: `retain_obj(fs)` on a filesystem increments its
reference count. -/
def retain_obj_fs (st : mount_state) (fs : Nat) : mount_state :=
  { st with fs_ref_count := fun g => if g = fs then st.fs_ref_count g + 1 else st.fs_ref_count g }

/-- The `while` loop of `get_retained_fs_at` (lines 16-24) over the mountpoints
that `mountpoint_get_next` still has to give, with the current `best_match`
and `best_match_len`; `check_match` is `mp_check_match`. -/
def mp_scan (check_match : List Char → Nat → List Char → Nat → Nat) (path : List Char)
    (pl : Nat) : List mountpoint → Option mountpoint → Nat → Option mountpoint × Nat
  | [], best_match, best_match_len => (best_match, best_match_len)
  | mp :: rest, best_match, best_match_len =>
    let len := check_match mp.path mp.path_len path pl
    if len > best_match_len then mp_scan check_match path pl rest (some mp) len
    else mp_scan check_match path pl rest best_match best_match_len

/-- The function `get_retained_fs_at(path, fs_path_ref)` of `vfs_resolve.c.h`:
it returns the filesystem, the string that `*fs_path_ref` points to, and the
new state. `check_match` stands for the absent `mp_check_match`. -/
def get_retained_fs_at (check_match : List Char → Nat → List Char → Nat → Nat)
    (st : mount_state) (path : List Char) : (Option Nat × Option (List Char)) × mount_state :=
  let pl := strlen path
  match mp_scan check_match path pl st.mps none 0 with
  | (none, _) => ((none, none), st)
  | (some best_match, best_match_len) =>
    let fs_path := if best_match_len < pl then path.drop (best_match_len - 1) else ['/']
    ((some best_match.fs, some fs_path), retain_obj_fs st best_match.fs)

/-- The match length of a mountpoint against a path. -/
def match_len (check_match : List Char → Nat → List Char → Nat → Nat) (path : List Char)
    (mp : mountpoint) : Nat :=
  check_match mp.path mp.path_len path (strlen path)

/-- A table with the root filesystem (100) mounted at `/` and another one (200)
at `/mnt/data`, the mount paths being written as in the specification. -/
def demo_mounts : mount_state :=
  { mps := [⟨"/".toList, 1, 100⟩, ⟨"/mnt/data".toList, 9, 200⟩],
    fs_ref_count := fun _ => 1 }

/-- One more than the largest `u32`. -/
def U32_MOD : Nat := 2 ^ 32

/-- The function `disable_preemption()`: `disable_preemption_count++` on the
`u32` counter. -/
def disable_preemption (disable_preemption_count : Nat) : Nat :=
  (disable_preemption_count + 1) % U32_MOD

/-- The function `enable_preemption()`: the assertion
`disable_preemption_count > 0`, then `disable_preemption_count--`. -/
def enable_preemption (disable_preemption_count : Nat) : Option Nat :=
  if disable_preemption_count > 0 then some (disable_preemption_count - 1) else none

/-- The function `is_preemption_enabled()`. -/
def is_preemption_enabled (disable_preemption_count : Nat) : Bool :=
  decide (disable_preemption_count = 0)

/-- A call of `disable_preemption` or of `enable_preemption`. -/
inductive preempt_call where
  | disable
  | enable
deriving DecidableEq, Repr

/-- A sequence of calls run from the count `c`; `none` when an assertion fails. -/
def run_preempt : Nat → List preempt_call → Option Nat
  | c, [] => some c
  | c, preempt_call.disable :: w => run_preempt (disable_preemption c) w
  | c, preempt_call.enable :: w =>
    match enable_preemption c with
    | none => none
    | some c1 => run_preempt c1 w

/-- The nesting depth after the calls `w`, starting at depth `d`; `none` when
an `enable` comes without a `disable` that is still open. -/
def nesting : Nat → List preempt_call → Option Nat
  | d, [] => some d
  | d, preempt_call.disable :: w => nesting (d + 1) w
  | d, preempt_call.enable :: w => if d = 0 then none else nesting (d - 1) w

/-- The largest nesting depth that the calls `w` reach, starting at depth `d`. -/
def max_nesting : Nat → List preempt_call → Nat
  | d, [] => d
  | d, preempt_call.disable :: w => max d (max_nesting (d + 1) w)
  | d, preempt_call.enable :: w => max d (max_nesting (d - 1) w)

/-! ## Theorems -/

/-! ### Page arithmetic and the page directory -/

theorem vpage_vpage (v a i : Nat) : vpage (vpage v a) i = vpage v (a + i) := by
  simp only [vpage, PAGE_SIZE, UPTR_MOD]; omega
theorem vpage_inj (v a i j : Nat) (ha : a * PAGE_SIZE ≤ UPTR_MOD) (hi : i < a) (hj : j < a)
    (h : vpage v i = vpage v j) : i = j := by
  simp only [vpage, PAGE_SIZE, UPTR_MOD] at *; omega
theorem map_range_other (pd : Nat → Option pte) (va pa : Nat) (us rw : Bool) (cnt x : Nat)
    (h : ∀ i, i < cnt → x ≠ vpage va i) : map_range pd va pa us rw cnt x = pd x := by
  induction cnt with
  | zero => rfl
  | succ k ih =>
    simp only [map_range]
    rw [if_neg (h k (Nat.lt_succ_self k))]
    exact ih (fun i hi => h i (Nat.lt_succ_of_lt hi))

theorem map_range_hit (pd : Nat → Option pte) (va pa : Nat) (us rw : Bool) (cnt i : Nat)
    (hc : cnt * PAGE_SIZE ≤ UPTR_MOD) (hi : i < cnt) :
    map_range pd va pa us rw cnt (vpage va i) = some ⟨pa + i * PAGE_SIZE, us, rw⟩ := by
  induction cnt with
  | zero => omega
  | succ k ih =>
    simp only [map_range]
    by_cases hik : i = k
    · subst hik; simp
    · have hne : vpage va i ≠ vpage va k := fun h =>
        hik (vpage_inj va (k + 1) i k hc hi (Nat.lt_succ_self k) h)
      rw [if_neg hne]
      exact ih (by simp only [PAGE_SIZE, UPTR_MOD] at *; omega) (by omega)
theorem countP_range_shift (u w : Nat → Bool) (fb k m : Nat)
    (hin : ∀ i, fb ≤ i → i < fb + k → u i = false ∧ w i = true)
    (hout : ∀ i, ¬(fb ≤ i ∧ i < fb + k) → w i = u i) :
    (List.range m).countP (fun i => !w i) + (min m (fb + k) - min m fb)
      = (List.range m).countP (fun i => !u i) := by
  induction m with
  | zero => simp
  | succ m ih =>
    rw [List.range_succ, List.countP_append, List.countP_append]
    simp only [List.countP_cons, List.countP_nil, Nat.zero_add]
    by_cases hm : fb ≤ m ∧ m < fb + k
    · obtain ⟨h1, h2⟩ := hin m hm.1 hm.2
      rw [h1, h2]
      simp only [Bool.not_true, Bool.not_false, if_true, Bool.false_eq_true, if_false]
      omega
    · rw [hout m hm]
      have : min (m + 1) (fb + k) - min (m + 1) fb = min m (fb + k) - min m fb := by omega
      rw [this]
      omega
theorem get_free_pg_count_le (s : kstate) : get_free_pg_count s ≤ s.pfa.nframes := by
  unfold get_free_pg_count
  calc _ ≤ (List.range s.pfa.nframes).length := List.countP_le_length _
    _ = _ := List.length_range _

theorem alloc_inv_refl (s : kstate) (v : Nat) (fr : Nat → Nat) : alloc_inv s s v 0 fr where
  nfr := rfl
  inj := fun i j hi => by omega
  was_free := fun j hj => by omega
  used := fun f => by simp
  mapped := fun j hj => by omega
  frame := fun x _ => rfl
  count := rfl

theorem alloc_inv_bound {s0 s : kstate} {v al : Nat} {fr : Nat → Nat} (hwf : pfa_wf s0)
    (h : alloc_inv s0 s v al fr) : al * PAGE_SIZE ≤ UPTR_MOD := by
  have h1 := h.count
  have h2 := get_free_pg_count_le s0
  unfold pfa_wf at hwf
  simp only [PAGE_SIZE, UPTR_MOD] at *
  omega

theorem alloc_inv_step {s0 s s1 : kstate} {v al : Nat} {fr : Nat → Nat} (hwf : pfa_wf s0)
    (h : alloc_inv s0 s v al fr) (k fb : Nat)
    (hfb : fb + k ≤ s.pfa.nframes) (hfree : ∀ i, fb ≤ i → i < fb + k → s.pfa.used i = false)
    (hpfa : s1.pfa = mark_used s.pfa fb k) (hpd : s1.pdir = s.pdir) :
    alloc_inv s0 (map_pages s1 (vpage v al) (fb * PAGE_SIZE) k false true) v (al + k)
      (fun j => if j < al then fr j else fb + (j - al)) := by
  have hcount : get_free_pg_count (map_pages s1 (vpage v al) (fb * PAGE_SIZE) k false true)
      + (al + k) = get_free_pg_count s0 := by
    have := countP_range_shift s.pfa.used (mark_used s.pfa fb k).used fb k s.pfa.nframes
      (fun i h1 h2 => ⟨hfree i h1 h2, by simp [mark_used, h1, h2]⟩)
      (fun i hi => by simp only [mark_used]; rw [if_neg hi])
    have hc := h.count
    simp only [get_free_pg_count, map_pages, hpfa] at *
    simp only [mark_used] at *
    omega
  have hbound : (al + k) * PAGE_SIZE ≤ UPTR_MOD := by
    have h2 := get_free_pg_count_le s0
    unfold pfa_wf at hwf
    simp only [PAGE_SIZE, UPTR_MOD] at *
    omega
  have hnotold : ∀ i j, fb ≤ i → i < fb + k → j < al → fr j ≠ i := by
    intro i j h1 h2 hj he
    have := (h.used i).2 (Or.inr ⟨j, hj, he⟩)
    rw [hfree i h1 h2] at this
    exact absurd this (by simp)
  refine ⟨?_, ?_, ?_, ?_, ?_, ?_, hcount⟩
  · simp [map_pages, hpfa, mark_used, h.nfr]
  · intro i j hi hj hij
    by_cases h1 : i < al <;> by_cases h2 : j < al
    · rw [if_pos h1, if_pos h2] at hij; exact h.inj i j h1 h2 hij
    · rw [if_pos h1, if_neg h2] at hij
      exact absurd hij (hnotold _ i (by omega) (by omega) h1)
    · rw [if_neg h1, if_pos h2] at hij
      exact absurd hij.symm (hnotold _ j (by omega) (by omega) h2)
    · rw [if_neg h1, if_neg h2] at hij; omega
  · intro j hj
    by_cases h1 : j < al
    · rw [if_pos h1]; exact h.was_free j h1
    · rw [if_neg h1]
      have hf := hfree (fb + (j - al)) (by omega) (by omega)
      refine ⟨by have := h.nfr; omega, ?_⟩
      cases hu : s0.pfa.used (fb + (j - al))
      · rfl
      · have := (h.used _).2 (Or.inl hu)
        rw [hf] at this; exact absurd this (by simp)
  · intro f
    simp only [map_pages, hpfa, mark_used]
    constructor
    · intro hf
      by_cases hg : fb ≤ f ∧ f < fb + k
      · exact Or.inr ⟨al + (f - fb), by omega, by
          rw [if_neg (by omega)]; omega⟩
      · rw [if_neg hg] at hf
        rcases (h.used f).1 hf with h0 | ⟨j, hj, hjf⟩
        · exact Or.inl h0
        · exact Or.inr ⟨j, by omega, by rw [if_pos hj]; exact hjf⟩
    · intro hf
      by_cases hg : fb ≤ f ∧ f < fb + k
      · rw [if_pos hg]
      · rw [if_neg hg]
        rcases hf with h0 | ⟨j, hj, hjf⟩
        · exact (h.used f).2 (Or.inl h0)
        · by_cases h1 : j < al
          · rw [if_pos h1] at hjf
            exact (h.used f).2 (Or.inr ⟨j, h1, hjf⟩)
          · rw [if_neg h1] at hjf
            exact absurd ⟨by omega, by omega⟩ hg
  · intro j hj
    simp only [map_pages]
    by_cases h1 : j < al
    · rw [if_pos h1, map_range_other, hpd]
      · exact h.mapped j h1
      · intro i hi he
        rw [vpage_vpage] at he
        have := vpage_inj v (al + k) j (al + i) hbound (by omega) (by omega) he
        omega
    · rw [if_neg h1]
      have hj2 : vpage v j = vpage (vpage v al) (j - al) := by
        rw [vpage_vpage]; congr 1; omega
      rw [hj2, map_range_hit _ _ _ _ _ _ _ (by simp only [PAGE_SIZE, UPTR_MOD] at *; omega)
        (by omega)]
      rw [Nat.add_mul]
  · intro x hx
    simp only [map_pages]
    rw [map_range_other, hpd]
    · exact h.frame x (fun j hj => hx j (by omega))
    · intro i hi
      rw [vpage_vpage]
      exact hx (al + i) (by omega)

theorem group_free_iff (a : pfa_state) (fb k : Nat) :
    group_free a fb k = true ↔ ∀ i, fb ≤ i → i < fb + k → a.used i = false := by
  simp only [group_free, List.all_eq_true, List.mem_range, Bool.not_eq_true']
  constructor
  · intro h i h1 h2
    have := h (i - fb) (by omega)
    rwa [show fb + (i - fb) = i by omega] at this
  · intro h i hi
    exact h (fb + i) (by omega) (by omega)

theorem alloc_block_some (k : Nat) (a a1 : pfa_state) (p : Nat)
    (h : alloc_block k a = some (p, a1)) :
    ∃ fb, p = fb * PAGE_SIZE ∧ k ∣ fb ∧ fb + k ≤ a.nframes ∧
      (∀ i, fb ≤ i → i < fb + k → a.used i = false) ∧ a1 = mark_used a fb k := by
  unfold alloc_block at h
  split at h
  · exact absurd h (by simp)
  · rename_i g hg
    simp only [Option.some.injEq, Prod.mk.injEq] at h
    have h1 := List.find?_some hg
    have h2 := List.mem_of_find?_eq_some hg
    rw [List.mem_range] at h2
    refine ⟨g * k, h.1.symm, Dvd.intro_left g rfl, ?_, (group_free_iff a _ k).1 h1, h.2.symm⟩
    have := Nat.div_mul_le_self a.nframes k
    have : (g + 1) * k ≤ a.nframes / k * k := Nat.mul_le_mul_right k h2
    rw [Nat.add_mul, Nat.one_mul] at this
    omega


theorem shr3 (n : Nat) : n >>> 3 = n / 8 := by
  rw [Nat.shiftRight_eq_div_pow]

theorem shr5 (n : Nat) : n >>> 5 = n / 32 := by
  rw [Nat.shiftRight_eq_div_pow]

theorem shl3 (n : Nat) : n <<< 3 = n * 8 := by
  rw [Nat.shiftLeft_eq]

theorem group_inv_refl (s : kstate) (fr : Nat → Nat) : group_inv s s 0 0 fr [] where
  calls := by simp
  m_le := Nat.le_refl 0
  m_dvd := Nat.dvd_zero 8
  grouped := fun g k h => by omega
  from_batch := fun g h => by omega
  from_single := fun j _ h => by omega
  only_alloc := fun c h => by simp at h

/-- A batch of 8 frames extends the grouped part. -/
theorem group_inv_step8 {s0 s s1 : kstate} {al : Nat} {fr : Nat → Nat} {T : List pf_call}
    (h : group_inv s0 s al al fr T) (fb va : Nat)
    (hc : s1.calls = s.calls ++ [pf_call.alloc_8 (some (fb * PAGE_SIZE))]) :
    group_inv s0 (map_pages s1 va (fb * PAGE_SIZE) 8 false true) (al + 8) (al + 8)
      (fun j => if j < al then fr j else fb + (j - al))
      (T ++ [pf_call.alloc_8 (some (fb * PAGE_SIZE)), pf_call.map va (fb * PAGE_SIZE) 8]) := by
  have hd := h.m_dvd
  refine ⟨?_, Nat.le_refl _, by omega, ?_, ?_, ?_, ?_⟩
  · simp [map_pages, hc, h.calls]
  · intro g k hg hk
    by_cases h1 : 8 * g + 8 ≤ al
    · rw [if_pos (by omega), if_pos (by omega)]
      exact h.grouped g k h1 hk
    · rw [if_neg (by omega), if_neg (by omega)]; omega
  · intro g hg
    by_cases h1 : 8 * g + 8 ≤ al
    · rw [if_pos (by omega)]
      rcases h.from_batch g h1 with h2 | ⟨q, k, h2, h3, h4⟩
      · exact Or.inl (List.mem_append_left _ h2)
      · exact Or.inr ⟨q, k, List.mem_append_left _ h2, h3, h4⟩
    · rw [if_neg (by omega)]
      left
      have : fb + (8 * g - al) = fb := by omega
      rw [this]
      simp
  · intro j h1 h2; omega
  · intro c hc
    rcases List.mem_append.1 hc with h1 | h1
    · exact h.only_alloc c h1
    · simp at h1
      rcases h1 with h1 | h1 <;> subst h1 <;> simp

/-- A batch of 32 frames extends the grouped part by four groups. -/
theorem group_inv_step32 {s0 s s1 : kstate} {al : Nat} {fr : Nat → Nat} {T : List pf_call}
    (h : group_inv s0 s al al fr T) (fb va : Nat)
    (hc : s1.calls = s.calls ++ [pf_call.alloc_32 (some (fb * PAGE_SIZE))]) :
    group_inv s0 (map_pages s1 va (fb * PAGE_SIZE) 32 false true) (al + 32) (al + 32)
      (fun j => if j < al then fr j else fb + (j - al))
      (T ++ [pf_call.alloc_32 (some (fb * PAGE_SIZE)), pf_call.map va (fb * PAGE_SIZE) 32]) := by
  have hd := h.m_dvd
  refine ⟨?_, Nat.le_refl _, by omega, ?_, ?_, ?_, ?_⟩
  · simp [map_pages, hc, h.calls]
  · intro g k hg hk
    by_cases h1 : 8 * g + 8 ≤ al
    · rw [if_pos (by omega), if_pos (by omega)]
      exact h.grouped g k h1 hk
    · rw [if_neg (by omega), if_neg (by omega)]; omega
  · intro g hg
    by_cases h1 : 8 * g + 8 ≤ al
    · rw [if_pos (by omega)]
      rcases h.from_batch g h1 with h2 | ⟨q, k, h2, h3, h4⟩
      · exact Or.inl (List.mem_append_left _ h2)
      · exact Or.inr ⟨q, k, List.mem_append_left _ h2, h3, h4⟩
    · rw [if_neg (by omega)]
      right
      refine ⟨fb * PAGE_SIZE, (8 * g - al) / 8, by simp, by omega, ?_⟩
      simp only [PAGE_SIZE]; omega
  · intro j h1 h2; omega
  · intro c hc
    rcases List.mem_append.1 hc with h1 | h1
    · exact h.only_alloc c h1
    · simp at h1
      rcases h1 with h1 | h1 <;> subst h1 <;> simp

/-- A single frame leaves the grouped part as it is. -/
theorem group_inv_step1 {s0 s s1 : kstate} {al m : Nat} {fr : Nat → Nat} {T : List pf_call}
    (h : group_inv s0 s al m fr T) (fb va : Nat)
    (hc : s1.calls = s.calls ++ [pf_call.alloc_1 (some (fb * PAGE_SIZE))]) :
    group_inv s0 (map_pages s1 va (fb * PAGE_SIZE) 1 false true) (al + 1) m
      (fun j => if j < al then fr j else fb + (j - al))
      (T ++ [pf_call.alloc_1 (some (fb * PAGE_SIZE)), pf_call.map va (fb * PAGE_SIZE) 1]) := by
  have hd := h.m_dvd
  have hm := h.m_le
  refine ⟨?_, by omega, hd, ?_, ?_, ?_, ?_⟩
  · simp [map_pages, hc, h.calls]
  · intro g k hg hk
    rw [if_pos (by omega), if_pos (by omega)]
    exact h.grouped g k hg hk
  · intro g hg
    rw [if_pos (by omega)]
    rcases h.from_batch g hg with h2 | ⟨q, k, h2, h3, h4⟩
    · exact Or.inl (List.mem_append_left _ h2)
    · exact Or.inr ⟨q, k, List.mem_append_left _ h2, h3, h4⟩
  · intro j h1 h2
    by_cases h3 : j < al
    · rw [if_pos h3]
      exact List.mem_append_left _ (h.from_single j h1 h3)
    · rw [if_neg h3]
      have : fb + (j - al) = fb := by omega
      rw [this]; simp
  · intro c hc
    rcases List.mem_append.1 hc with h1 | h1
    · exact h.only_alloc c h1
    · simp at h1
      rcases h1 with h1 | h1 <;> subst h1 <;> simp

theorem alloc_ret_some (k : Nat) (c : Option Nat → pf_call) (s s1 : kstate) (p : Nat)
    (h : (match alloc_block k s.pfa with
      | none => ((none : Option Nat), { s with calls := s.calls ++ [c none] })
      | some (p, a) => (some p, { s with pfa := a, calls := s.calls ++ [c (some p)] }))
        = (some p, s1)) :
    ∃ fb, p = fb * PAGE_SIZE ∧ k ∣ fb ∧ fb + k ≤ s.pfa.nframes ∧
      (∀ i, fb ≤ i → i < fb + k → s.pfa.used i = false) ∧
      s1.pfa = mark_used s.pfa fb k ∧ s1.pdir = s.pdir ∧ s1.calls = s.calls ++ [c (some p)] := by
  cases hb : alloc_block k s.pfa with
  | none => rw [hb] at h; simp at h
  | some r =>
    obtain ⟨p1, a1⟩ := r
    rw [hb] at h
    simp only [Prod.mk.injEq, Option.some.injEq] at h
    obtain ⟨h1, h2⟩ := h
    subst h1 h2
    obtain ⟨fb, e1, e2, e3, e4, e5⟩ := alloc_block_some k s.pfa a1 p1 hb
    exact ⟨fb, e1, e2, e3, e4, e5, rfl, rfl⟩

theorem alloc_ret_none (k : Nat) (c : Option Nat → pf_call) (s s1 : kstate)
    (h : (match alloc_block k s.pfa with
      | none => ((none : Option Nat), { s with calls := s.calls ++ [c none] })
      | some (p, a) => (some p, { s with pfa := a, calls := s.calls ++ [c (some p)] }))
        = (none, s1)) :
    alloc_block k s.pfa = none ∧ s1.pfa = s.pfa ∧ s1.pdir = s.pdir ∧
      s1.calls = s.calls ++ [c none] := by
  cases hb : alloc_block k s.pfa with
  | none =>
    rw [hb] at h
    simp only [Prod.mk.injEq, true_and] at h
    subst h
    exact ⟨rfl, rfl, rfl, rfl⟩
  | some r =>
    obtain ⟨p1, a1⟩ := r
    rw [hb] at h; simp at h

theorem unmap_range_other (pd : Nat → Option pte) (va cnt x : Nat)
    (h : ∀ i, i < cnt → x ≠ vpage va i) : unmap_range pd va cnt x = pd x := by
  induction cnt with
  | zero => rfl
  | succ k ih =>
    simp only [unmap_range]
    rw [if_neg (h k (Nat.lt_succ_self k))]
    exact ih (fun i hi => h i (Nat.lt_succ_of_lt hi))

theorem unmap_range_hit (pd : Nat → Option pte) (va cnt i : Nat) (hi : i < cnt) :
    unmap_range pd va cnt (vpage va i) = none := by
  induction cnt with
  | zero => omega
  | succ k ih =>
    simp only [unmap_range]
    by_cases h : vpage va i = vpage va k
    · rw [if_pos h]
    · rw [if_neg h]
      by_cases hik : i = k
      · subst hik; exact absurd rfl h
      · exact ih (by omega)


/-! ### The loops of `pg_free_and_unmap` -/

theorem free_8_loop_spec {s0 s : kstate} {v al m : Nat} {fr : Nat → Nat} {T : List pf_call}
    (h : alloc_inv s0 s v al fr) (hg : group_inv s0 s al m fr T) :
    ∀ (k g0 : Nat) (t : kstate), t.pdir = s.pdir → 8 * (g0 + k) ≤ m →
      ∃ t1, free_8_loop k t (vpage v (8 * g0)) = some (t1, vpage v (8 * (g0 + k))) ∧
        t1.pdir = t.pdir ∧ t1.pfa.nframes = t.pfa.nframes ∧
        (∀ f, t1.pfa.used f = true ↔
          (t.pfa.used f = true ∧ ¬ ∃ j, 8 * g0 ≤ j ∧ j < 8 * (g0 + k) ∧ fr j = f)) ∧
        t1.calls = t.calls ++
          (List.range k).map (fun i => pf_call.free_8 (fr (8 * (g0 + i)) * PAGE_SIZE)) := by
  intro k
  induction k with
  | zero =>
    intro g0 t _ _
    refine ⟨t, rfl, rfl, rfl, ?_, by simp⟩
    intro f
    constructor
    · intro hf; exact ⟨hf, fun ⟨j, h1, h2, _⟩ => by omega⟩
    · intro hf; exact hf.1
  | succ k ih =>
    intro g0 t ht hk
    have hm := hg.m_le
    have hmap : get_mapping t (vpage v (8 * g0)) = some (fr (8 * g0) * PAGE_SIZE) := by
      simp only [get_mapping, ht, h.mapped (8 * g0) (by omega), Option.map_some']
    simp only [free_8_loop, hmap]
    have hcv : (vpage v (8 * g0) + 8 * PAGE_SIZE) % UPTR_MOD = vpage v (8 * (g0 + 1)) := by
      simp only [vpage, PAGE_SIZE, UPTR_MOD]; omega
    rw [hcv]
    obtain ⟨t1, e1, e2, e3, e4, e5⟩ :=
      ih (g0 + 1) (free_8_pageframes t (fr (8 * g0) * PAGE_SIZE)) ht (by omega)
    have hidx : 8 * (g0 + 1 + k) = 8 * (g0 + (k + 1)) := by omega
    rw [hidx] at e1
    refine ⟨t1, e1, by rw [e2]; rfl, by rw [e3]; rfl, ?_, ?_⟩
    · intro f
      rw [e4]
      have hdiv : fr (8 * g0) * PAGE_SIZE / PAGE_SIZE = fr (8 * g0) := by
        simp only [PAGE_SIZE]; omega
      simp only [free_8_pageframes, mark_free, hdiv]
      constructor
      · rintro ⟨hf, hn⟩
        by_cases hin : fr (8 * g0) ≤ f ∧ f < fr (8 * g0) + 8
        · rw [if_pos hin] at hf; exact absurd hf (by simp)
        · rw [if_neg hin] at hf
          refine ⟨hf, ?_⟩
          rintro ⟨j, h1, h2, h3⟩
          by_cases hj : j < 8 * g0 + 8
          · have := hg.grouped g0 (j - 8 * g0) (by omega) (by omega)
            rw [show 8 * g0 + (j - 8 * g0) = j by omega] at this
            omega
          · exact hn ⟨j, by omega, by omega, h3⟩
      · rintro ⟨hf, hn⟩
        have hin : ¬ (fr (8 * g0) ≤ f ∧ f < fr (8 * g0) + 8) := by
          intro hin
          apply hn
          refine ⟨8 * g0 + (f - fr (8 * g0)), by omega, by omega, ?_⟩
          rw [hg.grouped g0 (f - fr (8 * g0)) (by omega) (by omega)]
          omega
        rw [if_neg hin]
        refine ⟨hf, ?_⟩
        rintro ⟨j, h1, h2, h3⟩
        exact hn ⟨j, by omega, by omega, h3⟩
    · rw [e5, List.range_succ_eq_map, List.map_cons, List.map_map]
      simp only [free_8_pageframes, List.append_assoc, List.singleton_append, Nat.add_zero]
      have hfun : (fun i => pf_call.free_8 (fr (8 * (g0 + 1 + i)) * PAGE_SIZE)) =
          ((fun i => pf_call.free_8 (fr (8 * (g0 + i)) * PAGE_SIZE)) ∘ Nat.succ) := by
        funext i
        simp only [Function.comp, Nat.succ_eq_add_one]
        rw [show g0 + 1 + i = g0 + (i + 1) by omega]
      rw [hfun]

theorem free_1_loop_spec {s0 s : kstate} {v al : Nat} {fr : Nat → Nat}
    (h : alloc_inv s0 s v al fr) :
    ∀ (k j0 : Nat) (t : kstate), t.pdir = s.pdir → j0 + k ≤ al →
      ∃ t1 cv, free_1_loop k t (vpage v j0) = some (t1, cv) ∧
        t1.pdir = t.pdir ∧ t1.pfa.nframes = t.pfa.nframes ∧
        (∀ f, t1.pfa.used f = true ↔
          (t.pfa.used f = true ∧ ¬ ∃ j, j0 ≤ j ∧ j < j0 + k ∧ fr j = f)) ∧
        t1.calls = t.calls ++
          (List.range k).map (fun i => pf_call.free_1 (fr (j0 + i) * PAGE_SIZE)) := by
  intro k
  induction k with
  | zero =>
    intro j0 t _ _
    refine ⟨t, _, rfl, rfl, rfl, ?_, by simp⟩
    intro f
    constructor
    · intro hf; exact ⟨hf, fun ⟨j, h1, h2, _⟩ => by omega⟩
    · intro hf; exact hf.1
  | succ k ih =>
    intro j0 t ht hk
    have hmap : get_mapping t (vpage v j0) = some (fr j0 * PAGE_SIZE) := by
      simp only [get_mapping, ht, h.mapped j0 (by omega), Option.map_some']
    simp only [free_1_loop, hmap]
    have hcv : (vpage v j0 + PAGE_SIZE) % UPTR_MOD = vpage v (j0 + 1) := by
      simp only [vpage, PAGE_SIZE, UPTR_MOD]; omega
    rw [hcv]
    obtain ⟨t1, cv, e1, e2, e3, e4, e5⟩ :=
      ih (j0 + 1) (free_pageframe t (fr j0 * PAGE_SIZE)) ht (by omega)
    refine ⟨t1, cv, e1, by rw [e2]; rfl, by rw [e3]; rfl, ?_, ?_⟩
    · intro f
      rw [e4]
      have hdiv : fr j0 * PAGE_SIZE / PAGE_SIZE = fr j0 := by
        simp only [PAGE_SIZE]; omega
      simp only [free_pageframe, mark_free, hdiv]
      constructor
      · rintro ⟨hf, hn⟩
        by_cases hin : fr j0 ≤ f ∧ f < fr j0 + 1
        · rw [if_pos hin] at hf; exact absurd hf (by simp)
        · rw [if_neg hin] at hf
          refine ⟨hf, ?_⟩
          rintro ⟨j, h1, h2, h3⟩
          by_cases hj : j = j0
          · subst hj; omega
          · exact hn ⟨j, by omega, by omega, h3⟩
      · rintro ⟨hf, hn⟩
        have hin : ¬ (fr j0 ≤ f ∧ f < fr j0 + 1) := by
          intro hin
          exact hn ⟨j0, by omega, by omega, by omega⟩
        rw [if_neg hin]
        refine ⟨hf, ?_⟩
        rintro ⟨j, h1, h2, h3⟩
        exact hn ⟨j, by omega, by omega, h3⟩
    · rw [e5, List.range_succ_eq_map, List.map_cons, List.map_map]
      simp only [free_pageframe, List.append_assoc, List.singleton_append, Nat.add_zero]
      have hfun : (fun i => pf_call.free_1 (fr (j0 + 1 + i) * PAGE_SIZE)) =
          ((fun i => pf_call.free_1 (fr (j0 + i) * PAGE_SIZE)) ∘ Nat.succ) := by
        funext i
        simp only [Function.comp, Nat.succ_eq_add_one]
        rw [show j0 + 1 + i = j0 + (i + 1) by omega]
      rw [hfun]

/-- Freeing a range whose full groups of 8 pages are backed by batches gives
the frames back and unmaps the range. -/
theorem pg_free_and_unmap_spec {s0 s t : kstate} {v al m : Nat} {fr : Nat → Nat}
    {T : List pf_call}
    (h : alloc_inv s0 s v al fr) (hg : group_inv s0 s al m fr T)
    (hm : al < m + 8) (hv : v < UPTR_MOD) (hal : v &&& (PAGE_SIZE - 1) = 0)
    (htp : t.pdir = s.pdir) (hta : t.pfa = s.pfa) :
    ∃ t1, pg_free_and_unmap t v al = some t1 ∧ t1.pfa = s0.pfa ∧
      (∀ j, j < al → t1.pdir (vpage v j) = none) ∧
      (∀ x, (∀ j, j < al → x ≠ vpage v j) → t1.pdir x = s0.pdir x) ∧
      t1.calls = t.calls ++ free_calls v al fr := by
  have hml := hg.m_le
  have hmd := hg.m_dvd
  have hm8 : m = 8 * (al / 8) := by omega
  obtain ⟨t1, e1, e2, e3, e4, e5⟩ :=
    free_8_loop_spec h hg (al / 8) 0 t htp (by omega)
  simp only [Nat.mul_zero, Nat.zero_add] at e1 e4 e5
  obtain ⟨t2, cv, f1, f2, f3, f4, f5⟩ :=
    free_1_loop_spec h (al % 8) (8 * (al / 8)) t1 (by rw [e2, htp]) (by omega)
  have hv0 : vpage v 0 = v := by
    simp only [vpage, Nat.zero_mul, Nat.add_zero]
    exact Nat.mod_eq_of_lt hv
  refine ⟨unmap_pages t2 v al, ?_, ?_, ?_, ?_, ?_⟩
  · simp only [pg_free_and_unmap, hal, ne_eq, not_true_eq_false, if_false, shr3, shl3]
    rw [hv0] at e1
    rw [e1]
    simp only
    rw [show al - al / 8 * 8 = al % 8 by omega, f1]
  · have hn : (unmap_pages t2 v al).pfa.nframes = s0.pfa.nframes := by
      simp only [unmap_pages, f3, e3, hta, h.nfr]
    have hu : (unmap_pages t2 v al).pfa.used = s0.pfa.used := by
      funext f
      rw [Bool.eq_iff_iff]
      simp only [unmap_pages]
      rw [f4, e4, hta, h.used]
      constructor
      · rintro ⟨⟨h1 | ⟨j, hj, hjf⟩, h2⟩, h3⟩
        · exact h1
        · exfalso
          by_cases hlt : j < 8 * (al / 8)
          · exact h2 ⟨j, by omega, hlt, hjf⟩
          · exact h3 ⟨j, by omega, by omega, hjf⟩
      · intro h1
        refine ⟨⟨Or.inl h1, ?_⟩, ?_⟩
        · rintro ⟨j, _, hj, hjf⟩
          have := (h.was_free j (by omega)).2
          rw [hjf, h1] at this
          exact absurd this (by simp)
        · rintro ⟨j, _, hj, hjf⟩
          have := (h.was_free j (by omega)).2
          rw [hjf, h1] at this
          exact absurd this (by simp)
    cases hp : (unmap_pages t2 v al).pfa with
    | mk n1 u1 =>
      cases hq : s0.pfa with
      | mk n0 u0 =>
        rw [hp] at hn hu
        rw [hq] at hn hu
        simp only at hn hu
        rw [hn, hu]
  · intro j hj
    simp only [unmap_pages]
    exact unmap_range_hit _ _ _ _ hj
  · intro x hx
    simp only [unmap_pages]
    rw [unmap_range_other _ _ _ _ hx, f2, e2, htp]
    exact h.frame x hx
  · simp only [unmap_pages, f5, e5, free_calls, List.append_assoc]

theorem vpage_step (v a k : Nat) :
    (vpage v a + k * PAGE_SIZE) % UPTR_MOD = vpage v (a + k) := by
  simp only [vpage, PAGE_SIZE, UPTR_MOD]; omega

/-! ### The loops of `pg_alloc_and_map` -/

theorem alloc_32_loop_spec {s0 : kstate} {v : Nat} (hwf : pfa_wf s0) :
    ∀ (k : Nat) (s : kstate) (al : Nat) (fr : Nat → Nat) (T : List pf_call),
      alloc_inv s0 s v al fr → group_inv s0 s al al fr T →
      ∀ (s1 : kstate) (cv1 al1 : Nat), alloc_32_loop k s (vpage v al) al = (s1, cv1, al1) →
      ∃ fr1 T1, alloc_inv s0 s1 v al1 fr1 ∧ group_inv s0 s1 al1 al1 fr1 T1 ∧
        cv1 = vpage v al1 ∧ al ≤ al1 ∧ al1 ≤ al + 32 * k ∧ (al1 - al) % 32 = 0 := by
  intro k
  induction k with
  | zero =>
    intro s al fr T h hg s1 cv1 al1 hr
    simp only [alloc_32_loop, Prod.mk.injEq] at hr
    obtain ⟨e1, e2, e3⟩ := hr
    subst e1 e2 e3
    exact ⟨fr, T, h, hg, rfl, Nat.le_refl _, by omega, by omega⟩
  | succ k ih =>
    intro s al fr T h hg s1 cv1 al1 hr
    simp only [alloc_32_loop] at hr
    cases ha : alloc_32_pageframes s with
    | mk r sa =>
      rw [ha] at hr
      cases r with
      | none =>
        simp only [Prod.mk.injEq] at hr
        obtain ⟨e1, e2, e3⟩ := hr
        subst e1 e2 e3
        obtain ⟨_, q1, q2, q3⟩ := alloc_ret_none 32 pf_call.alloc_32 s sa ha
        refine ⟨fr, T ++ [pf_call.alloc_32 none], ?_, ?_, rfl, Nat.le_refl _, by omega, by omega⟩
        · exact ⟨by rw [q1]; exact h.nfr, h.inj, h.was_free, by rw [q1]; exact h.used,
            by rw [q2]; exact h.mapped, by rw [q2]; exact h.frame,
            by have := h.count; simp only [get_free_pg_count, q1] at *; exact this⟩
        · refine ⟨by rw [q3, hg.calls, List.append_assoc], hg.m_le, hg.m_dvd, hg.grouped, ?_,
            ?_, ?_⟩
          · intro g hgm
            rcases hg.from_batch g hgm with h2 | ⟨q, kk, h2, h3, h4⟩
            · exact Or.inl (List.mem_append_left _ h2)
            · exact Or.inr ⟨q, kk, List.mem_append_left _ h2, h3, h4⟩
          · intro j h1 h2; omega
          · intro c hc
            rcases List.mem_append.1 hc with h1 | h1
            · exact hg.only_alloc c h1
            · simp at h1; subst h1; simp
      | some p =>
        simp only at hr
        obtain ⟨fb, q0, _, q1, q2, q3, q4, q5⟩ := alloc_ret_some 32 pf_call.alloc_32 s sa p ha
        subst q0
        rw [vpage_step] at hr
        have h1 := alloc_inv_step hwf h 32 fb q1 q2 q3 q4
        have hg1 := group_inv_step32 hg fb (vpage v al) q5
        obtain ⟨fr1, T1, r1, r2, r3, r4, r5, r6⟩ := ih _ _ _ _ h1 hg1 s1 cv1 al1 hr
        exact ⟨fr1, T1, r1, r2, r3, by omega, by omega, by omega⟩

theorem alloc_1_loop_spec {s0 : kstate} {v : Nat} (hwf : pfa_wf s0) :
    ∀ (k : Nat) (s : kstate) (al m : Nat) (fr : Nat → Nat) (T : List pf_call),
      alloc_inv s0 s v al fr → group_inv s0 s al m fr T →
      ∀ (s1 : kstate) (cv1 al1 : Nat), alloc_1_loop k s (vpage v al) al = some (s1, cv1, al1) →
      ∃ fr1 T1, alloc_inv s0 s1 v al1 fr1 ∧ group_inv s0 s1 al1 m fr1 T1 ∧ al1 = al + k := by
  intro k
  induction k with
  | zero =>
    intro s al m fr T h hg s1 cv1 al1 hr
    simp only [alloc_1_loop, Option.some.injEq, Prod.mk.injEq] at hr
    obtain ⟨e1, e2, e3⟩ := hr
    subst e1 e2 e3
    exact ⟨fr, T, h, hg, rfl⟩
  | succ k ih =>
    intro s al m fr T h hg s1 cv1 al1 hr
    simp only [alloc_1_loop] at hr
    cases ha : alloc_pageframe s with
    | mk r sa =>
      rw [ha] at hr
      cases r with
      | none => simp at hr
      | some p =>
        simp only at hr
        obtain ⟨fb, q0, _, q1, q2, q3, q4, q5⟩ := alloc_ret_some 1 pf_call.alloc_1 s sa p ha
        subst q0
        have hcv : (vpage v al + PAGE_SIZE) % UPTR_MOD = vpage v (al + 1) := by
          have := vpage_step v al 1
          rwa [Nat.one_mul] at this
        rw [hcv] at hr
        have h1 := alloc_inv_step hwf h 1 fb q1 q2 q3 q4
        have hg1 := group_inv_step1 hg fb (vpage v al) q5
        obtain ⟨fr1, T1, r1, r2, r3⟩ := ih _ _ _ _ _ h1 hg1 s1 cv1 al1 hr
        exact ⟨fr1, T1, r1, r2, by omega⟩

theorem alloc_8_loop_spec {s0 : kstate} {v : Nat} (hwf : pfa_wf s0) (hv : v < UPTR_MOD)
    (hal : v &&& (PAGE_SIZE - 1) = 0) :
    ∀ (k : Nat) (s : kstate) (al : Nat) (fr : Nat → Nat) (T : List pf_call),
      alloc_inv s0 s v al fr → group_inv s0 s al al fr T →
      (∃ s1 fr1 T1, alloc_8_loop v k s (vpage v al) al
            = some (true, s1, vpage v (al + 8 * k), al + 8 * k) ∧
          alloc_inv s0 s1 v (al + 8 * k) fr1 ∧
          group_inv s0 s1 (al + 8 * k) (al + 8 * k) fr1 T1) ∨
      (∃ s1 cv1 al1, alloc_8_loop v k s (vpage v al) al = some (false, s1, cv1, al1) ∧
          al ≤ al1 ∧ al1 < al + 8 * k ∧ s1.pfa = s0.pfa ∧
          (∀ j, j < al1 → s1.pdir (vpage v j) = none) ∧
          (∀ x, (∀ j, j < al1 → x ≠ vpage v j) → s1.pdir x = s0.pdir x)) := by
  intro k
  induction k with
  | zero =>
    intro s al fr T h hg
    exact Or.inl ⟨s, fr, T, rfl, h, hg⟩
  | succ k ih =>
    intro s al fr T h hg
    simp only [alloc_8_loop]
    cases ha : alloc_8_pageframes s with
    | mk r sa =>
      cases r with
      | none =>
        right
        obtain ⟨_, q1, q2, q3⟩ := alloc_ret_none 8 pf_call.alloc_8 s sa ha
        obtain ⟨t1, e1, e2, e3, e4, _⟩ :=
          pg_free_and_unmap_spec h hg (by omega) hv hal q2 q1
        simp only [e1]
        exact ⟨t1, _, al, rfl, Nat.le_refl _, by omega, e2, e3, e4⟩
      | some p =>
        simp only
        obtain ⟨fb, q0, _, q1, q2, q3, q4, q5⟩ := alloc_ret_some 8 pf_call.alloc_8 s sa p ha
        subst q0
        rw [vpage_step]
        have h1 := alloc_inv_step hwf h 8 fb q1 q2 q3 q4
        have hg1 := group_inv_step8 hg fb (vpage v al) q5
        have hidx : al + 8 + 8 * k = al + 8 * (k + 1) := by omega
        rcases ih _ _ _ _ h1 hg1 with ⟨s1, fr1, T1, r1, r2, r3⟩ | ⟨s1, cv1, al1, r1, r2, r3, r4⟩
        · rw [hidx] at r1 r2 r3
          exact Or.inl ⟨s1, fr1, T1, r1, r2, r3⟩
        · exact Or.inr ⟨s1, cv1, al1, r1, by omega, by omega, r4⟩

/-! ### `pg_alloc_and_map` as a whole -/

/-- The two ways in which `pg_alloc_and_map` returns: `false` with the
allocator restored and the pages touched so far unmapped, or `true` with the
loop invariants established for all `n` pages. -/
theorem pg_alloc_and_map_cases {s s1 : kstate} {v n : Nat} {b : Bool} (hwf : pfa_wf s)
    (hv : v < UPTR_MOD) (h : pg_alloc_and_map s v n = some (b, s1)) :
    (b = false ∧ s1.pfa = s.pfa ∧ ∃ al, al ≤ n ∧
        (∀ j, j < al → s1.pdir (vpage v j) = none) ∧
        (∀ x, (∀ j, j < al → x ≠ vpage v j) → s1.pdir x = s.pdir x)) ∨
    (b = true ∧ n ≤ get_free_pg_count s ∧ ∃ fr T m, alloc_inv s s1 v n fr ∧
        group_inv s s1 n m fr T ∧ n < m + 8) := by
  unfold pg_alloc_and_map at h
  by_cases hal : v &&& (PAGE_SIZE - 1) = 0
  swap
  · rw [if_pos hal] at h; exact absurd h (by simp)
  rw [if_neg (by simpa using hal)] at h
  by_cases hc : get_free_pg_count s < n
  · rw [if_pos hc] at h
    simp only [Option.some.injEq, Prod.mk.injEq] at h
    obtain ⟨e1, e2⟩ := h
    subst e1 e2
    exact Or.inl ⟨rfl, rfl, 0, Nat.zero_le _, fun j hj => by omega, fun x _ => rfl⟩
  rw [if_neg hc] at h
  have hv0 : vpage v 0 = v := by
    simp only [vpage, Nat.zero_mul, Nat.add_zero]
    exact Nat.mod_eq_of_lt hv
  simp only [shr3, shr5] at h
  cases h32 : alloc_32_loop (n / 32) s v 0 with
  | mk sa r =>
    obtain ⟨cva, ala⟩ := r
    rw [h32] at h
    simp only at h
    rw [← hv0] at h32
    obtain ⟨fra, Ta, ia, ga, ea, _, la, _⟩ :=
      alloc_32_loop_spec hwf (n / 32) s 0 (fun _ => 0) [] (alloc_inv_refl s v _)
        (group_inv_refl s _) sa cva ala h32
    subst ea
    rcases alloc_8_loop_spec hwf hv hal ((n - ala) / 8) sa ala fra Ta ia ga with
      ⟨sb, frb, Tb, eb, ib, gb⟩ | ⟨sb, cvb, alb, eb, l1, l2, pb, ub, ob⟩
    · rw [eb] at h
      simp only at h
      cases h1 : alloc_1_loop (n - (ala + 8 * ((n - ala) / 8))) sb
          (vpage v (ala + 8 * ((n - ala) / 8))) (ala + 8 * ((n - ala) / 8)) with
      | none => rw [h1] at h; exact absurd h (by simp)
      | some r =>
        obtain ⟨sc, cvc, alc⟩ := r
        rw [h1] at h
        simp only at h
        obtain ⟨frc, Tc, ic, gc, ec⟩ := alloc_1_loop_spec hwf _ sb _ _ frb Tb ib gb sc cvc alc h1
        by_cases hn : alc = n
        · rw [if_pos hn] at h
          simp only [Option.some.injEq, Prod.mk.injEq] at h
          obtain ⟨e1, e2⟩ := h
          subst e1 e2 hn
          exact Or.inr ⟨rfl, by omega, frc, Tc, _, ic, gc, by omega⟩
        · rw [if_neg hn] at h; exact absurd h (by simp)
    · rw [eb] at h
      simp only [Option.some.injEq, Prod.mk.injEq] at h
      obtain ⟨e1, e2⟩ := h
      subst e1 e2
      exact Or.inl ⟨rfl, pb, alb, by omega, ub, ob⟩

/-! ### The properties of `pg_alloc_and_map` and `pg_free_and_unmap` -/

/-- C1 (rollback atomicity). Starting from a state in which no page of the
range of `n` pages at `v` is mapped, if `pg_alloc_and_map (v, n)` returns
`false` (through the capacity check or through a failed `alloc_8_pageframes`
after some batches succeeded), then afterwards no page of the range is mapped
and the number of free frames is what it was before the call. -/
theorem pg_alloc_and_map_rollback (s s1 : kstate) (v n : Nat) (hwf : pfa_wf s)
    (hv : v < UPTR_MOD) (hun : ∀ j, j < n → s.pdir (vpage v j) = none)
    (h : pg_alloc_and_map s v n = some (false, s1)) :
    (∀ j, j < n → s1.pdir (vpage v j) = none) ∧
      get_free_pg_count s1 = get_free_pg_count s := by
  rcases pg_alloc_and_map_cases hwf hv h with ⟨_, hp, al, hal, h1, h2⟩ | ⟨hb, _⟩
  · refine ⟨fun j hj => ?_, by simp only [get_free_pg_count, hp]⟩
    by_cases hx : ∀ i, i < al → vpage v j ≠ vpage v i
    · rw [h2 _ hx]; exact hun j hj
    · push_neg at hx
      obtain ⟨i, hi, he⟩ := hx
      rw [he]; exact h1 i hi
  · exact absurd hb (by simp)

theorem demo_state_rollback_run :
    (pg_alloc_and_map demo_state 4096 42).map Prod.fst = some false := by decide

/-- C1, on the machine `demo_state`: 46 of 48 frames are free, but only four
aligned groups of 8, so that the fifth `alloc_8_pageframes` of a request for 42
pages fails after 32 pages were mapped. -/
theorem pg_alloc_and_map_rollback_witness :
    ∃ s1, pg_alloc_and_map demo_state 4096 42 = some (false, s1) ∧
      ((∀ j, j < 42 → s1.pdir (vpage 4096 j) = none) ∧
        get_free_pg_count s1 = get_free_pg_count demo_state) := by
  have hr := demo_state_rollback_run
  cases hres : pg_alloc_and_map demo_state 4096 42 with
  | none => rw [hres] at hr; exact absurd hr (by simp)
  | some r =>
    obtain ⟨b, s1⟩ := r
    rw [hres] at hr
    simp only [Option.map_some', Option.some.injEq] at hr
    subst hr
    exact ⟨s1, rfl, pg_alloc_and_map_rollback demo_state s1 4096 42 (by decide) (by decide)
      (by decide) hres⟩

/-- Every page of an established allocation is backed by a frame that one of
the recorded allocation calls handed out. -/
theorem group_inv_obtained {s0 s : kstate} {al m : Nat} {fr : Nat → Nat} {T : List pf_call}
    (hg : group_inv s0 s al m fr T) (j : Nat) (hj : j < al) :
    ∃ c, c ∈ T ∧ fr j * PAGE_SIZE ∈ call_frames c := by
  have hd := hg.m_dvd
  by_cases hm : j < m
  · have h8 : 8 * (j / 8) + 8 ≤ m := by omega
    have hgr := hg.grouped (j / 8) (j % 8) h8 (by omega)
    rw [show 8 * (j / 8) + j % 8 = j by omega] at hgr
    rcases hg.from_batch (j / 8) h8 with h1 | ⟨q, k, h1, h2, h3⟩
    · refine ⟨_, h1, ?_⟩
      simp only [call_frames, List.mem_map, List.mem_range]
      exact ⟨j % 8, by omega, by rw [hgr, Nat.add_mul]⟩
    · refine ⟨_, h1, ?_⟩
      simp only [call_frames, List.mem_map, List.mem_range]
      refine ⟨8 * k + j % 8, by omega, ?_⟩
      rw [hgr, Nat.add_mul (fr (8 * (j / 8))) (j % 8), h3, Nat.add_mul, Nat.add_assoc]
  · refine ⟨_, hg.from_single j (by omega) hj, ?_⟩
    simp [call_frames]

/-- C2 (success postcondition). If `pg_alloc_and_map (v, n)` returns `true`,
then each of the `n` pages of the range is mapped read/write and not
user-accessible to a frame `fr j` of its own (distinct pages get distinct
frames), every such frame was handed out by an allocator call made during this
call (it was free before and is reserved after), no page outside the range
changed its mapping, and the number of free frames went down by exactly `n`. -/
theorem pg_alloc_and_map_success (s s1 : kstate) (v n : Nat) (hwf : pfa_wf s)
    (hv : v < UPTR_MOD) (h : pg_alloc_and_map s v n = some (true, s1)) :
    ∃ (fr : Nat → Nat) (T : List pf_call), s1.calls = s.calls ++ T ∧
      (∀ j, j < n → s1.pdir (vpage v j) = some ⟨fr j * PAGE_SIZE, false, true⟩) ∧
      (∀ i j, i < n → j < n → i ≠ j → vpage v i ≠ vpage v j ∧ fr i ≠ fr j) ∧
      (∀ j, j < n → ∃ c, c ∈ T ∧ fr j * PAGE_SIZE ∈ call_frames c) ∧
      (∀ j, j < n → s.pfa.used (fr j) = false ∧ s1.pfa.used (fr j) = true) ∧
      (∀ x, (∀ j, j < n → x ≠ vpage v j) → s1.pdir x = s.pdir x) ∧
      get_free_pg_count s1 + n = get_free_pg_count s := by
  rcases pg_alloc_and_map_cases hwf hv h with ⟨hb, _⟩ | ⟨_, _, fr, T, m, hi, hg, _⟩
  · exact absurd hb (by simp)
  · refine ⟨fr, T, hg.calls, hi.mapped, ?_, fun j hj => group_inv_obtained hg j hj, ?_,
      hi.frame, hi.count⟩
    · intro i j h1 h2 hne
      exact ⟨fun he => hne (vpage_inj v n i j (alloc_inv_bound hwf hi) h1 h2 he),
        fun he => hne (hi.inj i j h1 h2 he)⟩
    · intro j hj
      exact ⟨(hi.was_free j hj).2, (hi.used _).2 (Or.inr ⟨j, hj, rfl⟩)⟩

theorem demo_state_success_run :
    (pg_alloc_and_map demo_state_80 8192 43).map Prod.fst = some true := by decide

/-- C2, on the machine `demo_state_80`: a request for 43 pages is served by one
batch of 32 frames, one batch of 8 and three single frames. -/
theorem pg_alloc_and_map_success_witness :
    ∃ s1, pg_alloc_and_map demo_state_80 8192 43 = some (true, s1) ∧
      ∃ (fr : Nat → Nat) (T : List pf_call), s1.calls = demo_state_80.calls ++ T ∧
      (∀ j, j < 43 → s1.pdir (vpage 8192 j) = some ⟨fr j * PAGE_SIZE, false, true⟩) ∧
      (∀ i j, i < 43 → j < 43 → i ≠ j → vpage 8192 i ≠ vpage 8192 j ∧ fr i ≠ fr j) ∧
      (∀ j, j < 43 → ∃ c, c ∈ T ∧ fr j * PAGE_SIZE ∈ call_frames c) ∧
      (∀ j, j < 43 → demo_state_80.pfa.used (fr j) = false ∧ s1.pfa.used (fr j) = true) ∧
      (∀ x, (∀ j, j < 43 → x ≠ vpage 8192 j) → s1.pdir x = demo_state_80.pdir x) ∧
      get_free_pg_count s1 + 43 = get_free_pg_count demo_state_80 := by
  have hr := demo_state_success_run
  cases hres : pg_alloc_and_map demo_state_80 8192 43 with
  | none => rw [hres] at hr; exact absurd hr (by simp)
  | some r =>
    obtain ⟨b, s1⟩ := r
    rw [hres] at hr
    simp only [Option.map_some', Option.some.injEq] at hr
    subst hr
    exact ⟨s1, rfl, pg_alloc_and_map_success demo_state_80 s1 8192 43 (by decide) (by decide)
      hres⟩

theorem countP_map_free_8 (f : Nat → Nat) (l : List Nat) :
    (l.map (fun g => pf_call.free_8 (f g))).countP is_free_8 = l.length ∧
    (l.map (fun g => pf_call.free_8 (f g))).countP is_free_1 = 0 := by
  induction l with
  | nil => simp
  | cons a l ih => simp [List.countP_cons, is_free_8, is_free_1, ih.1, ih.2]

theorem countP_map_free_1 (f : Nat → Nat) (l : List Nat) :
    (l.map (fun g => pf_call.free_1 (f g))).countP is_free_1 = l.length ∧
    (l.map (fun g => pf_call.free_1 (f g))).countP is_free_8 = 0 := by
  induction l with
  | nil => simp
  | cons a l ih => simp [List.countP_cons, is_free_8, is_free_1, ih.1, ih.2]

/-- C3 as it is stated fails on a range that was mapped before the allocation:
on `demo_state_premapped` the page at 4096 is mapped to frame 40,
`pg_alloc_and_map (4096, 1)` returns `true`, and after
`pg_free_and_unmap (4096, 1)` the page is unmapped, not mapped to frame 40
again. -/
theorem pg_free_and_unmap_inverse_counterexample :
    pfa_wf demo_state_premapped ∧ 4096 &&& (PAGE_SIZE - 1) = 0 ∧
    demo_state_premapped.pdir (vpage 4096 0) = some ⟨40 * PAGE_SIZE, false, true⟩ ∧
    (pg_alloc_and_map demo_state_premapped 4096 1).map Prod.fst = some true ∧
    ((pg_alloc_and_map demo_state_premapped 4096 1).bind
        (fun r => pg_free_and_unmap r.2 4096 1)).map (fun s2 => s2.pdir (vpage 4096 0))
      = some none ∧
    ((pg_alloc_and_map demo_state_premapped 4096 1).bind
        (fun r => pg_free_and_unmap r.2 4096 1)).map (fun s2 => s2.pdir (vpage 4096 0))
      ≠ some (demo_state_premapped.pdir (vpage 4096 0)) := by
  decide

/-- C3 (`pg_free_and_unmap` undoes `pg_alloc_and_map`), as the code has it. If
`pg_alloc_and_map (v, n)` returned `true`, then `pg_free_and_unmap (v, n)`
completes, gives the pageframe allocator back its state (hence its free count)
from before the allocation and leaves every page of the range unmapped and
every other page untouched, so that the page directory is the one from before
the allocation whenever the range was unmapped then. It makes exactly
`n / 8` calls to `free_8_pageframes`, each on the base of a batch of 8 or on
an 8-aligned quarter of a batch of 32 obtained by the allocation, and exactly
`n % 8` calls to `free_pageframe`, each on a frame obtained from
`alloc_pageframe` by the allocation. -/
theorem pg_free_and_unmap_inverse (s s1 : kstate) (v n : Nat) (hwf : pfa_wf s)
    (hv : v < UPTR_MOD) (h : pg_alloc_and_map s v n = some (true, s1)) :
    ∃ (s2 : kstate) (A F : List pf_call), pg_free_and_unmap s1 v n = some s2 ∧
      s2.pfa = s.pfa ∧ get_free_pg_count s2 = get_free_pg_count s ∧
      (∀ j, j < n → s2.pdir (vpage v j) = none) ∧
      (∀ x, (∀ j, j < n → x ≠ vpage v j) → s2.pdir x = s.pdir x) ∧
      ((∀ j, j < n → s.pdir (vpage v j) = none) → s2.pdir = s.pdir) ∧
      s1.calls = s.calls ++ A ∧ s2.calls = s1.calls ++ F ∧
      F.countP is_free_8 = n / 8 ∧
      (∀ p, pf_call.free_8 p ∈ F → pf_call.alloc_8 (some p) ∈ A ∨
        ∃ q k, pf_call.alloc_32 (some q) ∈ A ∧ k < 4 ∧ p = q + 8 * k * PAGE_SIZE) ∧
      F.countP is_free_1 = n % 8 ∧
      (∀ p, pf_call.free_1 p ∈ F → pf_call.alloc_1 (some p) ∈ A) := by
  rcases pg_alloc_and_map_cases hwf hv h with ⟨hb, _⟩ | ⟨_, _, fr, T, m, hi, hg, hm⟩
  · exact absurd hb (by simp)
  have hal : v &&& (PAGE_SIZE - 1) = 0 := by
    by_contra hne
    unfold pg_alloc_and_map at h
    rw [if_pos hne] at h
    exact absurd h (by simp)
  obtain ⟨s2, e1, e2, e3, e4, e5⟩ := pg_free_and_unmap_spec hi hg hm hv hal rfl rfl
  have hmd := hg.m_dvd
  have hml := hg.m_le
  refine ⟨s2, T, free_calls v n fr, e1, e2, by simp only [get_free_pg_count, e2], e3, e4, ?_,
    hg.calls, e5, ?_, ?_, ?_, ?_⟩
  · intro hun
    funext x
    by_cases hx : ∀ j, j < n → x ≠ vpage v j
    · exact e4 x hx
    · push_neg at hx
      obtain ⟨j, hj, he⟩ := hx
      rw [he, e3 j hj, hun j hj]
  · simp only [free_calls, List.countP_append, (countP_map_free_8 _ _).1,
      (countP_map_free_1 _ _).2, List.length_range]
    simp [is_free_8]
  · intro p hp
    simp only [free_calls, List.mem_append, List.mem_map, List.mem_range, List.mem_singleton,
      pf_call.free_8.injEq] at hp
    rcases hp with (⟨g, hg1, hg2⟩ | ⟨i, _, hi2⟩) | hp
    · subst hg2
      exact hg.from_batch g (by omega)
    · exact absurd hi2 (by simp)
    · exact absurd hp (by simp)
  · simp only [free_calls, List.countP_append, (countP_map_free_8 _ _).2,
      (countP_map_free_1 _ _).1, List.length_range]
    simp [is_free_1]
  · intro p hp
    simp only [free_calls, List.mem_append, List.mem_map, List.mem_range, List.mem_singleton,
      pf_call.free_1.injEq] at hp
    rcases hp with (⟨g, _, hg2⟩ | ⟨i, hi1, hi2⟩) | hp
    · exact absurd hg2 (by simp)
    · subst hi2
      exact hg.from_single _ (by omega) (by omega)
    · exact absurd hp (by simp)

theorem demo_state_inverse_run :
    (pg_alloc_and_map demo_state_80 4096 53).map Prod.fst = some true := by decide

/-- C3, on the machine `demo_state_80`: 53 pages are allocated (one batch of 32,
two batches of 8, five single frames) and then freed again. -/
theorem pg_free_and_unmap_inverse_witness :
    ∃ s1, pg_alloc_and_map demo_state_80 4096 53 = some (true, s1) ∧
      ∃ (s2 : kstate) (A F : List pf_call), pg_free_and_unmap s1 4096 53 = some s2 ∧
      s2.pfa = demo_state_80.pfa ∧ get_free_pg_count s2 = get_free_pg_count demo_state_80 ∧
      (∀ j, j < 53 → s2.pdir (vpage 4096 j) = none) ∧
      (∀ x, (∀ j, j < 53 → x ≠ vpage 4096 j) → s2.pdir x = demo_state_80.pdir x) ∧
      ((∀ j, j < 53 → demo_state_80.pdir (vpage 4096 j) = none) →
        s2.pdir = demo_state_80.pdir) ∧
      s1.calls = demo_state_80.calls ++ A ∧ s2.calls = s1.calls ++ F ∧
      F.countP is_free_8 = 53 / 8 ∧
      (∀ p, pf_call.free_8 p ∈ F → pf_call.alloc_8 (some p) ∈ A ∨
        ∃ q k, pf_call.alloc_32 (some q) ∈ A ∧ k < 4 ∧ p = q + 8 * k * PAGE_SIZE) ∧
      F.countP is_free_1 = 53 % 8 ∧
      (∀ p, pf_call.free_1 p ∈ F → pf_call.alloc_1 (some p) ∈ A) := by
  have hr := demo_state_inverse_run
  cases hres : pg_alloc_and_map demo_state_80 4096 53 with
  | none => rw [hres] at hr; exact absurd hr (by simp)
  | some r =>
    obtain ⟨b, s1⟩ := r
    rw [hres] at hr
    simp only [Option.map_some', Option.some.injEq] at hr
    subst hr
    exact ⟨s1, rfl, pg_free_and_unmap_inverse demo_state_80 s1 4096 53 (by decide) (by decide)
      hres⟩

/-! ### ramfs: inode lifetime -/

theorem set_inode_inodes (d : ramfs_data) (p q : Nat) (ino : ramfs_inode) :
    (set_inode d p ino).inodes q = if q = p then some ino else d.inodes q := rfl

theorem set_inode_same (d : ramfs_data) (p : Nat) (ino : ramfs_inode) :
    (set_inode d p ino).inodes p = some ino := by
  simp [set_inode]

theorem set_inode_destroyed (d : ramfs_data) (p : Nat) (ino : ramfs_inode) :
    (set_inode d p ino).destroyed = d.destroyed := rfl

theorem truncate_destroy (d : ramfs_data) (i : Nat) (ino : ramfs_inode)
    (h : d.inodes i = some ino) :
    ∃ d2, ramfs_inode_truncate d i 0 = some d2 ∧
      ∃ d3, ramfs_destroy_inode d2 i = some d3 ∧ d3.inodes i = none ∧
        (∀ q, q ≠ i → d3.inodes q = d.inodes q) ∧
        d3.destroyed = d.destroyed ++ [(i, { ino with content := [] })] := by
  refine ⟨set_inode d i { ino with content := [] }, by
    simp only [ramfs_inode_truncate, h, List.take_zero], ?_⟩
  simp only [ramfs_destroy_inode, set_inode_same]
  refine ⟨_, rfl, by simp, ?_, by simp [set_inode_destroyed]⟩
  intro q hq
  simp [hq, set_inode_inodes]

theorem close_step (d d1 : ramfs_data) (i : Nat) (ino : ramfs_inode)
    (hi : d.inodes i = some ino) (h : ramfs_close d ⟨i⟩ = some d1) :
    0 < ino.ref_count ∧
    ((¬ (ino.ref_count = 1 ∧ ino.nlink = 0) ∧
        d1 = set_inode d i { ino with ref_count := ino.ref_count - 1 }) ∨
     (ino.ref_count = 1 ∧ ino.nlink = 0 ∧ d1.inodes i = none ∧
        (∀ q, q ≠ i → d1.inodes q = d.inodes q) ∧
        d1.destroyed = d.destroyed ++ [(i, { ino with ref_count := 0, content := [] })])) := by
  simp only [ramfs_close, release_obj, hi] at h
  by_cases hr : ino.ref_count = 0
  · simp [hr] at h
  · simp only [hr, if_false, set_inode_inodes, if_true] at h
    refine ⟨by omega, ?_⟩
    by_cases hz : ino.ref_count - 1 = 0 ∧ ino.nlink = 0
    · rw [if_pos hz] at h
      obtain ⟨d2, e2, d3, e3, e4, e5, e6⟩ := truncate_destroy
        (set_inode d i { ino with ref_count := ino.ref_count - 1 }) i
        { ino with ref_count := ino.ref_count - 1 } (set_inode_same _ _ _)
      rw [e2] at h
      simp only at h
      rw [e3] at h
      simp only [Option.some.injEq] at h
      subst h
      right
      refine ⟨by omega, hz.2, e4, ?_, ?_⟩
      · intro q hq
        rw [e5 q hq, set_inode_inodes, if_neg hq]
      · rw [e6, set_inode_destroyed, hz.1]
    · rw [if_neg hz] at h
      simp only [Option.some.injEq] at h
      left
      exact ⟨fun hh => hz ⟨by omega, hh.2⟩, h.symm⟩

theorem apply_inode_op_live (d d1 : ramfs_data) (i : Nat) (ino : ramfs_inode) (op : inode_op)
    (hi : d.inodes i = some ino) (h : apply_inode_op i d op = some d1) : step_ok d d1 i := by
  cases op with
  | «open» =>
    simp only [apply_inode_op, ramfs_open, retain_obj, hi, Option.map_some',
      Option.some.injEq] at h
    subst h
    exact Or.inl ⟨_, set_inode_same _ _ _, rfl, Or.inl (Or.inr (by simp))⟩
  | dup mem_ok =>
    cases mem_ok with
    | false =>
      simp only [apply_inode_op, ramfs_dup, Bool.not_false, if_true, Option.map_some',
        Option.some.injEq] at h
      subst h
      exact Or.inl ⟨ino, hi, rfl, Or.inr rfl⟩
    | true =>
      simp only [apply_inode_op, ramfs_dup, retain_obj, hi, Option.map_some',
        Option.some.injEq] at h
      simp at h
      subst h
      exact Or.inl ⟨_, set_inode_same _ _ _, rfl, Or.inl (Or.inr (by simp))⟩
  | close =>
    simp only [apply_inode_op] at h
    obtain ⟨hpos, ⟨hn, e⟩ | ⟨h1, h2, h3, _, h5⟩⟩ := close_step d d1 i ino hi h
    · subst e
      refine Or.inl ⟨_, set_inode_same _ _ _, rfl, Or.inl ?_⟩
      simp only
      by_cases hz : ino.nlink = 0
      · right; omega
      · left; exact hz
    · exact Or.inr ⟨h3, _, h5, h2, rfl⟩
  | dir_add_entry idir name =>
    simp only [apply_inode_op, ramfs_dir_add_entry] at h
    cases hd : d.inodes idir with
    | none => simp [hd] at h
    | some dino =>
      simp only [hd] at h
      by_cases hex : (ramfs_dir_get_entry_by_name dino name).isSome = true
      · simp only [hex, if_true, Option.map_some', Option.some.injEq] at h
        subst h
        exact Or.inl ⟨ino, hi, rfl, Or.inr rfl⟩
      · simp only [hex, hi, set_inode_inodes] at h
        by_cases hii : idir = i
        · subst hii
          simp only [if_true, Bool.false_eq_true, if_false, Option.map_some',
            Option.some.injEq] at h
          subst h
          exact Or.inl ⟨_, set_inode_same _ _ _, rfl, Or.inl (Or.inl (by simp))⟩
        · simp only [if_neg hii, hd, Bool.false_eq_true, if_false, Option.map_some',
            Option.some.injEq] at h
          subst h
          refine Or.inl ⟨{ ino with nlink := ino.nlink + 1 }, ?_, rfl, Or.inl (Or.inl (by simp))⟩
          simp only [set_inode_inodes]
          rw [if_neg (fun hh => hii hh.symm)]
          simp
  | unlink idir name =>
    simp only [apply_inode_op, hi, ramfs_unlink, Option.bind] at h
    by_cases ht : ino.type = VFS_DIR
    · simp only [ht, if_true, Option.map_some', Option.some.injEq] at h
      subst h
      exact Or.inl ⟨ino, hi, rfl, Or.inr rfl⟩
    · simp only [ht, if_false] at h
      cases hd : d.inodes idir with
      | none => simp [hd] at h
      | some dino =>
        simp only [hd] at h
        by_cases hw : dino.mode &&& 0o200 = 0
        · simp only [hw, if_true, Option.map_some', Option.some.injEq] at h
          subst h
          exact Or.inl ⟨ino, hi, rfl, Or.inr rfl⟩
        · simp only [hw, if_false, ramfs_dir_remove_entry, hd] at h
          by_cases hmem : (⟨name, i⟩ : ramfs_entry) ∈ dino.entries
          swap
          · simp [hmem] at h
          simp only [hmem, not_true_eq_false, if_false, set_inode_inodes] at h
          -- the inode after the removal of the entry
          generalize hino1 : (if i = idir then
              some { dino with entries := dino.entries.erase ⟨name, i⟩ }
            else d.inodes i) = oi at h
          cases oi with
          | none => simp at h
          | some ino1 =>
            simp only at h
            by_cases hn : ino1.nlink = 0
            · simp [hn] at h
            · simp only [hn, if_false, set_inode_inodes, if_true] at h
              by_cases hz : ino1.nlink - 1 = 0 ∧ ino1.ref_count = 0
              · rw [if_pos hz] at h
                obtain ⟨d2, e2, d3, e3, e4, _, e6⟩ := truncate_destroy
                  (set_inode (set_inode d idir
                      { dino with entries := dino.entries.erase ⟨name, i⟩ }) i
                    { ino1 with nlink := ino1.nlink - 1 }) i
                  { ino1 with nlink := ino1.nlink - 1 } (set_inode_same _ _ _)
                rw [e2] at h
                simp only at h
                rw [e3] at h
                simp only [Option.map_some', Option.some.injEq] at h
                subst h
                exact Or.inr ⟨e4, { ino1 with nlink := ino1.nlink - 1, content := [] },
                  by rw [e6]; rfl, hz.1, hz.2⟩
              · rw [if_neg hz] at h
                simp only [Option.map_some', Option.some.injEq] at h
                subst h
                refine Or.inl ⟨_, set_inode_same _ _ _, rfl, Or.inl ?_⟩
                simp only
                by_cases h0 : ino1.nlink - 1 = 0
                · right; exact fun hh => hz ⟨h0, hh⟩
                · left; exact h0

theorem apply_inode_op_dead (d d1 : ramfs_data) (i : Nat) (op : inode_op)
    (hi : d.inodes i = none) (h : apply_inode_op i d op = some d1) : d1 = d := by
  cases op with
  | «open» => simp [apply_inode_op, ramfs_open, retain_obj, hi] at h
  | dup mem_ok =>
    cases mem_ok with
    | false =>
      simp only [apply_inode_op, ramfs_dup, Bool.not_false, if_true, Option.map_some',
        Option.some.injEq] at h
      exact h.symm
    | true => simp [apply_inode_op, ramfs_dup, retain_obj, hi] at h
  | close => simp [apply_inode_op, ramfs_close, release_obj, hi] at h
  | dir_add_entry idir name =>
    simp only [apply_inode_op, ramfs_dir_add_entry] at h
    cases hd : d.inodes idir with
    | none => simp [hd] at h
    | some dino =>
      simp only [hd] at h
      by_cases hex : (ramfs_dir_get_entry_by_name dino name).isSome = true
      · simp only [hex, if_true, Option.map_some', Option.some.injEq] at h
        exact h.symm
      · simp [hex, hi] at h
  | unlink idir name => simp [apply_inode_op, hi] at h

theorem run_inode_ops_dead (i : Nat) (ops : List inode_op) :
    ∀ (d d1 : ramfs_data), d.inodes i = none → run_inode_ops i d ops = some d1 → d1 = d := by
  induction ops with
  | nil =>
    intro d d1 _ h
    simp only [run_inode_ops, Option.some.injEq] at h
    exact h.symm
  | cons op ops ih =>
    intro d d1 hi h
    simp only [run_inode_ops] at h
    cases ha : apply_inode_op i d op with
    | none => rw [ha] at h; exact absurd h (by simp)
    | some d2 =>
      rw [ha] at h
      have := apply_inode_op_dead d d2 i op hi ha
      subst this
      exact ih d2 d1 hi h

theorem run_inode_ops_live (i : Nat) (ops : List inode_op) :
    ∀ (d d1 : ramfs_data) (ino : ramfs_inode), d.inodes i = some ino →
      run_inode_ops i d ops = some d1 → step_ok d d1 i := by
  induction ops with
  | nil =>
    intro d d1 ino hi h
    simp only [run_inode_ops, Option.some.injEq] at h
    subst h
    exact Or.inl ⟨ino, hi, rfl, Or.inr rfl⟩
  | cons op ops ih =>
    intro d d1 ino hi h
    simp only [run_inode_ops] at h
    cases ha : apply_inode_op i d op with
    | none => rw [ha] at h; exact absurd h (by simp)
    | some d2 =>
      rw [ha] at h
      simp only at h
      rcases apply_inode_op_live d d2 i ino op hi ha with
        ⟨ino2, a1, a2, a3⟩ | ⟨b1, st, b2, b3, b4⟩
      · rcases ih d2 d1 ino2 a1 h with ⟨ino1, c1, c2, c3⟩ | ⟨e1, st, e2, e3, e4⟩
        · refine Or.inl ⟨ino1, c1, by rw [c2, a2], ?_⟩
          rcases c3 with c3 | c3
          · exact Or.inl c3
          · rcases a3 with a3 | a3
            · rw [c1, a1, Option.some.injEq] at c3
              subst c3
              exact Or.inl a3
            · exact Or.inr (by rw [c3, a3])
        · exact Or.inr ⟨e1, st, by rw [e2, a2], e3, e4⟩
      · have := run_inode_ops_dead i ops d2 d1 b1 h
        subst this
        exact Or.inr ⟨b1, st, b2, b3, b4⟩

/-- C4 (inode lifecycle), as the code has it. For an inode that is live in `d`
and every sequence of `open` / `dup`, `close`, `dir_add_entry` and `unlink`
operations applied to it that runs through: `ramfs_destroy_inode` is called on
it at most once; it is only called in a state with `nlink = 0` and
`ref_count = 0`; the inode is gone afterwards exactly when it was called; and
it was called if and only if, after the sequence, both counts are zero and the
sequence has changed the inode. -/
theorem inode_lifecycle (d d1 : ramfs_data) (i : Nat) (ino : ramfs_inode) (ops : List inode_op)
    (hi : d.inodes i = some ino) (h : run_inode_ops i d ops = some d1) :
    (destroy_calls d d1 i).length ≤ 1 ∧
    (∀ st, st ∈ destroy_calls d d1 i → st.nlink = 0 ∧ st.ref_count = 0) ∧
    (destroy_calls d d1 i ≠ [] ↔ d1.inodes i = none) ∧
    (destroy_calls d d1 i ≠ [] ↔
      (last_counts d d1 i = some (0, 0) ∧ d1.inodes i ≠ d.inodes i)) := by
  rcases run_inode_ops_live i ops d d1 ino hi h with ⟨ino1, a1, a2, a3⟩ | ⟨b1, st, b2, b3, b4⟩
  · have hc : destroy_calls d d1 i = [] := by simp [destroy_calls, a2]
    rw [hc]
    refine ⟨by simp, by simp, by simp [a1], ?_⟩
    simp only [ne_eq, not_true_eq_false, false_iff, not_and, not_not, last_counts, a1,
      Option.some.injEq, Prod.mk.injEq]
    rintro ⟨h1, h2⟩
    rcases a3 with (h3 | h3) | h3
    · exact absurd h1 h3
    · exact absurd h2 h3
    · rw [← a1]; exact h3
  · have hc : destroy_calls d d1 i = [st] := by simp [destroy_calls, b2]
    rw [hc]
    refine ⟨by simp, ?_, by simp [b1], ?_⟩
    · intro st1 hst
      simp only [List.mem_singleton] at hst
      subst hst
      exact ⟨b3, b4⟩
    · simp [last_counts, b1, hc, b3, b4, hi]

theorem ramfs_create_eq : ramfs_create = some ramfs_tree := by
  unfold ramfs_tree
  cases h : ramfs_create with
  | none =>
    have h1 : ramfs_create.isSome = true := by decide
    rw [h] at h1
    exact absurd h1 (by simp)
  | some d => rfl

/-- C4 as it is stated fails: the root directory of the filesystem that
`ramfs_create` builds is live with `nlink = 0` and `ref_count = 0` (no entry
names it, no handle is open), and it has not been destroyed. -/
theorem inode_lifecycle_counterexample :
    ramfs_create = some ramfs_tree ∧ ramfs_tree.root = some 1 ∧
    (ramfs_tree.inodes 1).isSome = true ∧
    run_inode_ops 1 ramfs_tree [] = some ramfs_tree ∧
    ¬ (destroy_calls ramfs_tree ramfs_tree 1 ≠ [] ↔
        last_counts ramfs_tree ramfs_tree 1 = some (0, 0)) := by
  refine ⟨ramfs_create_eq, by decide, by decide, rfl, ?_⟩
  have h1 : destroy_calls ramfs_tree ramfs_tree 1 = [] := by decide
  have h2 : last_counts ramfs_tree ramfs_tree 1 = some (0, 0) := by decide
  rw [h1, h2]
  simp

theorem ramfs_tree_run :
    (run_inode_ops 6 ramfs_tree
      [inode_op.open, inode_op.unlink 4 "e111".toList, inode_op.dup true, inode_op.close,
        inode_op.close]).isSome = true := by decide

/-- C4, on the file `/e1/e11/e111` of the `ramfs_create` tree: opened, unlinked,
duplicated and closed twice; the second `close` destroys it. -/
theorem inode_lifecycle_witness :
    ∃ d1, run_inode_ops 6 ramfs_tree
        [inode_op.open, inode_op.unlink 4 "e111".toList, inode_op.dup true, inode_op.close,
          inode_op.close] = some d1 ∧
      ((destroy_calls ramfs_tree d1 6).length ≤ 1 ∧
      (∀ st, st ∈ destroy_calls ramfs_tree d1 6 → st.nlink = 0 ∧ st.ref_count = 0) ∧
      (destroy_calls ramfs_tree d1 6 ≠ [] ↔ d1.inodes 6 = none) ∧
      (destroy_calls ramfs_tree d1 6 ≠ [] ↔
        (last_counts ramfs_tree d1 6 = some (0, 0) ∧ d1.inodes 6 ≠ ramfs_tree.inodes 6))) := by
  have hr := ramfs_tree_run
  cases hres : run_inode_ops 6 ramfs_tree
      [inode_op.open, inode_op.unlink 4 "e111".toList, inode_op.dup true, inode_op.close,
        inode_op.close] with
  | none => rw [hres] at hr; exact absurd hr (by simp)
  | some d1 =>
    have hi : ramfs_tree.inodes 6 = some
        { type := VFS_FILE, mode := 0o644, nlink := 1, ref_count := 0, content := [],
          entries := [] } := by decide
    exact ⟨d1, rfl, inode_lifecycle ramfs_tree d1 6 _ _ hi hres⟩

/-! ### ramfs: `unlink` and `close` -/

theorem ramfs_close_alive (d : ramfs_data) (i : Nat) (ino : ramfs_inode)
    (hi : d.inodes i = some ino) (hr : ino.ref_count ≠ 0)
    (hn : ¬ (ino.ref_count = 1 ∧ ino.nlink = 0)) :
    ramfs_close d ⟨i⟩ = some (set_inode d i { ino with ref_count := ino.ref_count - 1 }) := by
  simp only [ramfs_close, release_obj, hi, hr, if_false, set_inode_same]
  have hz : ¬ (ino.ref_count - 1 = 0 ∧ ino.nlink = 0) := fun hh => hn ⟨by omega, hh.2⟩
  rw [if_neg hz]

theorem ramfs_close_last (d : ramfs_data) (i : Nat) (ino : ramfs_inode)
    (hi : d.inodes i = some ino) (hr : ino.ref_count = 1) (hn : ino.nlink = 0) :
    ∃ d1, ramfs_close d ⟨i⟩ = some d1 ∧ d1.inodes i = none ∧
      d1.destroyed = d.destroyed ++ [(i, { ino with ref_count := 0, content := [] })] := by
  have hr0 : ino.ref_count ≠ 0 := by omega
  simp only [ramfs_close, release_obj, hi, hr0, if_false, set_inode_same]
  have hz : ino.ref_count - 1 = 0 ∧ ino.nlink = 0 := ⟨by omega, hn⟩
  rw [if_pos hz]
  obtain ⟨d2, e2, d3, e3, e4, _, e6⟩ := truncate_destroy
    (set_inode d i { ino with ref_count := ino.ref_count - 1 }) i
    { ino with ref_count := ino.ref_count - 1 } (set_inode_same _ _ _)
  rw [e2]
  simp only
  rw [e3]
  refine ⟨d3, rfl, e4, ?_⟩
  rw [e6, set_inode_destroyed, hz.1]

/-- Closing `j` of the `r` handles of an inode without a name, `j < r`, leaves
it alive and intact, with `r - j` handles. -/
theorem close_times_alive (i : Nat) :
    ∀ (j : Nat) (d : ramfs_data) (ino : ramfs_inode), d.inodes i = some ino → ino.nlink = 0 →
      j < ino.ref_count →
      ∃ dj, close_times i j d = some dj ∧
        dj.inodes i = some { ino with ref_count := ino.ref_count - j } ∧
        dj.destroyed = d.destroyed := by
  intro j
  induction j with
  | zero =>
    intro d ino hi _ _
    exact ⟨d, rfl, by rw [hi]; rfl, rfl⟩
  | succ j ih =>
    intro d ino hi hn hj
    simp only [close_times]
    rw [ramfs_close_alive d i ino hi (by omega) (fun hh => by omega)]
    simp only
    obtain ⟨dj, e1, e2, e3⟩ := ih (set_inode d i { ino with ref_count := ino.ref_count - 1 })
      { ino with ref_count := ino.ref_count - 1 } (set_inode_same _ _ _) hn
      (by simp only; omega)
    refine ⟨dj, e1, ?_, by rw [e3, set_inode_destroyed]⟩
    rw [e2]
    simp only [Option.some.injEq, ramfs_inode.mk.injEq, true_and, and_true]
    omega

/-- Closing all `r ≥ 1` handles of an inode without a name destroys it at the
last `close`, truncated to length 0. -/
theorem close_times_all (i : Nat) (d : ramfs_data) (ino : ramfs_inode)
    (hi : d.inodes i = some ino) (hn : ino.nlink = 0) (hr : 1 ≤ ino.ref_count) :
    ∃ dk, close_times i ino.ref_count d = some dk ∧ dk.inodes i = none ∧
      dk.destroyed = d.destroyed ++ [(i, { ino with ref_count := 0, content := [] })] := by
  obtain ⟨dj, e1, e2, e3⟩ := close_times_alive i (ino.ref_count - 1) d ino hi hn (by omega)
  have hsplit : ∀ (j : Nat) (d0 dj : ramfs_data), close_times i j d0 = some dj →
      close_times i (j + 1) d0 = ramfs_close dj ⟨i⟩ := by
    intro j
    induction j with
    | zero =>
      intro d0 dj h
      simp only [close_times, Option.some.injEq] at h
      subst h
      simp only [close_times]
      cases ramfs_close d0 ⟨i⟩ <;> rfl
    | succ j ih =>
      intro d0 dj h
      simp only [close_times] at h
      cases hc : ramfs_close d0 ⟨i⟩ with
      | none => rw [hc] at h; exact absurd h (by simp)
      | some d1 =>
        rw [hc] at h
        simp only at h
        have := ih d1 dj h
        rw [← this]
        conv => lhs; unfold close_times
        rw [hc]
  have hk : ino.ref_count = ino.ref_count - 1 + 1 := by omega
  rw [hk, hsplit _ d dj e1]
  obtain ⟨dk, f1, f2, f3⟩ := ramfs_close_last dj i _ e2 (by simp only; omega) hn
  refine ⟨dk, f1, f2, ?_⟩
  rw [f3, e3]

/-- C5 (deferred destruction). For a file inode with `nlink = 1` and `k ≥ 1`
open handles, `ramfs_unlink` of its only name in a writable directory returns
0, removes the entry and leaves `nlink = 0` without truncating or destroying
the inode; after each of the first `k - 1` calls of `ramfs_close` the inode is
alive with its content intact; the `k`-th call truncates it to length 0 and
destroys it, exactly once. -/
theorem deferred_destruction (d : ramfs_data) (i idir k : Nat) (ino dino : ramfs_inode)
    (name : List Char) (hi : d.inodes i = some ino) (hfile : ino.type = VFS_FILE)
    (hn : ino.nlink = 1) (hr : ino.ref_count = k) (hk : 1 ≤ k)
    (hd : d.inodes idir = some dino) (hdir : dino.type = VFS_DIR)
    (hw : dino.mode &&& 0o200 ≠ 0) (he : (⟨name, i⟩ : ramfs_entry) ∈ dino.entries) :
    ∃ d1, ramfs_unlink d ⟨some i, some idir, some ⟨name, i⟩, ino.type⟩ = some (0, d1) ∧
      d1.inodes idir = some { dino with entries := dino.entries.erase ⟨name, i⟩ } ∧
      d1.inodes i = some { ino with nlink := 0 } ∧ d1.destroyed = d.destroyed ∧
      (∀ j, j < k → ∃ dj, close_times i j d1 = some dj ∧
        dj.inodes i = some { ino with nlink := 0, ref_count := k - j } ∧
        dj.destroyed = d.destroyed) ∧
      ∃ dk, close_times i k d1 = some dk ∧ dk.inodes i = none ∧
        dk.destroyed = d.destroyed ++
          [(i, { ino with nlink := 0, ref_count := 0, content := [] })] := by
  subst hr
  have hne : i ≠ idir := by
    intro hh
    subst hh
    rw [hi, Option.some.injEq] at hd
    subst hd
    rw [hfile] at hdir
    exact absurd hdir (by simp)
  have ht : ino.type ≠ VFS_DIR := by rw [hfile]; simp
  have hu : ramfs_unlink d ⟨some i, some idir, some ⟨name, i⟩, ino.type⟩ =
      some (0, set_inode (set_inode d idir
        { dino with entries := dino.entries.erase ⟨name, i⟩ }) i { ino with nlink := 0 }) := by
    simp only [ramfs_unlink, Option.bind, hi, ht, if_false, hd, hw, ramfs_dir_remove_entry, he,
      not_true_eq_false, set_inode_inodes, if_neg hne, hn, Nat.one_ne_zero, set_inode_same]
    have hz : ¬ (1 - 1 = 0 ∧ ino.ref_count = 0) := by omega
    simp only [if_true, Nat.sub_self, true_and]
    rw [if_neg (by omega)]
  refine ⟨_, hu, ?_, set_inode_same _ _ _, rfl, ?_, ?_⟩
  · simp only [set_inode_inodes]
    rw [if_neg (fun hh => hne hh.symm)]
    simp
  · intro j hj
    obtain ⟨dj, e1, e2, e3⟩ := close_times_alive i j
      (set_inode (set_inode d idir
        { dino with entries := dino.entries.erase ⟨name, i⟩ }) i { ino with nlink := 0 })
      { ino with nlink := 0 } (set_inode_same _ _ _) rfl (by simp only; omega)
    exact ⟨dj, e1, e2, e3⟩
  · obtain ⟨dk, e1, e2, e3⟩ := close_times_all i
      (set_inode (set_inode d idir
        { dino with entries := dino.entries.erase ⟨name, i⟩ }) i { ino with nlink := 0 })
      { ino with nlink := 0 } (set_inode_same _ _ _) rfl (by simp only; omega)
    exact ⟨dk, e1, e2, e3⟩

/-- C5, on the file `/e1/e11/e111` of the `ramfs_create` tree after two `open`s. -/
theorem deferred_destruction_witness :
    ∃ d, run_inode_ops 6 ramfs_tree [inode_op.open, inode_op.open] = some d ∧
    ∃ d1, ramfs_unlink d ⟨some 6, some 4, some ⟨"e111".toList, 6⟩, VFS_FILE⟩ = some (0, d1) ∧
      d1.inodes 4 = some ⟨VFS_DIR, 0o777, 1, 0, [], []⟩ ∧
      d1.inodes 6 = some ⟨VFS_FILE, 0o644, 0, 2, [], []⟩ ∧
      d1.destroyed = d.destroyed ∧
      (∀ j, j < 2 → ∃ dj, close_times 6 j d1 = some dj ∧
        dj.inodes 6 = some ⟨VFS_FILE, 0o644, 0, 2 - j, [], []⟩ ∧
        dj.destroyed = d.destroyed) ∧
      ∃ dk, close_times 6 2 d1 = some dk ∧ dk.inodes 6 = none ∧
        dk.destroyed = d.destroyed ++ [(6, ⟨VFS_FILE, 0o644, 0, 0, [], []⟩)] := by
  have hr : (run_inode_ops 6 ramfs_tree [inode_op.open, inode_op.open]).isSome = true := by
    decide
  cases hres : run_inode_ops 6 ramfs_tree [inode_op.open, inode_op.open] with
  | none => rw [hres] at hr; exact absurd hr (by simp)
  | some d =>
    have h6 : (run_inode_ops 6 ramfs_tree [inode_op.open, inode_op.open]).bind
        (fun d => d.inodes 6) = some ⟨VFS_FILE, 0o644, 1, 2, [], []⟩ := by decide
    have h4 : (run_inode_ops 6 ramfs_tree [inode_op.open, inode_op.open]).bind
        (fun d => d.inodes 4) = some ⟨VFS_DIR, 0o777, 1, 0, [], [⟨"e111".toList, 6⟩]⟩ := by
      decide
    rw [hres] at h6 h4
    simp only [Option.bind] at h6 h4
    exact ⟨d, rfl, deferred_destruction d 6 4 2 _ _ "e111".toList h6 rfl rfl rfl (by decide)
      h4 rfl (by decide) (by decide)⟩

/-- C6 as it is stated fails for a directory: in `demo_ro_fs` the path `/sub`
resolves to a directory whose parent, the root, lacks write permission, and
`ramfs_unlink` returns `-EISDIR`, not `-EACCES`. -/
theorem unlink_permission_counterexample :
    (vfs_resolve (ramfs_get_entry demo_ro_fs) 0 "/sub".toList true).map
        (fun r => r.2.fs_path) = some ⟨some 2, some 1, some ⟨"sub".toList, 2⟩, VFS_DIR⟩ ∧
    (demo_ro_fs.inodes 1).map (fun idir => idir.mode &&& 0o200) = some 0 ∧
    (ramfs_unlink demo_ro_fs ⟨some 2, some 1, some ⟨"sub".toList, 2⟩, VFS_DIR⟩).map Prod.fst
      = some (-EISDIR) ∧
    (ramfs_unlink demo_ro_fs ⟨some 2, some 1, some ⟨"sub".toList, 2⟩, VFS_DIR⟩).map Prod.fst
      ≠ some (-EACCES) := by
  decide

/-- C6 (unlink permission check), as the code has it. For a path whose target is
not a directory and whose containing directory lacks write permission
(`mode & 0200 == 0`), `ramfs_unlink` returns `-EACCES` and leaves the whole
store (every directory entry and every inode) as it was. -/
theorem unlink_access_denied (d : ramfs_data) (rp : fs_path_struct) (i idir : ramfs_inode)
    (hi : rp.inode.bind d.inodes = some i) (ht : i.type ≠ VFS_DIR)
    (hd : rp.dir_inode.bind d.inodes = some idir) (hw : idir.mode &&& 0o200 = 0) :
    ramfs_unlink d rp = some (-EACCES, d) := by
  simp only [ramfs_unlink, hi, ht, if_false, hd, hw, if_true]

/-- C6, on the file `/f` of `demo_ro_fs`, whose parent is the read-only root. -/
theorem unlink_access_denied_witness :
    (vfs_resolve (ramfs_get_entry demo_ro_fs) 0 "/f".toList true).map
        (fun r => r.2.fs_path) = some ⟨some 3, some 1, some ⟨"f".toList, 3⟩, VFS_FILE⟩ ∧
    ramfs_unlink demo_ro_fs ⟨some 3, some 1, some ⟨"f".toList, 3⟩, VFS_FILE⟩
      = some (-EACCES, demo_ro_fs) :=
  ⟨by decide,
   unlink_access_denied demo_ro_fs ⟨some 3, some 1, some ⟨"f".toList, 3⟩, VFS_FILE⟩
     ⟨VFS_FILE, 0o644, 2, 2, [104, 101, 108, 108, 111], []⟩
     ⟨VFS_DIR, 0o555, 0, 0, [], [⟨"sub".toList, 2⟩, ⟨"f".toList, 3⟩]⟩
     (by decide) (by decide) (by decide) (by decide)⟩

/-- C7 (unlink of a directory). For a path whose target inode is a directory,
`ramfs_unlink` returns `-EISDIR` and leaves the whole store as it was: no entry
is removed and no link count changes. -/
theorem unlink_is_directory (d : ramfs_data) (rp : fs_path_struct) (i : ramfs_inode)
    (hi : rp.inode.bind d.inodes = some i) (ht : i.type = VFS_DIR) :
    ramfs_unlink d rp = some (-EISDIR, d) := by
  simp only [ramfs_unlink, hi, ht, if_true]

/-- C7, on the root path `/` of the `ramfs_create` tree. -/
theorem unlink_is_directory_witness :
    vfs_resolve (ramfs_get_entry ramfs_tree) 0 "/".toList true
      = some (0, ⟨some 0, ⟨some 1, some 1, none, VFS_DIR⟩, some 1⟩) ∧
    ramfs_unlink ramfs_tree ⟨some 1, some 1, none, VFS_DIR⟩ = some (-EISDIR, ramfs_tree) :=
  ⟨by decide,
   unlink_is_directory ramfs_tree ⟨some 1, some 1, none, VFS_DIR⟩
     ⟨VFS_DIR, 0o777, 0, 0, [], [⟨"e1".toList, 2⟩, ⟨"e2".toList, 3⟩]⟩
     (by decide) (by decide)⟩

/-! ### Path resolution -/

theorem path_of_append (ds : List (List Char)) (cn : List Char) :
    path_of (ds ++ [cn]) = '/' :: (dirs_text ds ++ cn) := by
  induction ds with
  | nil => simp [path_of, dirs_text]
  | cons c ds ih =>
    show '/' :: (c ++ path_of (ds ++ [cn])) = _
    rw [ih]
    simp [dirs_text]

theorem path_of_length (ds : List (List Char)) :
    (path_of ds).length = (dirs_text ds).length := by
  induction ds with
  | nil => rfl
  | cons c ds ih => simp [path_of, dirs_text, ih]; omega

theorem comp_text_mid (pre c post : List Char) :
    comp_text (pre ++ c ++ post) pre.length (pre.length + c.length - pre.length) = c := by
  simp [comp_text, List.drop_append_eq_append_drop]

/-- The loop skips the characters of a component. -/
theorem vfs_resolve_loop_scan (ge : Option Nat → List Char → Option fs_path_struct)
    (p : List Char) :
    ∀ (c rest : List Char) (path pc : Nat) (idir : Option Nat), '/' ∉ c → Char.ofNat 0 ∉ c →
      vfs_resolve_loop ge p (c ++ rest) path pc idir
        = vfs_resolve_loop ge p rest (path + c.length) pc idir := by
  intro c
  induction c with
  | nil => intro rest path pc idir _ _; rfl
  | cons x c ih =>
    intro rest path pc idir h1 h2
    simp only [List.mem_cons, not_or] at h1 h2
    have hx0 : x ≠ Char.ofNat 0 := fun h => h2.1 h.symm
    have hx1 : x ≠ '/' := fun h => h1.1 h.symm
    show vfs_resolve_loop ge p (x :: (c ++ rest)) path pc idir = _
    simp only [vfs_resolve_loop, hx0, if_false, ne_eq, hx1, not_false_eq_true, if_true]
    rw [ih rest (path + 1) pc idir h1.2 h2.2, List.length_cons]
    congr 1
    omega

theorem cur_char_good (c rest : List Char) (hc : good_comp c) :
    cur_char (c ++ rest) ≠ '/' ∧ cur_char (c ++ rest) ≠ Char.ofNat 0 := by
  obtain ⟨h0, h1, h2⟩ := hc
  cases c with
  | nil => exact absurd rfl h0
  | cons x c =>
    simp only [List.mem_cons, not_or] at h1 h2
    simp only [cur_char, List.cons_append, List.headD_cons]
    exact ⟨fun h => h1.1 h.symm, fun h => h2.1 h.symm⟩

/-- What `ramfs_get_entry` answers for a name that has an entry. -/
theorem ramfs_get_entry_found (d : ramfs_data) (dir : Nat) (name : List Char) (re : ramfs_entry)
    (ino : ramfs_inode) (h : dir_lookup d dir name = some re)
    (hino : d.inodes re.inode = some ino) :
    ramfs_get_entry d (some dir) name
      = some ⟨some re.inode, some dir, some re, ino.type⟩ := by
  simp only [dir_lookup] at h
  cases hd : d.inodes dir with
  | none => simp [hd] at h
  | some idir =>
    simp only [hd, Option.bind] at h
    simp only [ramfs_get_entry, hd, h, hino]

/-- What `ramfs_get_entry` answers for a name without an entry. -/
theorem ramfs_get_entry_missing (d : ramfs_data) (dir : Nat) (name : List Char)
    (idir : ramfs_inode) (hd : d.inodes dir = some idir)
    (h : ramfs_dir_get_entry_by_name idir name = none) :
    ramfs_get_entry d (some dir) name = some ⟨none, some dir, none, VFS_NONE⟩ := by
  simp only [ramfs_get_entry, hd, h]

/-- The loop walks through leading components that name nested directories. -/
theorem vfs_resolve_loop_dirs (d : ramfs_data) (p : List Char) :
    ∀ (ds : List (List Char)) (pre suffix : List Char) (dir0 dir : Nat),
      (∀ c, c ∈ ds → good_comp c) → walk_dirs d dir0 ds = some dir →
      cur_char suffix ≠ '/' → cur_char suffix ≠ Char.ofNat 0 →
      p = pre ++ dirs_text ds ++ suffix →
      vfs_resolve_loop (ramfs_get_entry d) p (dirs_text ds ++ suffix) pre.length pre.length
          (some dir0)
        = vfs_resolve_loop (ramfs_get_entry d) p suffix (pre.length + (dirs_text ds).length)
            (pre.length + (dirs_text ds).length) (some dir) := by
  intro ds
  induction ds with
  | nil =>
    intro pre suffix dir0 dir _ hw _ _ _
    simp only [walk_dirs, Option.some.injEq] at hw
    subst hw
    rfl
  | cons c ds ih =>
    intro pre suffix dir0 dir hg hw hs1 hs2 hp
    have hc : good_comp c := hg c (List.mem_cons_self _ _)
    have hgs : ∀ c1, c1 ∈ ds → good_comp c1 := fun c1 h => hg c1 (List.mem_cons_of_mem _ h)
    simp only [walk_dirs] at hw
    cases hl : dir_lookup d dir0 c with
    | none => rw [hl] at hw; exact absurd hw (by simp)
    | some e =>
      rw [hl] at hw
      simp only at hw
      cases hi : d.inodes e.inode with
      | none => rw [hi] at hw; exact absurd hw (by simp)
      | some ino =>
        rw [hi] at hw
        simp only at hw
        by_cases ht : ino.type = VFS_DIR
        swap
        · rw [if_neg ht] at hw; exact absurd hw (by simp)
        rw [if_pos ht] at hw
        -- the text that follows the slash after `c`
        have hnext : cur_char (dirs_text ds ++ suffix) ≠ '/' ∧
            cur_char (dirs_text ds ++ suffix) ≠ Char.ofNat 0 := by
          cases ds with
          | nil => exact ⟨hs1, hs2⟩
          | cons c1 ds1 =>
            have := cur_char_good c1 ('/' :: dirs_text ds1 ++ suffix)
              (hgs c1 (List.mem_cons_self _ _))
            simpa [dirs_text, List.append_assoc] using this
        have hname : comp_text p pre.length (pre.length + c.length - pre.length) = c := by
          rw [hp]
          have := comp_text_mid pre c ('/' :: dirs_text ds ++ suffix)
          simpa [dirs_text, List.append_assoc] using this
        simp only [dirs_text, List.append_assoc, List.cons_append]
        rw [vfs_resolve_loop_scan _ _ c _ _ _ _ hc.2.1 hc.2.2]
        simp only [vfs_resolve_loop]
        rw [if_neg (by decide), if_neg (by simp), if_neg hnext.1, hname,
          ramfs_get_entry_found d dir0 c e ino hl hi]
        simp only [Option.some_ne_none, if_false]
        rw [if_neg hnext.2]
        have hpre : (pre ++ c ++ ['/']).length = pre.length + c.length + 1 := by
          simp [Nat.add_assoc]
        have := ih (pre ++ c ++ ['/']) suffix e.inode dir hgs hw hs1 hs2
          (by rw [hp]; simp [dirs_text, List.append_assoc])
        rw [hpre] at this
        rw [this]
        simp only [List.length_append, List.length_cons]
        congr 1 <;> omega

/-- The function `vfs_resolve` on a path whose leading components `ds` name nested
directories comes down to the loop at the text `suffix` that follows them. -/
theorem vfs_resolve_after_dirs (d : ramfs_data) (fs r dir : Nat) (ds : List (List Char))
    (suffix : List Char) (b : Bool) (hroot : d.root = some r)
    (hds : ∀ c, c ∈ ds → good_comp c) (hwalk : walk_dirs d r ds = some dir)
    (hs1 : cur_char suffix ≠ '/') (hs2 : cur_char suffix ≠ Char.ofNat 0) :
    vfs_resolve (ramfs_get_entry d) fs ('/' :: (dirs_text ds ++ suffix)) b =
      match vfs_resolve_loop (ramfs_get_entry d) ('/' :: (dirs_text ds ++ suffix)) suffix
          ((path_of ds).length + 1) ((path_of ds).length + 1) (some dir) with
      | none => none
      | some (walk_result.ret rc) => some (rc, { vfs_path_zero with fs := some fs })
      | some (walk_result.done path1 pc idir1) =>
        if ¬ (path1 - pc > 0) then none
        else
          match ramfs_get_entry d idir1
              (comp_text ('/' :: (dirs_text ds ++ suffix)) pc (path1 - pc)) with
          | none => none
          | some e1 =>
            some (0, { vfs_path_zero with fs := some fs, fs_path := e1, last_comp := some pc }) := by
  have hnext : cur_char (dirs_text ds ++ suffix) ≠ '/' ∧
      cur_char (dirs_text ds ++ suffix) ≠ Char.ofNat 0 := by
    cases ds with
    | nil => exact ⟨hs1, hs2⟩
    | cons c1 ds1 =>
      have := cur_char_good c1 ('/' :: dirs_text ds1 ++ suffix) (hds c1 (List.mem_cons_self _ _))
      simpa [dirs_text, List.append_assoc] using this
  have hloop := vfs_resolve_loop_dirs d ('/' :: (dirs_text ds ++ suffix)) ds ['/'] suffix r dir
    hds hwalk hs1 hs2 (by simp)
  simp only [List.length_singleton] at hloop
  have hlen : 1 + (dirs_text ds).length = (path_of ds).length + 1 := by
    rw [path_of_length]; omega
  rw [hlen] at hloop
  have hre : ramfs_get_entry d none [] = some ⟨some r, some r, none, VFS_DIR⟩ := by
    simp only [ramfs_get_entry, hroot]
  have hslash : ¬ (cur_char ('/' :: (dirs_text ds ++ suffix)) ≠ '/') := by
    simp [cur_char]
  unfold vfs_resolve
  rw [hre]
  simp only [List.drop_succ_cons, List.drop_zero]
  rw [if_neg hslash, if_neg hnext.2, hloop]

/-- C8 (resolution of an existing path). In a ramfs store whose root is `r`, let
`ds` be components that name a chain of nested directories from the root to
the directory `dir`, and let `cn` name the entry `re` of `dir`, whose inode is
`ino`. Then `vfs_resolve` of `/ds../cn` returns 0 with `rp->fs = fs`, with
`fs_path` holding the inode of `re`, `dir` as `dir_inode`, `re` as `dir_entry`
and the type of `ino`, and with `last_comp` at the text of `cn`. -/
theorem vfs_resolve_existing (d : ramfs_data) (fs r dir : Nat) (ds : List (List Char))
    (cn : List Char) (re : ramfs_entry) (ino : ramfs_inode) (b : Bool)
    (hroot : d.root = some r) (hds : ∀ c, c ∈ ds → good_comp c) (hcn : good_comp cn)
    (hwalk : walk_dirs d r ds = some dir) (hre : dir_lookup d dir cn = some re)
    (hino : d.inodes re.inode = some ino) :
    vfs_resolve (ramfs_get_entry d) fs (path_of (ds ++ [cn])) b
      = some (0, ⟨some fs, ⟨some re.inode, some dir, some re, ino.type⟩,
          some ((path_of ds).length + 1)⟩) ∧
    (path_of (ds ++ [cn])).drop ((path_of ds).length + 1) = cn := by
  have hg := cur_char_good cn [] hcn
  rw [List.append_nil] at hg
  have htext : comp_text ('/' :: (dirs_text ds ++ cn)) ((path_of ds).length + 1)
      ((path_of ds).length + 1 + cn.length - ((path_of ds).length + 1)) = cn := by
    have := comp_text_mid ('/' :: dirs_text ds) cn []
    simp only [List.length_cons, ← path_of_length, List.append_nil, List.cons_append] at this
    exact this
  constructor
  · rw [path_of_append, vfs_resolve_after_dirs d fs r dir ds cn b hroot hds hwalk hg.1 hg.2]
    have hscan := vfs_resolve_loop_scan (ramfs_get_entry d) ('/' :: (dirs_text ds ++ cn)) cn []
      ((path_of ds).length + 1) ((path_of ds).length + 1) (some dir) hcn.2.1 hcn.2.2
    rw [List.append_nil] at hscan
    rw [hscan]
    simp only [vfs_resolve_loop]
    have hpos : (path_of ds).length + 1 + cn.length - ((path_of ds).length + 1) > 0 := by
      have : cn.length ≠ 0 := fun h => hcn.1 (List.length_eq_zero.1 h)
      omega
    rw [if_neg (not_not_intro hpos), htext, ramfs_get_entry_found d dir cn re ino hre hino]
  · rw [path_of_append]
    simp [List.drop_append_eq_append_drop, ← path_of_length]

/-- C8, on the `ramfs_create` tree, where `/e1/e11/e111` resolves to the file 6 in
the directory 4 (the inode of `e11`), and on `demo_abc_fs`, where `/a/b/c`
resolves to the file 4 in the directory 3 (the inode of `b`). -/
theorem vfs_resolve_existing_witness :
    (vfs_resolve (ramfs_get_entry ramfs_tree) 7
        (path_of (["e1".toList, "e11".toList] ++ ["e111".toList])) true
      = some (0, ⟨some 7, ⟨some 6, some 4, some ⟨"e111".toList, 6⟩, VFS_FILE⟩,
          some ((path_of ["e1".toList, "e11".toList]).length + 1)⟩) ∧
    (path_of (["e1".toList, "e11".toList] ++ ["e111".toList])).drop
        ((path_of ["e1".toList, "e11".toList]).length + 1) = "e111".toList) ∧
    (vfs_resolve (ramfs_get_entry demo_abc_fs) 7
        (path_of (["a".toList, "b".toList] ++ ["c".toList])) true
      = some (0, ⟨some 7, ⟨some 4, some 3, some ⟨"c".toList, 4⟩, VFS_FILE⟩,
          some ((path_of ["a".toList, "b".toList]).length + 1)⟩) ∧
    (path_of (["a".toList, "b".toList] ++ ["c".toList])).drop
        ((path_of ["a".toList, "b".toList]).length + 1) = "c".toList) :=
  ⟨vfs_resolve_existing ramfs_tree 7 1 4 ["e1".toList, "e11".toList] "e111".toList
    ⟨"e111".toList, 6⟩ ⟨VFS_FILE, 0o644, 1, 0, [], []⟩ true (by decide) (by decide) (by decide)
    (by decide) (by decide) (by decide),
   vfs_resolve_existing demo_abc_fs 7 1 3 ["a".toList, "b".toList] "c".toList
    ⟨"c".toList, 4⟩ ⟨VFS_FILE, 0o644, 1, 0, [], []⟩ true (by decide) (by decide) (by decide)
    (by decide) (by decide) (by decide)⟩

/-- C9 as it is stated fails: in the `ramfs_create` tree `/e1` is a directory
without an entry `x`, and `vfs_resolve` of `/e1/x` returns 0 (with a "not found"
descriptor), not `-ENOENT`. -/
theorem vfs_resolve_missing_last_counterexample :
    walk_dirs ramfs_tree 1 ["e1".toList] = some 2 ∧
    dir_lookup ramfs_tree 2 "x".toList = none ∧
    vfs_resolve (ramfs_get_entry ramfs_tree) 7 "/e1/x".toList true
      = some (0, ⟨some 7, ⟨none, some 2, none, VFS_NONE⟩, some 4⟩) ∧
    (vfs_resolve (ramfs_get_entry ramfs_tree) 7 "/e1/x".toList true).map Prod.fst
      ≠ some (-ENOENT) := by
  decide

/-- C9 (missing final component, no trailing slash), as the code has it. When
the leading components `ds` name nested directories from the root to `dir` and
`dir` has no entry called `cn`, `vfs_resolve` of `/ds../cn` returns 0 with a
"not found" descriptor: no inode, no entry, type `VFS_NONE`, `dir` as
`dir_inode`, and `last_comp` at the text of `cn`. -/
theorem vfs_resolve_missing_last (d : ramfs_data) (fs r dir : Nat) (ds : List (List Char))
    (cn : List Char) (idir : ramfs_inode) (b : Bool)
    (hroot : d.root = some r) (hds : ∀ c, c ∈ ds → good_comp c) (hcn : good_comp cn)
    (hwalk : walk_dirs d r ds = some dir) (hdir : d.inodes dir = some idir)
    (hmiss : ramfs_dir_get_entry_by_name idir cn = none) :
    vfs_resolve (ramfs_get_entry d) fs (path_of (ds ++ [cn])) b
      = some (0, ⟨some fs, ⟨none, some dir, none, VFS_NONE⟩,
          some ((path_of ds).length + 1)⟩) ∧
    (path_of (ds ++ [cn])).drop ((path_of ds).length + 1) = cn := by
  have hg := cur_char_good cn [] hcn
  rw [List.append_nil] at hg
  have htext : comp_text ('/' :: (dirs_text ds ++ cn)) ((path_of ds).length + 1)
      ((path_of ds).length + 1 + cn.length - ((path_of ds).length + 1)) = cn := by
    have := comp_text_mid ('/' :: dirs_text ds) cn []
    simp only [List.length_cons, ← path_of_length, List.append_nil, List.cons_append] at this
    exact this
  constructor
  · rw [path_of_append, vfs_resolve_after_dirs d fs r dir ds cn b hroot hds hwalk hg.1 hg.2]
    have hscan := vfs_resolve_loop_scan (ramfs_get_entry d) ('/' :: (dirs_text ds ++ cn)) cn []
      ((path_of ds).length + 1) ((path_of ds).length + 1) (some dir) hcn.2.1 hcn.2.2
    rw [List.append_nil] at hscan
    rw [hscan]
    simp only [vfs_resolve_loop]
    have hpos : (path_of ds).length + 1 + cn.length - ((path_of ds).length + 1) > 0 := by
      have : cn.length ≠ 0 := fun h => hcn.1 (List.length_eq_zero.1 h)
      omega
    rw [if_neg (not_not_intro hpos), htext, ramfs_get_entry_missing d dir cn idir hdir hmiss]
  · rw [path_of_append]
    simp [List.drop_append_eq_append_drop, ← path_of_length]

/-- C9, on the `ramfs_create` tree: `/e1/x`. -/
theorem vfs_resolve_missing_last_witness :
    vfs_resolve (ramfs_get_entry ramfs_tree) 7 (path_of (["e1".toList] ++ ["x".toList])) true
      = some (0, ⟨some 7, ⟨none, some 2, none, VFS_NONE⟩,
          some ((path_of ["e1".toList]).length + 1)⟩) ∧
    (path_of (["e1".toList] ++ ["x".toList])).drop ((path_of ["e1".toList]).length + 1)
      = "x".toList :=
  vfs_resolve_missing_last ramfs_tree 7 1 2 ["e1".toList] "x".toList
    ⟨VFS_DIR, 0o755, 1, 0, [], [⟨"e11".toList, 4⟩, ⟨"e12".toList, 5⟩]⟩ true
    (by decide) (by decide) (by decide) (by decide) (by decide) (by decide)

/-- C10 (missing final component with a trailing slash). When the leading
components `ds` name nested directories from the root to `dir` and `dir` has no
entry called `cn`, `vfs_resolve` of `/ds../cn/` returns 0 with a "not found"
descriptor: no inode, no entry, type `VFS_NONE`, `dir` as `dir_inode`, and
`last_comp` at the text of `cn`. -/
theorem vfs_resolve_missing_last_slash (d : ramfs_data) (fs r dir : Nat)
    (ds : List (List Char)) (cn : List Char) (idir : ramfs_inode) (b : Bool)
    (hroot : d.root = some r) (hds : ∀ c, c ∈ ds → good_comp c) (hcn : good_comp cn)
    (hwalk : walk_dirs d r ds = some dir) (hdir : d.inodes dir = some idir)
    (hmiss : ramfs_dir_get_entry_by_name idir cn = none) :
    vfs_resolve (ramfs_get_entry d) fs (path_of (ds ++ [cn]) ++ ['/']) b
      = some (0, ⟨some fs, ⟨none, some dir, none, VFS_NONE⟩,
          some ((path_of ds).length + 1)⟩) ∧
    (path_of (ds ++ [cn]) ++ ['/']).drop ((path_of ds).length + 1) = cn ++ ['/'] := by
  have hg := cur_char_good cn ['/'] hcn
  have htext : comp_text ('/' :: (dirs_text ds ++ (cn ++ ['/']))) ((path_of ds).length + 1)
      ((path_of ds).length + 1 + cn.length - ((path_of ds).length + 1)) = cn := by
    have := comp_text_mid ('/' :: dirs_text ds) cn ['/']
    simp only [List.length_cons, ← path_of_length, List.cons_append, List.append_assoc] at this
    exact this
  have hp : path_of (ds ++ [cn]) ++ ['/'] = '/' :: (dirs_text ds ++ (cn ++ ['/'])) := by
    rw [path_of_append]; simp
  constructor
  · rw [hp, vfs_resolve_after_dirs d fs r dir ds (cn ++ ['/']) b hroot hds hwalk hg.1 hg.2]
    rw [vfs_resolve_loop_scan (ramfs_get_entry d) _ cn ['/']
      ((path_of ds).length + 1) ((path_of ds).length + 1) (some dir) hcn.2.1 hcn.2.2]
    simp only [vfs_resolve_loop]
    rw [if_neg (by decide), if_neg (by simp), if_neg (by decide), htext,
      ramfs_get_entry_missing d dir cn idir hdir hmiss]
    simp only [if_true]
    rw [if_neg (by decide)]
    simp only
    have hpos : (path_of ds).length + 1 + cn.length - ((path_of ds).length + 1) > 0 := by
      have : cn.length ≠ 0 := fun h => hcn.1 (List.length_eq_zero.1 h)
      omega
    rw [if_neg (not_not_intro hpos), htext, ramfs_get_entry_missing d dir cn idir hdir hmiss]
  · rw [hp]
    simp [List.drop_append_eq_append_drop, ← path_of_length]

/-- C10, on `demo_abc_fs`: `/a/b/x/`, where `/a/b` exists and has no entry `x`. -/
theorem vfs_resolve_missing_last_slash_witness :
    vfs_resolve (ramfs_get_entry demo_abc_fs) 7
        (path_of (["a".toList, "b".toList] ++ ["x".toList]) ++ ['/']) true
      = some (0, ⟨some 7, ⟨none, some 3, none, VFS_NONE⟩,
          some ((path_of ["a".toList, "b".toList]).length + 1)⟩) ∧
    (path_of (["a".toList, "b".toList] ++ ["x".toList]) ++ ['/']).drop
        ((path_of ["a".toList, "b".toList]).length + 1) = "x".toList ++ ['/'] :=
  vfs_resolve_missing_last_slash demo_abc_fs 7 1 3 ["a".toList, "b".toList] "x".toList
    ⟨VFS_DIR, 0o755, 1, 0, [], [⟨"c".toList, 4⟩]⟩ true
    (by decide) (by decide) (by decide) (by decide) (by decide) (by decide)

/-! ### Path resolution: trailing slash and missing intermediate component -/

/-- C11 (a trailing slash requires a directory). When the leading components
`ds` name nested directories from the root to `dir` and the last component `cn`
names the entry `re` of `dir`, whose inode is `ino`, then `vfs_resolve` of
`/ds../cn/` returns `-ENOTDIR` (with only `rp->fs` set) if `ino` is not a
directory, and otherwise returns 0 with `fs_path` describing that directory:
type `VFS_DIR`, its inode, `dir` as `dir_inode`, `re` as `dir_entry`, and
`last_comp` at the text of `cn`. -/
theorem vfs_resolve_trailing_slash (d : ramfs_data) (fs r dir : Nat) (ds : List (List Char))
    (cn : List Char) (re : ramfs_entry) (ino : ramfs_inode) (b : Bool)
    (hroot : d.root = some r) (hds : ∀ c, c ∈ ds → good_comp c) (hcn : good_comp cn)
    (hwalk : walk_dirs d r ds = some dir) (hre : dir_lookup d dir cn = some re)
    (hino : d.inodes re.inode = some ino) :
    (ino.type ≠ VFS_DIR →
      vfs_resolve (ramfs_get_entry d) fs (path_of (ds ++ [cn]) ++ ['/']) b
        = some (-ENOTDIR, ⟨some fs, ⟨none, none, none, VFS_NONE⟩, none⟩)) ∧
    (ino.type = VFS_DIR →
      vfs_resolve (ramfs_get_entry d) fs (path_of (ds ++ [cn]) ++ ['/']) b
        = some (0, ⟨some fs, ⟨some re.inode, some dir, some re, VFS_DIR⟩,
            some ((path_of ds).length + 1)⟩)) := by
  have hg := cur_char_good cn ['/'] hcn
  have htext : comp_text ('/' :: (dirs_text ds ++ (cn ++ ['/']))) ((path_of ds).length + 1)
      ((path_of ds).length + 1 + cn.length - ((path_of ds).length + 1)) = cn := by
    have := comp_text_mid ('/' :: dirs_text ds) cn ['/']
    simp only [List.length_cons, ← path_of_length, List.cons_append, List.append_assoc] at this
    exact this
  have hp : path_of (ds ++ [cn]) ++ ['/'] = '/' :: (dirs_text ds ++ (cn ++ ['/'])) := by
    rw [path_of_append]; simp
  have hstart : vfs_resolve (ramfs_get_entry d) fs (path_of (ds ++ [cn]) ++ ['/']) b
      = if ino.type ≠ VFS_DIR then some (-ENOTDIR, { vfs_path_zero with fs := some fs })
        else some (0, ⟨some fs, ⟨some re.inode, some dir, some re, ino.type⟩,
            some ((path_of ds).length + 1)⟩) := by
    rw [hp, vfs_resolve_after_dirs d fs r dir ds (cn ++ ['/']) b hroot hds hwalk hg.1 hg.2]
    rw [vfs_resolve_loop_scan (ramfs_get_entry d) _ cn ['/']
      ((path_of ds).length + 1) ((path_of ds).length + 1) (some dir) hcn.2.1 hcn.2.2]
    simp only [vfs_resolve_loop]
    rw [if_neg (by decide), if_neg (by simp), if_neg (by decide), htext,
      ramfs_get_entry_found d dir cn re ino hre hino]
    simp only [Option.some_ne_none, if_false]
    rw [if_pos (by decide)]
    by_cases ht : ino.type = VFS_DIR
    · rw [if_neg (not_not_intro ht), if_neg (not_not_intro ht)]
      simp only
      have hpos : (path_of ds).length + 1 + cn.length - ((path_of ds).length + 1) > 0 := by
        have : cn.length ≠ 0 := fun h => hcn.1 (List.length_eq_zero.1 h)
        omega
      rw [if_neg (not_not_intro hpos), htext, ramfs_get_entry_found d dir cn re ino hre hino]
    · rw [if_pos ht, if_pos ht]
  constructor
  · intro ht
    rw [hstart, if_pos ht]
    rfl
  · intro ht
    rw [hstart, if_neg (not_not_intro ht), ht]

/-- C11, on `demo_abc_fs`: `/a/b/` resolves to the directory `b` (inode 3, parent
2), and `/a/b/c/`, which names a regular file followed by a slash, yields
`-ENOTDIR`. -/
theorem vfs_resolve_trailing_slash_witness :
    vfs_resolve (ramfs_get_entry demo_abc_fs) 7
        (path_of (["a".toList] ++ ["b".toList]) ++ ['/']) true
      = some (0, ⟨some 7, ⟨some 3, some 2, some ⟨"b".toList, 3⟩, VFS_DIR⟩,
          some ((path_of ["a".toList]).length + 1)⟩) ∧
    vfs_resolve (ramfs_get_entry demo_abc_fs) 7
        (path_of (["a".toList, "b".toList] ++ ["c".toList]) ++ ['/']) true
      = some (-ENOTDIR, ⟨some 7, ⟨none, none, none, VFS_NONE⟩, none⟩) :=
  ⟨(vfs_resolve_trailing_slash demo_abc_fs 7 1 2 ["a".toList] "b".toList ⟨"b".toList, 3⟩
      ⟨VFS_DIR, 0o755, 1, 0, [], [⟨"c".toList, 4⟩]⟩ true (by decide) (by decide) (by decide)
      (by decide) (by decide) (by decide)).2 rfl,
   (vfs_resolve_trailing_slash demo_abc_fs 7 1 3 ["a".toList, "b".toList] "c".toList
      ⟨"c".toList, 4⟩ ⟨VFS_FILE, 0o644, 1, 0, [], []⟩ true (by decide) (by decide) (by decide)
      (by decide) (by decide) (by decide)).1 (by decide)⟩

/-- C12 (missing intermediate component). When the leading components `ds` name
nested directories from the root to `dir`, `dir` has no entry called `cm`, and
`cm` is followed by a slash and by further path text `rest` (not empty, not
starting with a slash), then `vfs_resolve` returns `-ENOENT` with `rp->fs = fs`
and the rest of the result zeroed. -/
theorem vfs_resolve_missing_middle (d : ramfs_data) (fs r dir : Nat) (ds : List (List Char))
    (cm rest : List Char) (idir : ramfs_inode) (b : Bool)
    (hroot : d.root = some r) (hds : ∀ c, c ∈ ds → good_comp c) (hcm : good_comp cm)
    (hr1 : cur_char rest ≠ '/') (hr2 : cur_char rest ≠ Char.ofNat 0)
    (hwalk : walk_dirs d r ds = some dir) (hdir : d.inodes dir = some idir)
    (hmiss : ramfs_dir_get_entry_by_name idir cm = none) :
    vfs_resolve (ramfs_get_entry d) fs (path_of (ds ++ [cm]) ++ '/' :: rest) b
      = some (-ENOENT, ⟨some fs, ⟨none, none, none, VFS_NONE⟩, none⟩) := by
  have hg := cur_char_good cm ('/' :: rest) hcm
  have htext : comp_text ('/' :: (dirs_text ds ++ (cm ++ '/' :: rest)))
      ((path_of ds).length + 1)
      ((path_of ds).length + 1 + cm.length - ((path_of ds).length + 1)) = cm := by
    have := comp_text_mid ('/' :: dirs_text ds) cm ('/' :: rest)
    simp only [List.length_cons, ← path_of_length, List.cons_append, List.append_assoc] at this
    exact this
  have hp : path_of (ds ++ [cm]) ++ '/' :: rest = '/' :: (dirs_text ds ++ (cm ++ '/' :: rest)) := by
    rw [path_of_append]; simp
  rw [hp, vfs_resolve_after_dirs d fs r dir ds (cm ++ '/' :: rest) b hroot hds hwalk hg.1 hg.2]
  rw [vfs_resolve_loop_scan (ramfs_get_entry d) _ cm ('/' :: rest)
    ((path_of ds).length + 1) ((path_of ds).length + 1) (some dir) hcm.2.1 hcm.2.2]
  simp only [vfs_resolve_loop]
  rw [if_neg (by decide), if_neg (by simp), if_neg hr1, htext,
    ramfs_get_entry_missing d dir cm idir hdir hmiss]
  simp only [if_true]
  rw [if_pos hr2]
  rfl

/-- C12, on the `ramfs_create` tree: `/e1/x/y`, where `/e1` has no entry `x`. -/
theorem vfs_resolve_missing_middle_witness :
    vfs_resolve (ramfs_get_entry ramfs_tree) 7
        (path_of (["e1".toList] ++ ["x".toList]) ++ '/' :: "y".toList) true
      = some (-ENOENT, ⟨some 7, ⟨none, none, none, VFS_NONE⟩, none⟩) :=
  vfs_resolve_missing_middle ramfs_tree 7 1 2 ["e1".toList] "x".toList "y".toList
    ⟨VFS_DIR, 0o755, 1, 0, [], [⟨"e11".toList, 4⟩, ⟨"e12".toList, 5⟩]⟩ true
    (by decide) (by decide) (by decide) (by decide) (by decide) (by decide) (by decide)
    (by decide)

/-! ### Path resolution: the lookups issued and the assertions -/

theorem vfs_resolve_loop_tr_fst (ge : Option Nat → List Char → Option fs_path_struct)
    (p : List Char) :
    ∀ (rest : List Char) (path pc : Nat) (idir : Option Nat),
      (vfs_resolve_loop_tr ge p rest path pc idir).1 = vfs_resolve_loop ge p rest path pc idir := by
  intro rest
  induction rest with
  | nil => intro path pc idir; rfl
  | cons c rest ih =>
    intro path pc idir
    simp only [vfs_resolve_loop_tr, vfs_resolve_loop]
    by_cases h0 : c = Char.ofNat 0
    · rw [if_pos h0, if_pos h0]
    rw [if_neg h0, if_neg h0]
    by_cases h1 : c ≠ '/'
    · rw [if_pos h1, if_pos h1]; exact ih _ _ _
    rw [if_neg h1, if_neg h1]
    by_cases h2 : cur_char rest = '/'
    · rw [if_pos h2, if_pos h2]
    rw [if_neg h2, if_neg h2]
    cases hg : ge idir (comp_text p pc (path - pc)) with
    | none => rfl
    | some e =>
      simp only
      by_cases h3 : e.inode = none
      · rw [if_pos h3, if_pos h3]
        by_cases h4 : cur_char rest ≠ Char.ofNat 0
        · rw [if_pos h4, if_pos h4]
        · rw [if_neg h4, if_neg h4]
      rw [if_neg h3, if_neg h3]
      by_cases h4 : cur_char rest = Char.ofNat 0
      · rw [if_pos h4, if_pos h4]
        by_cases h5 : e.type ≠ VFS_DIR
        · rw [if_pos h5, if_pos h5]
        · rw [if_neg h5, if_neg h5]
      rw [if_neg h4, if_neg h4]
      exact ih _ _ _

/-- The traced resolution returns what `vfs_resolve` returns. -/
theorem vfs_resolve_tr_fst (ge : Option Nat → List Char → Option fs_path_struct) (fs : Nat)
    (path : List Char) (b : Bool) :
    (vfs_resolve_tr ge fs path b).1 = vfs_resolve ge fs path b := by
  simp only [vfs_resolve_tr, vfs_resolve]
  cases ge none [] with
  | none => rfl
  | some e =>
    simp only
    by_cases h0 : cur_char path ≠ '/'
    · rw [if_pos h0, if_pos h0]
    rw [if_neg h0, if_neg h0]
    by_cases h1 : cur_char (List.drop 1 path) = Char.ofNat 0
    · rw [if_pos h1, if_pos h1]
    rw [if_neg h1, if_neg h1, ← vfs_resolve_loop_tr_fst]
    cases hl : vfs_resolve_loop_tr ge path (List.drop 1 path) 1 1 e.inode with
    | mk r calls =>
      cases r with
      | none => rfl
      | some w =>
        cases w with
        | ret rc => rfl
        | done path1 pc idir1 =>
          simp only
          by_cases h2 : ¬ (path1 - pc > 0)
          · rw [if_pos h2, if_pos h2]
          rw [if_neg h2, if_neg h2]
          cases ge idir1 (comp_text path pc (path1 - pc)) <;> rfl

theorem no_double_slash_cons (a : Char) (t : List Char) (h : no_double_slash (a :: t) = true) :
    no_double_slash t = true ∧ (a = '/' → cur_char t ≠ '/') := by
  cases t with
  | nil => exact ⟨rfl, fun _ => by simp [cur_char]⟩
  | cons b t =>
    simp only [no_double_slash, Bool.and_eq_true, Bool.not_eq_true', Bool.and_eq_false_imp,
      decide_eq_true_eq, decide_eq_false_iff_not] at h
    exact ⟨h.2, fun ha => by simpa [cur_char] using h.1 ha⟩

theorem cur_char_nul (t : List Char) (h : Char.ofNat 0 ∉ t) :
    cur_char t = Char.ofNat 0 ↔ t = [] := by
  cases t with
  | nil => simp [cur_char]
  | cons a t =>
    simp only [List.mem_cons, not_or] at h
    simp only [cur_char, List.headD_cons, reduceCtorEq, iff_false]
    exact fun hh => h.1 hh.symm

theorem comp_text_cur (pre0 cur rest : List Char) :
    comp_text (pre0 ++ cur ++ rest) pre0.length ((pre0 ++ cur).length - pre0.length) = cur := by
  have := comp_text_mid pre0 cur rest
  rwa [← List.length_append] at this

/-- The loop of `vfs_resolve` on normalized text: `pre0` has been walked
through, `cur` is the part of the current component that has been scanned,
`rest` is still to come. Every name looked up is a good one, there is at most
one lookup per slash of `rest`, and when the loop is left the current
component is a good name as well. -/
theorem vfs_resolve_loop_tr_inv (ge : Option Nat → List Char → Option fs_path_struct) :
    ∀ (rest pre0 cur : List Char) (idir : Option Nat),
      Char.ofNat 0 ∉ rest → no_double_slash rest = true → '/' ∉ cur →
      (cur ≠ [] ∨ (rest ≠ [] ∧ cur_char rest ≠ '/')) →
      (∀ call, call ∈ (vfs_resolve_loop_tr ge (pre0 ++ cur ++ rest) rest (pre0 ++ cur).length
          pre0.length idir).2 → good_name call.2) ∧
      (vfs_resolve_loop_tr ge (pre0 ++ cur ++ rest) rest (pre0 ++ cur).length
          pre0.length idir).2.length ≤ rest.count '/' ∧
      (∀ path1 pc1 idir1, (vfs_resolve_loop_tr ge (pre0 ++ cur ++ rest) rest (pre0 ++ cur).length
          pre0.length idir).1 = some (walk_result.done path1 pc1 idir1) →
        path1 - pc1 > 0 ∧ good_name (comp_text (pre0 ++ cur ++ rest) pc1 (path1 - pc1))) ∧
      ((∀ dir name, ge dir name ≠ none) →
        (vfs_resolve_loop_tr ge (pre0 ++ cur ++ rest) rest (pre0 ++ cur).length
          pre0.length idir).1 ≠ none) := by
  intro rest
  induction rest with
  | nil =>
    intro pre0 cur idir _ _ hc hinv
    have hcur : cur ≠ [] := by
      rcases hinv with h | h
      · exact h
      · exact absurd rfl h.1
    refine ⟨by simp [vfs_resolve_loop_tr], by simp [vfs_resolve_loop_tr], ?_, by
      simp [vfs_resolve_loop_tr]⟩
    intro path1 pc1 idir1 h
    simp only [vfs_resolve_loop_tr, Option.some.injEq, walk_result.done.injEq] at h
    obtain ⟨e1, e2, _⟩ := h
    subst e1 e2
    rw [comp_text_cur]
    refine ⟨?_, hcur, hc⟩
    have : cur.length ≠ 0 := fun h => hcur (List.length_eq_zero.1 h)
    simp only [List.length_append]
    omega
  | cons c rest ih =>
    intro pre0 cur idir hnul hds hc hinv
    simp only [List.mem_cons, not_or] at hnul
    have h0 : c ≠ Char.ofNat 0 := fun h => hnul.1 h.symm
    obtain ⟨hds1, hds2⟩ := no_double_slash_cons c rest hds
    simp only [vfs_resolve_loop_tr]
    rw [if_neg h0]
    by_cases h1 : c ≠ '/'
    · rw [if_pos h1]
      have hp : pre0 ++ cur ++ c :: rest = pre0 ++ (cur ++ [c]) ++ rest := by simp
      have hl : (pre0 ++ cur).length + 1 = (pre0 ++ (cur ++ [c])).length := by
              simp only [List.length_append, List.length_cons, List.length_nil]; omega
      rw [hp, hl]
      obtain ⟨a1, a2, a3, a4⟩ := ih pre0 (cur ++ [c]) idir hnul.2 hds1
        (by simp only [List.mem_append, List.mem_singleton, not_or]; exact ⟨hc, fun h => h1 h.symm⟩)
        (Or.inl (by simp))
      refine ⟨a1, ?_, a3, a4⟩
      rw [List.count_cons]
      omega
    · rw [if_neg h1]
      have hc1 : c = '/' := not_not.1 h1
      have hnext := hds2 hc1
      rw [if_neg hnext]
      have hcur : cur ≠ [] := by
        rcases hinv with h | h
        · exact h
        · exact absurd (by simp [cur_char, hc1]) h.2
      have hname : comp_text (pre0 ++ cur ++ c :: rest) pre0.length
          ((pre0 ++ cur).length - pre0.length) = cur := comp_text_cur pre0 cur (c :: rest)
      have hgood : good_name cur := ⟨hcur, hc⟩
      have hcnt : (c :: rest).count '/' = rest.count '/' + 1 := by
        rw [hc1]; simp
      have hpos : (pre0 ++ cur).length - pre0.length > 0 := by
        have : cur.length ≠ 0 := fun h => hcur (List.length_eq_zero.1 h)
        simp only [List.length_append]
        omega
      rw [hname]
      cases hg : ge idir cur with
      | none =>
        simp only
        refine ⟨?_, by simp [hcnt], by simp, fun htot => absurd hg (htot _ _)⟩
        intro call hcall
        simp only [List.mem_singleton] at hcall
        subst hcall
        exact hgood
      | some e =>
        simp only
        by_cases h3 : e.inode = none
        · rw [if_pos h3]
          by_cases h4 : cur_char rest ≠ Char.ofNat 0
          · rw [if_pos h4]
            refine ⟨?_, by simp [hcnt], by simp, by simp⟩
            intro call hcall
            simp only [List.mem_singleton] at hcall
            subst hcall
            exact hgood
          · rw [if_neg h4]
            refine ⟨?_, by simp [hcnt], ?_, by simp⟩
            · intro call hcall
              simp only [List.mem_singleton] at hcall
              subst hcall
              exact hgood
            · intro path1 pc1 idir1 h
              simp only [Option.some.injEq, walk_result.done.injEq] at h
              obtain ⟨e1, e2, _⟩ := h
              subst e1 e2
              rw [hname]
              exact ⟨hpos, hgood⟩
        · rw [if_neg h3]
          by_cases h4 : cur_char rest = Char.ofNat 0
          · rw [if_pos h4]
            by_cases h5 : e.type ≠ VFS_DIR
            · rw [if_pos h5]
              refine ⟨?_, by simp [hcnt], by simp, by simp⟩
              intro call hcall
              simp only [List.mem_singleton] at hcall
              subst hcall
              exact hgood
            · rw [if_neg h5]
              refine ⟨?_, by simp [hcnt], ?_, by simp⟩
              · intro call hcall
                simp only [List.mem_singleton] at hcall
                subst hcall
                exact hgood
              · intro path1 pc1 idir1 h
                simp only [Option.some.injEq, walk_result.done.injEq] at h
                obtain ⟨e1, e2, _⟩ := h
                subst e1 e2
                rw [hname]
                exact ⟨hpos, hgood⟩
          · rw [if_neg h4]
            have hrest : rest ≠ [] := fun h => h4 ((cur_char_nul rest hnul.2).2 h)
            have hp : pre0 ++ cur ++ c :: rest = (pre0 ++ cur ++ [c]) ++ [] ++ rest := by simp
            have hl : (pre0 ++ cur).length + 1 = ((pre0 ++ cur ++ [c]) ++ []).length := by
              simp only [List.length_append, List.length_cons, List.length_nil]
            have hl2 : (pre0 ++ cur).length + 1 = (pre0 ++ cur ++ [c]).length := by
              simp only [List.length_append, List.length_cons, List.length_nil]
            obtain ⟨a1, a2, a3, a4⟩ := ih (pre0 ++ cur ++ [c]) [] e.inode hnul.2 hds1
              (by simp) (Or.inr ⟨hrest, hnext⟩)
            rw [← hp, ← hl] at a1 a2 a3 a4
            rw [← hl2] at a1 a2 a3 a4
            refine ⟨?_, ?_, a3, a4⟩
            · intro call hcall
              simp only [List.mem_cons] at hcall
              rcases hcall with hcall | hcall
              · subst hcall; exact hgood
              · exact a1 call hcall
            · simp only [List.length_cons, hcnt]
              omega

/-- C20 (the assertions of `vfs_resolve` hold on normalized input). For a path
`/rest` that is longer than `/` and has no two consecutive slashes, and for
every `get_entry`: each component name that `vfs_resolve` passes to
`get_entry`, the final lookup included, is not empty and has no slash; there
is at most one lookup per slash, plus the final one; and if `get_entry` always
answers, `vfs_resolve` returns, that is, neither `ASSERT(path[1] != '/')` nor
`ASSERT(path - pc > 0)` fails. -/
theorem vfs_resolve_asserts (ge : Option Nat → List Char → Option fs_path_struct) (fs : Nat)
    (rest : List Char) (b : Bool) (hrest : rest ≠ []) (hnul : Char.ofNat 0 ∉ rest)
    (hds : no_double_slash ('/' :: rest) = true) :
    (∀ call, call ∈ (vfs_resolve_tr ge fs ('/' :: rest) b).2 → good_name call.2) ∧
    (vfs_resolve_tr ge fs ('/' :: rest) b).2.length ≤ ('/' :: rest).count '/' + 1 ∧
    ((∀ dir name, ge dir name ≠ none) → vfs_resolve ge fs ('/' :: rest) b ≠ none) := by
  obtain ⟨hds1, hds2⟩ := no_double_slash_cons '/' rest hds
  have hnext := hds2 rfl
  have hnn : ¬ cur_char rest = Char.ofNat 0 := fun h => hrest ((cur_char_nul rest hnul).1 h)
  have hslash : ¬ (cur_char ('/' :: rest) ≠ '/') := by simp [cur_char]
  rw [← vfs_resolve_tr_fst]
  simp only [vfs_resolve_tr]
  cases hroot : ge none [] with
  | none =>
    simp only
    exact ⟨by simp, by simp, fun htot => absurd hroot (htot _ _)⟩
  | some e =>
    simp only [List.drop_succ_cons, List.drop_zero]
    rw [if_neg hslash, if_neg hnn]
    obtain ⟨a1, a2, a3, a4⟩ := vfs_resolve_loop_tr_inv ge rest ['/'] [] e.inode hnul hds1
      (by simp) (Or.inr ⟨hrest, hnext⟩)
    simp only [List.append_nil, List.singleton_append, List.length_singleton] at a1 a2 a3 a4
    have hcount : ('/' :: rest).count '/' = rest.count '/' + 1 := by simp
    cases hl : vfs_resolve_loop_tr ge ('/' :: rest) rest 1 1 e.inode with
    | mk r calls =>
      rw [hl] at a1 a2 a3 a4
      simp only at a1 a2 a3 a4
      cases r with
      | none =>
        simp only
        exact ⟨a1, by omega, fun htot => absurd rfl (a4 htot)⟩
      | some w =>
        cases w with
        | ret rc =>
          simp only
          exact ⟨a1, by omega, fun _ => by simp⟩
        | done path1 pc idir1 =>
          obtain ⟨hpos, hgood⟩ := a3 path1 pc idir1 rfl
          simp only
          rw [if_neg (not_not_intro hpos)]
          cases hf : ge idir1 (comp_text ('/' :: rest) pc (path1 - pc)) with
          | none =>
            simp only
            refine ⟨?_, by simp only [List.length_append, List.length_singleton]; omega,
              fun htot => absurd hf (htot _ _)⟩
            intro call hcall
            simp only [List.mem_append, List.mem_singleton] at hcall
            rcases hcall with hcall | hcall
            · exact a1 call hcall
            · subst hcall; exact hgood
          | some e1 =>
            simp only
            refine ⟨?_, by simp only [List.length_append, List.length_singleton]; omega,
              fun _ => by simp⟩
            intro call hcall
            simp only [List.mem_append, List.mem_singleton] at hcall
            rcases hcall with hcall | hcall
            · exact a1 call hcall
            · subst hcall; exact hgood

/-- C20, on `/e1/e11/` with the `get_entry` of the `ramfs_create` tree. -/
theorem vfs_resolve_asserts_witness :
    (∀ call, call ∈ (vfs_resolve_tr (ramfs_get_entry ramfs_tree) 7 ('/' :: "e1/e11/".toList)
        true).2 → good_name call.2) ∧
    (vfs_resolve_tr (ramfs_get_entry ramfs_tree) 7 ('/' :: "e1/e11/".toList) true).2.length
      ≤ ('/' :: "e1/e11/".toList).count '/' + 1 ∧
    ((∀ dir name, ramfs_get_entry ramfs_tree dir name ≠ none) →
      vfs_resolve (ramfs_get_entry ramfs_tree) 7 ('/' :: "e1/e11/".toList) true ≠ none) :=
  vfs_resolve_asserts (ramfs_get_entry ramfs_tree) 7 "e1/e11/".toList true (by decide)
    (by decide) (by decide)

/-- C19, the code at `/e2/foo` in the `ramfs_create` tree, where `e2` (inode 3)
is a regular file: `vfs_resolve` takes the file for the directory of the next
lookup ("foo" is looked up in inode 3) and returns 0 with a "not found"
descriptor whose `dir_inode` is the file; it does not return `-ENOTDIR`. -/
theorem vfs_resolve_descends_into_file :
    (ramfs_tree.inodes 3).map ramfs_inode.type = some VFS_FILE ∧
    vfs_resolve_tr (ramfs_get_entry ramfs_tree) 7 "/e2/foo".toList true
      = (some (0, ⟨some 7, ⟨none, some 3, none, VFS_NONE⟩, some 4⟩),
         [(some 1, "e2".toList), (some 3, "foo".toList)]) ∧
    vfs_resolve (ramfs_get_entry ramfs_tree) 7 "/e2/foo".toList true
      = some (0, ⟨some 7, ⟨none, some 3, none, VFS_NONE⟩, some 4⟩) ∧
    (vfs_resolve (ramfs_get_entry ramfs_tree) 7 "/e2/foo".toList true).map Prod.fst
      ≠ some (-ENOTDIR) := by
  decide

theorem vfs_resolve_loop_no_enotdir (ge : Option Nat → List Char → Option fs_path_struct)
    (p : List Char) :
    ∀ (rest : List Char) (path pc : Nat) (idir : Option Nat), Char.ofNat 0 ∉ rest →
      rest.getLast? ≠ some '/' →
      vfs_resolve_loop ge p rest path pc idir ≠ some (walk_result.ret (-ENOTDIR)) := by
  intro rest
  induction rest with
  | nil => intro path pc idir _ _; simp [vfs_resolve_loop]
  | cons c rest ih =>
    intro path pc idir hnul hlast
    simp only [List.mem_cons, not_or] at hnul
    have hlast1 : rest ≠ [] → rest.getLast? ≠ some '/' := by
      intro hne
      cases rest with
      | nil => exact absurd rfl hne
      | cons a t => rwa [List.getLast?_cons_cons] at hlast
    simp only [vfs_resolve_loop]
    by_cases h0 : c = Char.ofNat 0
    · rw [if_pos h0]; simp
    rw [if_neg h0]
    by_cases h1 : c ≠ '/'
    · rw [if_pos h1]
      by_cases hne : rest = []
      · subst hne; simp [vfs_resolve_loop]
      · exact ih _ _ _ hnul.2 (hlast1 hne)
    rw [if_neg h1]
    have hc1 : c = '/' := not_not.1 h1
    have hne : rest ≠ [] := by
      intro hh
      subst hh
      rw [hc1] at hlast
      exact hlast rfl
    have hnn : ¬ cur_char rest = Char.ofNat 0 := fun h => hne ((cur_char_nul rest hnul.2).1 h)
    by_cases h2 : cur_char rest = '/'
    · rw [if_pos h2]; simp
    rw [if_neg h2]
    cases ge idir (comp_text p pc (path - pc)) with
    | none => simp
    | some e =>
      simp only
      by_cases h3 : e.inode = none
      · rw [if_pos h3, if_pos hnn]
        simp [ENOENT, ENOTDIR]
      · rw [if_neg h3, if_neg hnn]
        exact ih _ _ _ hnul.2 (hlast1 hne)

/-- Whatever `get_entry` answers, `vfs_resolve` of a path that does not end with
a slash does not return `-ENOTDIR`: no component before the last one is tested
for being a directory. -/
theorem vfs_resolve_no_enotdir (ge : Option Nat → List Char → Option fs_path_struct)
    (fs : Nat) (path : List Char) (b : Bool) (hnul : Char.ofNat 0 ∉ path)
    (hlast : path.getLast? ≠ some '/') :
    (vfs_resolve ge fs path b).map Prod.fst ≠ some (-ENOTDIR) := by
  simp only [vfs_resolve]
  cases ge none [] with
  | none => simp
  | some e =>
    simp only
    by_cases h0 : cur_char path ≠ '/'
    · rw [if_pos h0]; simp
    rw [if_neg h0]
    by_cases h1 : cur_char (List.drop 1 path) = Char.ofNat 0
    · rw [if_pos h1]; simp [ENOTDIR]
    rw [if_neg h1]
    have hloop := vfs_resolve_loop_no_enotdir ge path (List.drop 1 path) 1 1 e.inode
      (fun h => hnul (List.mem_of_mem_drop h))
      (by
        cases path with
        | nil => simp
        | cons a t =>
          simp only [List.drop_succ_cons, List.drop_zero]
          cases t with
          | nil => simp
          | cons a1 t1 => rwa [List.getLast?_cons_cons] at hlast)
    cases hl : vfs_resolve_loop ge path (List.drop 1 path) 1 1 e.inode with
    | none => simp
    | some w =>
      rw [hl] at hloop
      cases w with
      | ret rc =>
        simp only [Option.map_some', ne_eq, Option.some.injEq]
        intro hrc
        apply hloop
        rw [hrc]
      | done path1 pc idir1 =>
        simp only
        by_cases h2 : ¬ (path1 - pc > 0)
        · rw [if_pos h2]; simp
        rw [if_neg h2]
        cases ge idir1 (comp_text path pc (path1 - pc)) <;> simp [ENOTDIR]

/-! ### Mountpoint selection -/

/-- The scan keeps the first mountpoint among those with the largest match
length above the initial `best_match_len`, if there is one. -/
theorem mp_scan_spec (check : List Char → Nat → List Char → Nat → Nat) (path : List Char) :
    ∀ (mps : List mountpoint) (best : Option mountpoint) (blen : Nat),
      (mp_scan check path (strlen path) mps best blen = (best, blen) ∧
        ∀ x, x ∈ mps → match_len check path x ≤ blen) ∨
      (∃ l1 mp l2, mps = l1 ++ mp :: l2 ∧
        mp_scan check path (strlen path) mps best blen = (some mp, match_len check path mp) ∧
        blen < match_len check path mp ∧
        (∀ x, x ∈ l1 → match_len check path x < match_len check path mp) ∧
        (∀ x, x ∈ l2 → match_len check path x ≤ match_len check path mp)) := by
  intro mps
  induction mps with
  | nil => intro best blen; exact Or.inl ⟨rfl, fun x hx => by simp at hx⟩
  | cons mp mps ih =>
    intro best blen
    simp only [mp_scan]
    by_cases hgt : check mp.path mp.path_len path (strlen path) > blen
    · rw [if_pos hgt]
      right
      rcases ih (some mp) (check mp.path mp.path_len path (strlen path)) with
        ⟨h1, h2⟩ | ⟨l1, mp1, l2, h1, h2, h3, h4, h5⟩
      · exact ⟨[], mp, mps, rfl, h1, hgt, fun x hx => by simp at hx, h2⟩
      · refine ⟨mp :: l1, mp1, l2, by rw [h1]; rfl, h2, ?_, ?_, h5⟩
        · exact Nat.lt_trans hgt h3
        · intro x hx
          simp only [List.mem_cons] at hx
          rcases hx with hx | hx
          · subst hx; exact h3
          · exact h4 x hx
    · rw [if_neg hgt]
      rcases ih best blen with ⟨h1, h2⟩ | ⟨l1, mp1, l2, h1, h2, h3, h4, h5⟩
      · left
        refine ⟨h1, ?_⟩
        intro x hx
        simp only [List.mem_cons] at hx
        rcases hx with hx | hx
        · subst hx; exact Nat.le_of_not_gt hgt
        · exact h2 x hx
      · right
        refine ⟨mp :: l1, mp1, l2, by rw [h1]; rfl, h2, h3, ?_, h5⟩
        intro x hx
        simp only [List.mem_cons] at hx
        rcases hx with hx | hx
        · subst hx
          exact Nat.lt_of_le_of_lt (Nat.le_of_not_gt hgt) h3
        · exact h4 x hx

/-- The two outcomes of `get_retained_fs_at`: nothing matches and nothing
changes, or the first mountpoint with the largest match length is taken. -/
theorem get_retained_fs_at_cases (check : List Char → Nat → List Char → Nat → Nat)
    (st : mount_state) (path : List Char) :
    ((∀ x, x ∈ st.mps → match_len check path x = 0) ∧
        get_retained_fs_at check st path = ((none, none), st)) ∨
    (∃ l1 mp l2, st.mps = l1 ++ mp :: l2 ∧ 0 < match_len check path mp ∧
        (∀ x, x ∈ l1 → match_len check path x < match_len check path mp) ∧
        (∀ x, x ∈ l2 → match_len check path x ≤ match_len check path mp) ∧
        get_retained_fs_at check st path =
          ((some mp.fs,
            some (if match_len check path mp < strlen path
                  then path.drop (match_len check path mp - 1) else ['/'])),
           retain_obj_fs st mp.fs)) := by
  rcases mp_scan_spec check path st.mps none 0 with ⟨h1, h2⟩ | ⟨l1, mp, l2, h1, h2, h3, h4, h5⟩
  · left
    refine ⟨fun x hx => Nat.le_zero.1 (h2 x hx), ?_⟩
    simp only [get_retained_fs_at, h1]
  · right
    refine ⟨l1, mp, l2, h1, h3, h4, h5, ?_⟩
    simp only [get_retained_fs_at, h2]

/-- Two splits of a list at the first element with the largest value of `f`
are the same split. -/
theorem first_max_unique {α : Type} (f : α → Nat) (l1 l1a : List α) (m ma : α) (l2 l2a : List α)
    (h : l1 ++ m :: l2 = l1a ++ ma :: l2a)
    (h1 : ∀ x, x ∈ l1 → f x < f m) (h2 : ∀ x, x ∈ l2 → f x ≤ f m)
    (h1a : ∀ x, x ∈ l1a → f x < f ma) (h2a : ∀ x, x ∈ l2a → f x ≤ f ma) :
    m = ma := by
  induction l1 generalizing l1a with
  | nil =>
    cases l1a with
    | nil =>
      simp only [List.nil_append, List.cons.injEq] at h
      exact h.1
    | cons a t =>
      simp only [List.nil_append, List.cons_append, List.cons.injEq] at h
      obtain ⟨e1, e2⟩ := h
      subst e1
      have hm : ma ∈ l2 := by rw [e2]; simp
      have := h2 ma hm
      have := h1a m (by simp)
      omega
  | cons a t ih =>
    cases l1a with
    | nil =>
      simp only [List.nil_append, List.cons_append, List.cons.injEq] at h
      obtain ⟨e1, e2⟩ := h
      subst e1
      have hm : m ∈ l2a := by rw [← e2]; simp
      have := h2a m hm
      have := h1 a (by simp)
      omega
    | cons b s =>
      simp only [List.cons_append, List.cons.injEq] at h
      exact ih s h.2 (fun x hx => h1 x (List.mem_cons_of_mem _ hx))
        (fun x hx => h1a x (List.mem_cons_of_mem _ hx))

/-- C13 (longest-prefix mountpoint selection). `get_retained_fs_at` returns
NULL, with `*fs_path_ref = NULL`, exactly when the match length of every
mountpoint is 0; and when the table splits as `l1 ++ mp :: l2` with the match
length of `mp` positive, larger than that of every mountpoint before it and
at least that of every mountpoint after it (the first one that attains the
maximum), it returns the filesystem of `mp`. -/
theorem get_retained_fs_at_select (check : List Char → Nat → List Char → Nat → Nat)
    (st : mount_state) (path : List Char) :
    ((get_retained_fs_at check st path).1.1 = none ↔
        ∀ x, x ∈ st.mps → match_len check path x = 0) ∧
    ((get_retained_fs_at check st path).1.1 = none →
        (get_retained_fs_at check st path).1.2 = none) ∧
    (∀ l1 mp l2, st.mps = l1 ++ mp :: l2 → 0 < match_len check path mp →
        (∀ x, x ∈ l1 → match_len check path x < match_len check path mp) →
        (∀ x, x ∈ l2 → match_len check path x ≤ match_len check path mp) →
        (get_retained_fs_at check st path).1.1 = some mp.fs) := by
  rcases get_retained_fs_at_cases check st path with
    ⟨h1, h2⟩ | ⟨l1, mp, l2, h1, h2, h3, h4, h5⟩
  · rw [h2]
    refine ⟨⟨fun _ => h1, fun _ => rfl⟩, fun _ => rfl, ?_⟩
    intro l1 mp l2 hs hpos _ _
    have := h1 mp (by rw [hs]; simp)
    omega
  · rw [h5]
    refine ⟨⟨fun h => by simp at h, ?_⟩, fun h => by simp at h, ?_⟩
    · intro hall
      have := hall mp (by rw [h1]; simp)
      omega
    · intro l1a mpa l2a hs _ h3a h4a
      have := first_max_unique (match_len check path) l1 l1a mp mpa l2 l2a (by rw [← h1, hs])
        h3 h4 h3a h4a
      rw [this]

/-- C13, on the table of the specification: `/mnt/data/file` selects the
filesystem mounted at `/mnt/data` (200), `/etc/x` the one mounted at `/` (100),
and a path that matches no mountpoint gives NULL. -/
theorem get_retained_fs_at_select_witness :
    (get_retained_fs_at mp_check_match demo_mounts "/mnt/data/file".toList).1.1 = some 200 ∧
    (get_retained_fs_at mp_check_match demo_mounts "/etc/x".toList).1.1 = some 100 ∧
    (get_retained_fs_at mp_check_match demo_mounts "etc".toList).1 = (none, none) :=
  ⟨(get_retained_fs_at_select mp_check_match demo_mounts "/mnt/data/file".toList).2.2
      [⟨"/".toList, 1, 100⟩] ⟨"/mnt/data".toList, 9, 200⟩ [] rfl (by decide) (by decide)
      (by decide),
   (get_retained_fs_at_select mp_check_match demo_mounts "/etc/x".toList).2.2
      [] ⟨"/".toList, 1, 100⟩ [⟨"/mnt/data".toList, 9, 200⟩] rfl (by decide) (by decide)
      (by decide),
   by decide⟩

/-- C15 (retention). `get_retained_fs_at` never changes the mountpoint table;
when it returns NULL no reference count changes; when it returns a filesystem
the reference count of that filesystem goes up by exactly one and that of
every other filesystem stays as it was. -/
theorem get_retained_fs_at_retains (check : List Char → Nat → List Char → Nat → Nat)
    (st : mount_state) (path : List Char) :
    (get_retained_fs_at check st path).2.mps = st.mps ∧
    ((get_retained_fs_at check st path).1.1 = none →
      (get_retained_fs_at check st path).2.fs_ref_count = st.fs_ref_count) ∧
    (∀ f, (get_retained_fs_at check st path).1.1 = some f →
      (get_retained_fs_at check st path).2.fs_ref_count f = st.fs_ref_count f + 1 ∧
      ∀ g, g ≠ f → (get_retained_fs_at check st path).2.fs_ref_count g = st.fs_ref_count g) := by
  rcases get_retained_fs_at_cases check st path with
    ⟨_, h2⟩ | ⟨l1, mp, l2, _, _, _, _, h5⟩
  · rw [h2]
    exact ⟨rfl, fun _ => rfl, fun f h => by simp at h⟩
  · rw [h5]
    refine ⟨rfl, fun h => by simp at h, ?_⟩
    intro f hf
    simp only [Option.some.injEq] at hf
    subst hf
    simp only [retain_obj_fs, if_true]
    exact ⟨trivial, fun g hg => by rw [if_neg hg]⟩

/-! ### The preemption gate -/

theorem max_nesting_ge (w : List preempt_call) : ∀ d, d ≤ max_nesting d w := by
  induction w with
  | nil => intro d; exact Nat.le_refl d
  | cons a w _ =>
    intro d
    cases a <;> simp only [max_nesting] <;> exact Nat.le_max_left _ _

/-- Running properly nested calls that do not overflow the counter follows the
nesting depth, at every point of the sequence. -/
theorem run_preempt_take (w : List preempt_call) :
    ∀ (d c kf : Nat), nesting d w = some kf → c + max_nesting d w < U32_MOD →
      ∀ i, ∃ k, nesting d (w.take i) = some k ∧ run_preempt (c + d) (w.take i) = some (c + k) := by
  induction w with
  | nil =>
    intro d c kf _ _ i
    exact ⟨d, by simp [nesting], by simp [run_preempt]⟩
  | cons a w ih =>
    intro d c kf hn hmax i
    cases i with
    | zero => exact ⟨d, by simp [nesting], by simp [run_preempt]⟩
    | succ i =>
      cases a with
      | disable =>
        simp only [nesting] at hn
        simp only [max_nesting] at hmax
        have h1 : c + max_nesting (d + 1) w < U32_MOD :=
          Nat.lt_of_le_of_lt (Nat.add_le_add_left (Nat.le_max_right _ _) c) hmax
        have h2 := max_nesting_ge w (d + 1)
        obtain ⟨k, e1, e2⟩ := ih (d + 1) c kf hn h1 i
        refine ⟨k, by simpa [nesting] using e1, ?_⟩
        simp only [List.take_succ_cons, run_preempt, disable_preemption]
        rw [Nat.mod_eq_of_lt (by omega)]
        exact e2
      | enable =>
        simp only [nesting] at hn
        by_cases hd : d = 0
        · rw [if_pos hd] at hn; exact absurd hn (by simp)
        rw [if_neg hd] at hn
        simp only [max_nesting] at hmax
        have h1 : c + max_nesting (d - 1) w < U32_MOD :=
          Nat.lt_of_le_of_lt (Nat.add_le_add_left (Nat.le_max_right _ _) c) hmax
        obtain ⟨k, e1, e2⟩ := ih (d - 1) c kf hn h1 i
        refine ⟨k, by simpa [nesting, hd] using e1, ?_⟩
        simp only [List.take_succ_cons, run_preempt, enable_preemption]
        rw [if_pos (by omega)]
        simp only
        rw [show c + d - 1 = c + (d - 1) by omega]
        exact e2

/-- C16 (nestable preemption gate). Preemption is reported enabled exactly when
the counter is 0. For every starting count `c` and every well-nested sequence
`w` of `disable_preemption` / `enable_preemption` calls whose nesting depth
does not overflow the `u32` counter: the sequence runs through (no assertion of
`enable_preemption` fails) and leaves the count at `c` again; and at every
point of the sequence, after `i` calls, the count is `c` plus the nesting
depth `k` there, so that preemption is reported disabled wherever `k > 0`. -/
theorem preemption_nesting (c : Nat) (w : List preempt_call) (hw : nesting 0 w = some 0)
    (hmax : c + max_nesting 0 w < U32_MOD) :
    (∀ n, is_preemption_enabled n = true ↔ n = 0) ∧
    run_preempt c w = some c ∧
    (∀ i, ∃ k, nesting 0 (w.take i) = some k ∧ run_preempt c (w.take i) = some (c + k) ∧
      (0 < k → is_preemption_enabled (c + k) = false)) := by
  refine ⟨fun n => by simp [is_preemption_enabled], ?_, ?_⟩
  · obtain ⟨k, e1, e2⟩ := run_preempt_take w 0 c 0 hw hmax w.length
    rw [List.take_length] at e1 e2
    rw [hw, Option.some.injEq] at e1
    subst e1
    exact e2
  · intro i
    obtain ⟨k, e1, e2⟩ := run_preempt_take w 0 c 0 hw hmax i
    refine ⟨k, e1, e2, fun hk => ?_⟩
    simp only [is_preemption_enabled, decide_eq_false_iff_not]
    omega

/-- C16, from the count 5 with the calls disable, disable, enable, disable,
enable, enable. -/
theorem preemption_nesting_witness :
    (∀ n, is_preemption_enabled n = true ↔ n = 0) ∧
    run_preempt 5 [preempt_call.disable, preempt_call.disable, preempt_call.enable,
      preempt_call.disable, preempt_call.enable, preempt_call.enable] = some 5 ∧
    (∀ i, ∃ k, nesting 0 ([preempt_call.disable, preempt_call.disable, preempt_call.enable,
        preempt_call.disable, preempt_call.enable, preempt_call.enable].take i) = some k ∧
      run_preempt 5 ([preempt_call.disable, preempt_call.disable, preempt_call.enable,
        preempt_call.disable, preempt_call.enable, preempt_call.enable].take i)
        = some (5 + k) ∧
      (0 < k → is_preemption_enabled (5 + k) = false)) :=
  preemption_nesting 5 [preempt_call.disable, preempt_call.disable, preempt_call.enable,
    preempt_call.disable, preempt_call.enable, preempt_call.enable] (by decide) (by decide)

/-! ### The calls that `pg_alloc_and_map` makes -/

theorem alloc_32_loop_calls (v : Nat) :
    ∀ (k : Nat) (s : kstate) (al : Nat) (s1 : kstate) (cv1 al1 : Nat),
      alloc_32_loop k s (vpage v al) al = (s1, cv1, al1) →
      ∃ ps : List Nat, ps.length ≤ k ∧ al1 = al + 32 * ps.length ∧ cv1 = vpage v al1 ∧
        s1.calls = s.calls ++ batch_calls pf_call.alloc_32 32 v al ps ++
          (if ps.length < k then [pf_call.alloc_32 none] else []) := by
  intro k
  induction k with
  | zero =>
    intro s al s1 cv1 al1 h
    simp only [alloc_32_loop, Prod.mk.injEq] at h
    obtain ⟨e1, e2, e3⟩ := h
    subst e1 e2 e3
    exact ⟨[], Nat.le_refl _, rfl, rfl, by simp [batch_calls]⟩
  | succ k ih =>
    intro s al s1 cv1 al1 h
    simp only [alloc_32_loop] at h
    cases ha : alloc_32_pageframes s with
    | mk r sa =>
      rw [ha] at h
      cases r with
      | none =>
        simp only [Prod.mk.injEq] at h
        obtain ⟨e1, e2, e3⟩ := h
        subst e1 e2 e3
        obtain ⟨_, _, _, q3⟩ := alloc_ret_none 32 pf_call.alloc_32 s sa ha
        exact ⟨[], Nat.zero_le _, rfl, rfl, by simp [batch_calls, q3]⟩
      | some p =>
        simp only at h
        obtain ⟨fb, _, _, _, _, _, _, q5⟩ := alloc_ret_some 32 pf_call.alloc_32 s sa p ha
        rw [vpage_step] at h
        obtain ⟨ps, r1, r2, r3, r4⟩ := ih _ _ _ _ _ h
        refine ⟨p :: ps, by simp only [List.length_cons]; omega, by
          simp only [List.length_cons]; omega, r3, ?_⟩
        rw [r4]
        simp only [map_pages, q5, batch_calls, List.length_cons, Nat.add_lt_add_iff_right,
          List.append_assoc, List.singleton_append, List.cons_append, List.nil_append]

theorem alloc_1_loop_calls (v : Nat) :
    ∀ (k : Nat) (s : kstate) (al : Nat) (s1 : kstate) (cv1 al1 : Nat),
      alloc_1_loop k s (vpage v al) al = some (s1, cv1, al1) →
      ∃ ps : List Nat, ps.length = k ∧ al1 = al + k ∧
        s1.calls = s.calls ++ batch_calls pf_call.alloc_1 1 v al ps := by
  intro k
  induction k with
  | zero =>
    intro s al s1 cv1 al1 h
    simp only [alloc_1_loop, Option.some.injEq, Prod.mk.injEq] at h
    obtain ⟨e1, e2, e3⟩ := h
    subst e1 e2 e3
    exact ⟨[], rfl, rfl, by simp [batch_calls]⟩
  | succ k ih =>
    intro s al s1 cv1 al1 h
    simp only [alloc_1_loop] at h
    cases ha : alloc_pageframe s with
    | mk r sa =>
      rw [ha] at h
      cases r with
      | none => simp at h
      | some p =>
        simp only at h
        obtain ⟨fb, _, _, _, _, _, _, q5⟩ := alloc_ret_some 1 pf_call.alloc_1 s sa p ha
        have hcv : (vpage v al + PAGE_SIZE) % UPTR_MOD = vpage v (al + 1) := by
          have := vpage_step v al 1
          rwa [Nat.one_mul] at this
        rw [hcv] at h
        obtain ⟨ps, r1, r2, r4⟩ := ih _ _ _ _ _ h
        refine ⟨p :: ps, by simp only [List.length_cons]; omega, by omega, ?_⟩
        rw [r4]
        simp only [map_pages, q5, batch_calls, List.append_assoc, List.singleton_append,
          List.cons_append, List.nil_append]

theorem free_8_loop_calls :
    ∀ (k : Nat) (s : kstate) (cv : Nat) (s1 : kstate) (cv1 : Nat),
      free_8_loop k s cv = some (s1, cv1) → ∃ F, s1.calls = s.calls ++ F := by
  intro k
  induction k with
  | zero =>
    intro s cv s1 cv1 h
    simp only [free_8_loop, Option.some.injEq, Prod.mk.injEq] at h
    exact ⟨[], by rw [← h.1]; simp⟩
  | succ k ih =>
    intro s cv s1 cv1 h
    simp only [free_8_loop] at h
    cases hm : get_mapping s cv with
    | none => rw [hm] at h; simp at h
    | some pa =>
      rw [hm] at h
      obtain ⟨F, hF⟩ := ih _ _ _ _ h
      exact ⟨pf_call.free_8 pa :: F, by rw [hF]; simp [free_8_pageframes]⟩

theorem free_1_loop_calls :
    ∀ (k : Nat) (s : kstate) (cv : Nat) (s1 : kstate) (cv1 : Nat),
      free_1_loop k s cv = some (s1, cv1) → ∃ F, s1.calls = s.calls ++ F := by
  intro k
  induction k with
  | zero =>
    intro s cv s1 cv1 h
    simp only [free_1_loop, Option.some.injEq, Prod.mk.injEq] at h
    exact ⟨[], by rw [← h.1]; simp⟩
  | succ k ih =>
    intro s cv s1 cv1 h
    simp only [free_1_loop] at h
    cases hm : get_mapping s cv with
    | none => rw [hm] at h; simp at h
    | some pa =>
      rw [hm] at h
      obtain ⟨F, hF⟩ := ih _ _ _ _ h
      exact ⟨pf_call.free_1 pa :: F, by rw [hF]; simp [free_pageframe]⟩

theorem pg_free_and_unmap_calls (s s1 : kstate) (v n : Nat)
    (h : pg_free_and_unmap s v n = some s1) : ∃ F, s1.calls = s.calls ++ F := by
  unfold pg_free_and_unmap at h
  split at h
  · simp at h
  · simp only at h
    cases h8 : free_8_loop (n >>> 3) s v with
    | none => rw [h8] at h; simp at h
    | some r =>
      obtain ⟨sa, cva⟩ := r
      rw [h8] at h
      simp only at h
      cases h1 : free_1_loop (n - (n >>> 3) <<< 3) sa cva with
      | none => rw [h1] at h; simp at h
      | some r =>
        obtain ⟨sb, cvb⟩ := r
        rw [h1] at h
        simp only [Option.some.injEq] at h
        obtain ⟨F1, hF1⟩ := free_8_loop_calls _ _ _ _ _ h8
        obtain ⟨F2, hF2⟩ := free_1_loop_calls _ _ _ _ _ h1
        exact ⟨F1 ++ F2 ++ [pf_call.unmap v n], by
          rw [← h]; simp [unmap_pages, hF2, hF1]⟩

theorem alloc_8_loop_calls (v : Nat) :
    ∀ (k : Nat) (s : kstate) (al : Nat) (b : Bool) (s1 : kstate) (cv1 al1 : Nat),
      alloc_8_loop v k s (vpage v al) al = some (b, s1, cv1, al1) →
      (b = true → ∃ ps : List Nat, ps.length = k ∧ al1 = al + 8 * k ∧ cv1 = vpage v al1 ∧
        s1.calls = s.calls ++ batch_calls pf_call.alloc_8 8 v al ps) ∧
      (b = false → ∃ X F, s1.calls = s.calls ++ X ++ pf_call.alloc_8 none :: F) := by
  intro k
  induction k with
  | zero =>
    intro s al b s1 cv1 al1 h
    simp only [alloc_8_loop, Option.some.injEq, Prod.mk.injEq] at h
    obtain ⟨e0, e1, e2, e3⟩ := h
    subst e0 e1 e2 e3
    exact ⟨fun _ => ⟨[], rfl, rfl, rfl, by simp [batch_calls]⟩, fun hb => by simp at hb⟩
  | succ k ih =>
    intro s al b s1 cv1 al1 h
    simp only [alloc_8_loop] at h
    cases ha : alloc_8_pageframes s with
    | mk r sa =>
      rw [ha] at h
      cases r with
      | none =>
        simp only at h
        obtain ⟨_, _, _, q3⟩ := alloc_ret_none 8 pf_call.alloc_8 s sa ha
        cases hf : pg_free_and_unmap sa v al with
        | none => rw [hf] at h; simp at h
        | some sb =>
          rw [hf] at h
          simp only [Option.some.injEq, Prod.mk.injEq] at h
          obtain ⟨e0, e1, _, _⟩ := h
          subst e0 e1
          obtain ⟨F, hF⟩ := pg_free_and_unmap_calls sa sb v al hf
          exact ⟨fun hb => by simp at hb, fun _ => ⟨[], F, by rw [hF, q3]; simp⟩⟩
      | some p =>
        simp only at h
        obtain ⟨fb, _, _, _, _, _, _, q5⟩ := alloc_ret_some 8 pf_call.alloc_8 s sa p ha
        rw [vpage_step] at h
        obtain ⟨r1, r2⟩ := ih _ _ _ _ _ _ h
        constructor
        · intro hb
          obtain ⟨ps, a1, a2, a3, a4⟩ := r1 hb
          refine ⟨p :: ps, by simp only [List.length_cons]; omega, by omega, a3, ?_⟩
          rw [a4]
          simp only [map_pages, q5, batch_calls, List.append_assoc, List.singleton_append,
            List.cons_append, List.nil_append]
        · intro hb
          obtain ⟨X, F, hX⟩ := r2 hb
          refine ⟨pf_call.alloc_8 (some p) :: pf_call.map (vpage v al) p 8 :: X, F, ?_⟩
          rw [hX]
          simp only [map_pages, q5, List.append_assoc, List.singleton_append, List.cons_append,
            List.nil_append]

/-- C17 (greedy block decomposition). A call of `pg_alloc_and_map (v, n)` that
returns `true` has made these calls, in this order: `a` successful
`alloc_32_pageframes`, `a ≤ n / 32`, each followed by the mapping of the next
32 pages, then one failing `alloc_32_pageframes` if `a < n / 32` (none
after it); then exactly `(n - 32 a) / 8` successful `alloc_8_pageframes`, each
followed by the mapping of the next 8 pages; then exactly `n % 8` successful
`alloc_pageframe`, each followed by the mapping of the next page. A call that
returns `false` was stopped by the capacity check or has made a failing
`alloc_8_pageframes`: a failing `alloc_32_pageframes` alone does not make it
return `false`. -/
theorem pg_alloc_and_map_greedy (s s1 : kstate) (v n : Nat) (b : Bool) (hv : v < UPTR_MOD)
    (h : pg_alloc_and_map s v n = some (b, s1)) :
    (b = true → ∃ ps32 ps8 ps1 : List Nat,
      ps32.length ≤ n / 32 ∧ ps8.length = (n - 32 * ps32.length) / 8 ∧ ps1.length = n % 8 ∧
      s1.calls = s.calls ++ batch_calls pf_call.alloc_32 32 v 0 ps32 ++
        (if ps32.length < n / 32 then [pf_call.alloc_32 none] else []) ++
        batch_calls pf_call.alloc_8 8 v (32 * ps32.length) ps8 ++
        batch_calls pf_call.alloc_1 1 v (32 * ps32.length + 8 * ps8.length) ps1) ∧
    (b = false → get_free_pg_count s < n ∨
      ∃ X F, s1.calls = s.calls ++ X ++ pf_call.alloc_8 none :: F) := by
  unfold pg_alloc_and_map at h
  by_cases hal : v &&& (PAGE_SIZE - 1) = 0
  swap
  · rw [if_pos hal] at h; exact absurd h (by simp)
  rw [if_neg (by simpa using hal)] at h
  by_cases hc : get_free_pg_count s < n
  · rw [if_pos hc] at h
    simp only [Option.some.injEq, Prod.mk.injEq] at h
    obtain ⟨e1, e2⟩ := h
    subst e1 e2
    exact ⟨fun hb => by simp at hb, fun _ => Or.inl hc⟩
  rw [if_neg hc] at h
  have hv0 : vpage v 0 = v := by
    simp only [vpage, Nat.zero_mul, Nat.add_zero]
    exact Nat.mod_eq_of_lt hv
  simp only [shr3, shr5] at h
  cases h32 : alloc_32_loop (n / 32) s v 0 with
  | mk sa r =>
    obtain ⟨cva, ala⟩ := r
    rw [h32] at h
    simp only at h
    rw [← hv0] at h32
    obtain ⟨ps32, a1, a2, a3, a4⟩ := alloc_32_loop_calls v _ _ _ _ _ _ h32
    subst a3
    cases h8 : alloc_8_loop v ((n - ala) / 8) sa (vpage v ala) ala with
    | none => rw [h8] at h; simp at h
    | some r =>
      obtain ⟨b8, sb, cvb, alb⟩ := r
      rw [h8] at h
      obtain ⟨c1, c2⟩ := alloc_8_loop_calls v _ _ _ _ _ _ _ h8
      cases b8 with
      | false =>
        simp only [Option.some.injEq, Prod.mk.injEq] at h
        obtain ⟨e1, e2⟩ := h
        subst e1 e2
        obtain ⟨X, F, hX⟩ := c2 rfl
        refine ⟨fun hb => by simp at hb, fun _ => Or.inr
          ⟨batch_calls pf_call.alloc_32 32 v 0 ps32 ++
            (if ps32.length < n / 32 then [pf_call.alloc_32 none] else []) ++ X, F, ?_⟩⟩
        rw [hX, a4]
        simp only [List.append_assoc]
      | true =>
        simp only at h
        obtain ⟨ps8, d1, d2, d3, d4⟩ := c1 rfl
        subst d3
        cases h1 : alloc_1_loop (n - alb) sb (vpage v alb) alb with
        | none => rw [h1] at h; simp at h
        | some r =>
          obtain ⟨sc, cvc, alc⟩ := r
          rw [h1] at h
          simp only at h
          obtain ⟨ps1, f1, f2, f4⟩ := alloc_1_loop_calls v _ _ _ _ _ _ h1
          by_cases hn : alc = n
          · rw [if_pos hn] at h
            simp only [Option.some.injEq, Prod.mk.injEq] at h
            obtain ⟨e1, e2⟩ := h
            subst e1 e2
            simp only [Nat.zero_add] at a2
            refine ⟨fun _ => ⟨ps32, ps8, ps1, a1, by rw [d1, a2], by omega, ?_⟩,
              fun hb => by simp at hb⟩
            have e8 : 32 * ps32.length + 8 * ps8.length = alb := by rw [d1, ← a2, d2]
            rw [f4, d4, a4, e8, ← a2]
          · rw [if_neg hn] at h; simp at h

theorem demo_state_80_greedy_run :
    (pg_alloc_and_map demo_state_80 4096 70).map Prod.fst = some true := by decide

/-- C17, on the machine `demo_state_80`: a request for 70 pages is served by
one 32-frame block, a failing second `alloc_32_pageframes`, four 8-frame
blocks and six single frames. -/
theorem pg_alloc_and_map_greedy_witness :
    (4096 : Nat) < UPTR_MOD ∧
    ∃ s1, pg_alloc_and_map demo_state_80 4096 70 = some (true, s1) ∧
      ((true = true → ∃ ps32 ps8 ps1 : List Nat,
        ps32.length ≤ 70 / 32 ∧ ps8.length = (70 - 32 * ps32.length) / 8 ∧
        ps1.length = 70 % 8 ∧
        s1.calls = demo_state_80.calls ++ batch_calls pf_call.alloc_32 32 4096 0 ps32 ++
          (if ps32.length < 70 / 32 then [pf_call.alloc_32 none] else []) ++
          batch_calls pf_call.alloc_8 8 4096 (32 * ps32.length) ps8 ++
          batch_calls pf_call.alloc_1 1 4096 (32 * ps32.length + 8 * ps8.length) ps1) ∧
      (true = false → get_free_pg_count demo_state_80 < 70 ∨
        ∃ X F, s1.calls = demo_state_80.calls ++ X ++ pf_call.alloc_8 none :: F)) := by
  refine ⟨by decide, ?_⟩
  have hr := demo_state_80_greedy_run
  cases hres : pg_alloc_and_map demo_state_80 4096 70 with
  | none => rw [hres] at hr; simp at hr
  | some r =>
    obtain ⟨b, s1⟩ := r
    rw [hres] at hr
    simp only [Option.map_some', Option.some.injEq] at hr
    subst hr
    exact ⟨s1, rfl, pg_alloc_and_map_greedy demo_state_80 s1 4096 70 true (by decide) hres⟩

/-- The calls of that run, computed. -/
theorem demo_state_80_greedy_calls :
    (pg_alloc_and_map demo_state_80 4096 70).map (fun r => r.2.calls) =
      some (batch_calls pf_call.alloc_32 32 4096 0 [0] ++ [pf_call.alloc_32 none] ++
        batch_calls pf_call.alloc_8 8 4096 32 [32 * 4096, 48 * 4096, 56 * 4096, 72 * 4096] ++
        batch_calls pf_call.alloc_1 1 4096 64
          [41 * 4096, 42 * 4096, 43 * 4096, 44 * 4096, 45 * 4096, 46 * 4096]) := by decide

/-! ### The singles loop cannot fail -/

theorem alloc_block_one_some (a : pfa_state)
    (h : 0 < (List.range a.nframes).countP (fun i => !a.used i)) :
    ∃ r, alloc_block 1 a = some r := by
  obtain ⟨i, hi, hu⟩ := List.countP_pos_iff.mp h
  unfold alloc_block
  cases hf : (List.range (a.nframes / 1)).find? (fun g => group_free a (g * 1) 1) with
  | some g => exact ⟨_, rfl⟩
  | none =>
    exfalso
    rw [List.find?_eq_none] at hf
    have := hf i (by simpa using hi)
    simp [group_free] at this
    simp [this] at hu

theorem alloc_count_step (k : Nat) (s sa : kstate) (fb : Nat) (cv p : Nat) (us rw : Bool)
    (hfb : fb + k ≤ s.pfa.nframes) (hfree : ∀ i, fb ≤ i → i < fb + k → s.pfa.used i = false)
    (hpfa : sa.pfa = mark_used s.pfa fb k) :
    get_free_pg_count (map_pages sa cv p k us rw) + k = get_free_pg_count s := by
  have := countP_range_shift s.pfa.used (mark_used s.pfa fb k).used fb k s.pfa.nframes
    (fun i h1 h2 => ⟨hfree i h1 h2, by simp [mark_used, h1, h2]⟩)
    (fun i hi => by simp only [mark_used]; rw [if_neg hi])
  simp only [get_free_pg_count, map_pages, hpfa] at *
  simp only [mark_used] at *
  omega

theorem alloc_32_loop_count :
    ∀ (k : Nat) (s : kstate) (cv al : Nat) (s1 : kstate) (cv1 al1 : Nat),
      alloc_32_loop k s cv al = (s1, cv1, al1) →
      get_free_pg_count s1 + al1 = get_free_pg_count s + al ∧ al ≤ al1 ∧ al1 ≤ al + 32 * k := by
  intro k
  induction k with
  | zero =>
    intro s cv al s1 cv1 al1 h
    simp only [alloc_32_loop, Prod.mk.injEq] at h
    obtain ⟨e1, e2, e3⟩ := h
    subst e1 e2 e3
    exact ⟨rfl, Nat.le_refl _, by omega⟩
  | succ k ih =>
    intro s cv al s1 cv1 al1 h
    simp only [alloc_32_loop] at h
    cases ha : alloc_32_pageframes s with
    | mk r sa =>
      rw [ha] at h
      cases r with
      | none =>
        simp only [Prod.mk.injEq] at h
        obtain ⟨e1, e2, e3⟩ := h
        subst e1 e2 e3
        obtain ⟨_, q1, _, _⟩ := alloc_ret_none 32 pf_call.alloc_32 s sa ha
        exact ⟨by simp only [get_free_pg_count, q1], Nat.le_refl _, by omega⟩
      | some p =>
        simp only at h
        obtain ⟨fb, _, _, q1, q2, q3, _, _⟩ := alloc_ret_some 32 pf_call.alloc_32 s sa p ha
        have hc := alloc_count_step 32 s sa fb cv p false true q1 q2 q3
        obtain ⟨r1, r2, r3⟩ := ih _ _ _ _ _ _ h
        exact ⟨by omega, by omega, by omega⟩

theorem alloc_8_loop_count (v : Nat) :
    ∀ (k : Nat) (s : kstate) (cv al : Nat) (s1 : kstate) (cv1 al1 : Nat),
      alloc_8_loop v k s cv al = some (true, s1, cv1, al1) →
      get_free_pg_count s1 + al1 = get_free_pg_count s + al ∧ al1 = al + 8 * k := by
  intro k
  induction k with
  | zero =>
    intro s cv al s1 cv1 al1 h
    simp only [alloc_8_loop, Option.some.injEq, Prod.mk.injEq, true_and] at h
    obtain ⟨e1, e2, e3⟩ := h
    subst e1 e2 e3
    exact ⟨rfl, by omega⟩
  | succ k ih =>
    intro s cv al s1 cv1 al1 h
    simp only [alloc_8_loop] at h
    cases ha : alloc_8_pageframes s with
    | mk r sa =>
      rw [ha] at h
      cases r with
      | none =>
        simp only at h
        cases hf : pg_free_and_unmap sa v al with
        | none => rw [hf] at h; simp at h
        | some sb => rw [hf] at h; simp at h
      | some p =>
        simp only at h
        obtain ⟨fb, _, _, q1, q2, q3, _, _⟩ := alloc_ret_some 8 pf_call.alloc_8 s sa p ha
        have hc := alloc_count_step 8 s sa fb cv p false true q1 q2 q3
        obtain ⟨r1, r2⟩ := ih _ _ _ _ _ _ h
        exact ⟨by omega, by omega⟩

theorem alloc_pageframe_some (s : kstate) (h : 0 < get_free_pg_count s) :
    ∃ p s1, alloc_pageframe s = (some p, s1) := by
  obtain ⟨r, hr⟩ := alloc_block_one_some s.pfa h
  obtain ⟨p, a⟩ := r
  exact ⟨p, { s with pfa := a, calls := s.calls ++ [pf_call.alloc_1 (some p)] }, by
    simp only [alloc_pageframe, hr]⟩

theorem alloc_1_loop_total :
    ∀ (k : Nat) (s : kstate) (cv al : Nat), k ≤ get_free_pg_count s →
      ∃ s1 cv1, alloc_1_loop k s cv al = some (s1, cv1, al + k) := by
  intro k
  induction k with
  | zero =>
    intro s cv al _
    exact ⟨s, cv, rfl⟩
  | succ k ih =>
    intro s cv al hk
    obtain ⟨p, sa, ha⟩ := alloc_pageframe_some s (by omega)
    obtain ⟨fb, _, _, q1, q2, q3, _, _⟩ := alloc_ret_some 1 pf_call.alloc_1 s sa p ha
    have hc := alloc_count_step 1 s sa fb cv p false true q1 q2 q3
    obtain ⟨s1, cv1, h1⟩ := ih (map_pages sa cv p 1 false true)
      ((cv + PAGE_SIZE) % UPTR_MOD) (al + 1) (by omega)
    refine ⟨s1, cv1, ?_⟩
    simp only [alloc_1_loop, ha]
    rw [h1]
    congr 3
    omega

/-- C18 (the final single-page allocation cannot fail). In the sequential
model, where `get_free_pg_count` counts the free frames, `alloc_pageframe`
succeeds whenever a frame is free, and if `n ≤ get_free_pg_count s` at entry,
then every execution of `pg_alloc_and_map (v, n)` that reaches the singles
loop (the 32-frame loop has ended and the 8-frame loop has ended without
`return false`) completes that loop: no `alloc_pageframe` fails, so
`ASSERT(paddr != INVALID_PADDR)` holds at each iteration, and the loop ends
with `allocated = n`, so `ASSERT(allocated == page_count)` holds; for an
aligned `v` the call then returns `true`. -/
theorem pg_alloc_and_map_singles_cannot_fail (s : kstate) (v n : Nat)
    (hfree : n ≤ get_free_pg_count s) :
    (∀ t, 0 < get_free_pg_count t → ∃ p t1, alloc_pageframe t = (some p, t1)) ∧
    ∀ (s1 : kstate) (cv1 al1 : Nat) (s2 : kstate) (cv2 al2 : Nat),
      alloc_32_loop (n >>> 5) s v 0 = (s1, cv1, al1) →
      alloc_8_loop v ((n - al1) >>> 3) s1 cv1 al1 = some (true, s2, cv2, al2) →
      get_free_pg_count s2 + al2 = get_free_pg_count s ∧ al2 ≤ n ∧
      ∃ s3 cv3, alloc_1_loop (n - al2) s2 cv2 al2 = some (s3, cv3, n) ∧
        (v &&& (PAGE_SIZE - 1) = 0 → pg_alloc_and_map s v n = some (true, s3)) := by
  refine ⟨alloc_pageframe_some, ?_⟩
  intro s1 cv1 al1 s2 cv2 al2 h32 h8
  obtain ⟨a1, a2, a3⟩ := alloc_32_loop_count _ _ _ _ _ _ _ h32
  obtain ⟨b1, b2⟩ := alloc_8_loop_count v _ _ _ _ _ _ _ h8
  simp only [shr3, shr5] at a3 b2
  have hle : al2 ≤ n := by omega
  obtain ⟨s3, cv3, h1⟩ := alloc_1_loop_total (n - al2) s2 cv2 al2 (by omega)
  have e : al2 + (n - al2) = n := by omega
  rw [e] at h1
  refine ⟨by omega, hle, s3, cv3, h1, ?_⟩
  intro hal
  unfold pg_alloc_and_map
  rw [if_neg (by simpa using hal), if_neg (by omega)]
  simp only [h32, h8, h1, if_true]

theorem demo_state_singles_run :
    (alloc_8_loop 8192 ((13 - 0) >>> 3) demo_state 8192 0).map Prod.fst = some true := by
  decide

/-- C18, on the machine `demo_state` (46 free frames) with a request for 13
pages: no 32-frame block is asked for, one 8-frame block is obtained, and
the singles loop allocates the five remaining pages and ends with
`allocated = 13`. -/
theorem pg_alloc_and_map_singles_cannot_fail_witness :
    13 ≤ get_free_pg_count demo_state ∧
    alloc_32_loop (13 >>> 5) demo_state 8192 0 = (demo_state, 8192, 0) ∧
    ∃ s2 cv2 al2, alloc_8_loop 8192 ((13 - 0) >>> 3) demo_state 8192 0
        = some (true, s2, cv2, al2) ∧
      get_free_pg_count s2 + al2 = get_free_pg_count demo_state ∧ al2 ≤ 13 ∧
      ∃ s3 cv3, alloc_1_loop (13 - al2) s2 cv2 al2 = some (s3, cv3, 13) ∧
        (8192 &&& (PAGE_SIZE - 1) = 0 → pg_alloc_and_map demo_state 8192 13 = some (true, s3)) := by
  refine ⟨by decide, rfl, ?_⟩
  have hr := demo_state_singles_run
  cases hres : alloc_8_loop 8192 ((13 - 0) >>> 3) demo_state 8192 0 with
  | none => rw [hres] at hr; simp at hr
  | some r =>
    obtain ⟨b, s2, cv2, al2⟩ := r
    rw [hres] at hr
    simp only [Option.map_some', Option.some.injEq] at hr
    subst hr
    exact ⟨s2, cv2, al2, rfl,
      (pg_alloc_and_map_singles_cannot_fail demo_state 8192 13 (by decide)).2
        demo_state 8192 0 s2 cv2 al2 rfl hres⟩

/-- C15, on the table with `/` and `/mnt/data`: resolving `/mnt/data/file`
retains filesystem 200 once and leaves filesystem 100 alone; resolving `etc`,
which no mountpoint matches, retains nothing. -/
theorem get_retained_fs_at_retains_witness :
    (get_retained_fs_at mp_check_match demo_mounts "/mnt/data/file".toList).1.1 = some 200 ∧
    ((get_retained_fs_at mp_check_match demo_mounts "/mnt/data/file".toList).2.fs_ref_count 200
        = demo_mounts.fs_ref_count 200 + 1 ∧
      ∀ g, g ≠ 200 →
        (get_retained_fs_at mp_check_match demo_mounts "/mnt/data/file".toList).2.fs_ref_count g
          = demo_mounts.fs_ref_count g) ∧
    (get_retained_fs_at mp_check_match demo_mounts "etc".toList).1.1 = none ∧
    (get_retained_fs_at mp_check_match demo_mounts "etc".toList).2.fs_ref_count
      = demo_mounts.fs_ref_count :=
  ⟨by decide,
   (get_retained_fs_at_retains mp_check_match demo_mounts "/mnt/data/file".toList).2.2 200
     (by decide),
   by decide,
   (get_retained_fs_at_retains mp_check_match demo_mounts "etc".toList).2.1 (by decide)⟩

end Tilck
